import Mathlib

/-!
# Verification of `keywordtree.py` (Pygrep)

Shallow embedding of the Aho-Corasick keyword tree from `src/keywordtree.py`.

Modelling conventions:
* Python `State` objects live in an arena (`Array PState`); a state's
  `identifier` is its index in the arena (the source assigns identifiers from a
  counter in creation order and the arena is pushed in creation order, so the
  two coincide; `self._counter` is always `states.size`).
* Python strings are `List Char` (`Str`); `str.lower()` is `Char.toLower`
  applied pointwise (faithful on the ASCII texts in all claims).
* Python dicts (`transitions`) are association lists in insertion order; the
  source only ever inserts at a key that is absent, so insertion is appending.
* Python object identity (`is` / `is not`) is identity of arena indices.
* Fallible / possibly non-terminating code returns `POut`:
  `.exn` models the `ValueError` ("StateError") raises, `.crash` models an
  `AttributeError` from dereferencing a `None` link, `.fuel` models running
  out of fuel (covers genuine non-termination of the unbounded loops).
  All internal fuels are derived from the arena size and are large enough
  for every tree the API can build (proved for the termination claim).
-/

namespace Pygrep

abbrev Str := List Char

/-- Outcome of running a piece of the Python code. -/
inductive POut (α : Type) where
  | ok (a : α)
  | exn
  | crash
  | fuel
  deriving DecidableEq, Repr

/-- `State.__init__` fields (identifier is the arena index). -/
structure PState where
  symbol : Option Char
  parent : Option Nat
  success : Bool
  matched_keyword : Option Str
  transitions : List (Char × Nat)
  longest_strict_suffix : Option Nat
  deriving DecidableEq, Repr

/-- The keyword tree: the arena of states plus the two flags of
`KeywordTree.__init__`.  `_counter` is represented by `states.size`. -/
structure KeywordTree where
  states : Array PState
  finalized : Bool
  case_insensitive : Bool
  deriving DecidableEq, Repr

/-- The zero state created by `KeywordTree.__init__`. -/
def rootState : PState :=
  { symbol := none, parent := none, success := false,
    matched_keyword := none, transitions := [], longest_strict_suffix := none }

/-- `KeywordTree(case_insensitive=ci)`. -/
def KeywordTree.new (ci : Bool) : KeywordTree :=
  { states := #[rootState], finalized := false, case_insensitive := ci }

/-- Association-list lookup, first match; mirrors Python dict lookup
(keys are unique by construction). -/
def alookup : List (Char × Nat) → Char → Option Nat
  | [], _ => none
  | (k, v) :: r, c => if k = c then some v else alookup r c

def getSt (a : Array PState) (i : Nat) : Option PState := a.get? i

/-- `state.transitions.get(c)` for the state at index `i`. -/
def lookupTrans (a : Array PState) (i : Nat) (c : Char) : Option Nat :=
  match getSt a i with
  | none => none
  | some s => alookup s.transitions c

/-- `state.transitions[c] = t` at a key that is currently absent
(the only kind of dict write the source performs). -/
def addEdge (a : Array PState) (i : Nat) (c : Char) (t : Nat) : Array PState :=
  a.modify i (fun s => { s with transitions := s.transitions ++ [(c, t)] })

/-- `state.longest_strict_suffix = states[j]`. -/
def setLss (a : Array PState) (i : Nat) (j : Nat) : Array PState :=
  a.modify i (fun s => { s with longest_strict_suffix := some j })

/-- `str.lower()` (pointwise ASCII lowering). -/
def lowerStr (s : Str) : Str := s.map Char.toLower

/-- `State(counter, parent=cur, symbol=c)` as created inside `add`. -/
def newNode (c : Char) (parentId : Nat) : PState :=
  { symbol := some c, parent := some parentId, success := false,
    matched_keyword := none, transitions := [], longest_strict_suffix := none }

/-- The character walk of `KeywordTree.add`: follow existing transitions,
create missing states; returns the arena and the index of the final state. -/
def addAux : Array PState → Nat → Str → Array PState × Nat
  | a, cur, [] => (a, cur)
  | a, cur, c :: cs =>
    match lookupTrans a cur c with
    | some next => addAux a next cs
    | none =>
      let nid := a.size
      let a1 := a.push (newNode c cur)
      addAux (addEdge a1 cur c nid) nid cs

/-- Mark the end of an inserted keyword:
`current_state.success = True; current_state.matched_keyword = original`. -/
def markEnd (a : Array PState) (e : Nat) (original : Str) : Array PState :=
  a.modify e (fun s => { s with success := true, matched_keyword := some original })

/-- `KeywordTree.add`. -/
def KeywordTree.add (t : KeywordTree) (keyword : Str) : POut KeywordTree :=
  if t.finalized then .exn
  else
    let original := keyword
    let kw := if t.case_insensitive then lowerStr keyword else keyword
    if kw.length = 0 then .ok t
    else
      let r := addAux t.states 0 kw
      .ok { t with states := markEnd r.1 r.2 original }

/-- `add` wrapped for folding over keyword lists: `add` on an unfinalized tree
always succeeds, so the fallback branch is never taken there. -/
def addOr (t : KeywordTree) (k : Str) : KeywordTree :=
  match t.add k with
  | .ok t2 => t2
  | _ => t

/-- Build a fresh tree and insert the given keywords in order. -/
def buildTree (ci : Bool) (kws : List Str) : KeywordTree :=
  kws.foldl addOr (KeywordTree.new ci)

/-! ## `search_all` -/

/-- The transition step of `search_all`:
`current.transitions.get(sym, zero.transitions.get(sym, zero))`. -/
def stepState (a : Array PState) (cur : Nat) (c : Char) : Nat :=
  match lookupTrans a cur c with
  | some n => n
  | none =>
    match lookupTrans a 0 c with
    | some n => n
    | none => 0

/-- The inner `while state is not zero_state` loop of `search_all`: walk the
suffix chain from `sid`, appending `matched_keyword` of every success state. -/
def emitChain (a : Array PState) :
    Nat → Nat → List (Option Str) → POut (List (Option Str))
  | 0, _, _ => .fuel
  | _ + 1, 0, acc => .ok acc
  | f + 1, sid, acc =>
    match getSt a sid with
    | none => .crash
    | some s =>
      let acc1 := if s.success then acc ++ [s.matched_keyword] else acc
      match s.longest_strict_suffix with
      | none => .crash
      | some nxt => emitChain a f nxt acc1

/-- The `for idx, symbol in enumerate(text)` loop of `search_all`. -/
def searchLoop (a : Array PState) (fc : Nat) :
    Nat → Str → List (Option Str) → POut (List (Option Str))
  | _, [], acc => .ok acc
  | cur, c :: rest, acc =>
    let nxt := stepState a cur c
    match emitChain a fc nxt acc with
    | .ok acc1 => searchLoop a fc nxt rest acc1
    | .exn => .exn
    | .crash => .crash
    | .fuel => .fuel

/-- `KeywordTree.search_all`. -/
def KeywordTree.search_all (t : KeywordTree) (text : Str) : POut (List (Option Str)) :=
  if t.finalized = false then .exn
  else
    let text1 := if t.case_insensitive then lowerStr text else text
    searchLoop t.states (t.states.size + 1) 0 text1 []

/-! ## `finalize` -/

/-- The hit test of the `search_lss` walk:
`state.symbol in traversed.transitions and traversed.transitions[state.symbol]
is not state`, returning the transition target on a hit. -/
def lssHit (ts : PState) (sym : Option Char) (sid : Nat) : Option Nat :=
  match sym with
  | none => none
  | some c =>
    match alookup ts.transitions c with
    | some tgt => if tgt = sid then none else some tgt
    | none => none

/-- The `while True` walk of `search_lss` looking for the longest strict
suffix of the state `sid` (with symbol `sym`), starting at `traversed`. -/
def lssWalk (a : Array PState) (sym : Option Char) (sid : Nat) :
    Nat → Nat → POut Nat
  | 0, _ => .fuel
  | f + 1, traversed =>
    match getSt a traversed with
    | none => .crash
    | some ts =>
      match lssHit ts sym sid with
      | some tgt => .ok tgt
      | none =>
        if traversed = 0 then .ok 0
        else
          match ts.longest_strict_suffix with
          | none => .crash
          | some nxt => lssWalk a sym sid f nxt

/-- The transition-merging loop at the end of `search_lss`: for each entry of
the suffix state's transitions, copy it into `sid`'s transitions if the symbol
is absent there. -/
def mergeInto (a : Array PState) (sid : Nat) : List (Char × Nat) → Array PState
  | [] => a
  | (c, tgt) :: rest =>
    match lookupTrans a sid c with
    | some _ => mergeInto a sid rest
    | none => mergeInto (addEdge a sid c tgt) sid rest

/-- `KeywordTree.search_lss` (fuel bounds the recursion depth of the
`if suffix.longest_strict_suffix is None: self.search_lss(suffix)` call). -/
def searchLss (a : Array PState) (sid : Nat) : Nat → POut (Array PState)
  | 0 => .fuel
  | fuel + 1 =>
    match getSt a sid with
    | none => .crash
    | some s =>
      match s.parent with
      | none => .crash
      | some p =>
        match getSt a p with
        | none => .crash
        | some ps =>
          match ps.longest_strict_suffix with
          | none => .crash
          | some pl =>
            match lssWalk a s.symbol sid (a.size + 1) pl with
            | .ok suffix =>
              let a1 := setLss a sid suffix
              if suffix = 0 then .ok a1
              else
                match getSt a1 suffix with
                | none => .crash
                | some sfx =>
                  match (if sfx.longest_strict_suffix = none
                         then searchLss a1 suffix fuel else .ok a1) with
                  | .ok a2 =>
                    match getSt a2 suffix with
                    | none => .crash
                    | some sfx2 => .ok (mergeInto a2 sid sfx2.transitions)
                  | .exn => .exn
                  | .crash => .crash
                  | .fuel => .fuel
            | .exn => .exn
            | .crash => .crash
            | .fuel => .fuel

/-- The `for child in state.transitions.values()` loop of
`search_lss_for_children`: run `search_lss` on each not-yet-processed child and
push it on the worklist (the worklist head is the top, matching
`list.append` / `list.pop`). -/
def procKids (nodeFuel : Nat) (processed : List Nat) :
    Array PState → List (Char × Nat) → List Nat → POut (Array PState × List Nat)
  | a, [], stack => .ok (a, stack)
  | a, (_, child) :: rest, stack =>
    if child ∈ processed then procKids nodeFuel processed a rest stack
    else
      match searchLss a child nodeFuel with
      | .ok a2 => procKids nodeFuel processed a2 rest (child :: stack)
      | .exn => .exn
      | .crash => .crash
      | .fuel => .fuel

/-- The `while to_process` loop of `search_lss_for_children`. -/
def dfsLoop (nodeFuel : Nat) :
    Nat → Array PState → List Nat → List Nat → POut (Array PState)
  | 0, _, _, _ => .fuel
  | f + 1, a, processed, stack =>
    match stack with
    | [] => .ok a
    | sid :: rest =>
      let processed1 := sid :: processed
      match getSt a sid with
      | none => .crash
      | some s =>
        match procKids nodeFuel processed1 a s.transitions rest with
        | .ok r => dfsLoop nodeFuel f r.1 processed1 r.2
        | .exn => .exn
        | .crash => .crash
        | .fuel => .fuel

/-- `dfsLoop` instrumented to also return the final `processed` list (used to
state which nodes the worklist loop has visited; erased by `dfsLoopP_erase`). -/
def dfsLoopP (nodeFuel : Nat) :
    Nat → Array PState → List Nat → List Nat → POut (Array PState × List Nat)
  | 0, _, _, _ => .fuel
  | f + 1, a, processed, stack =>
    match stack with
    | [] => .ok (a, processed)
    | sid :: rest =>
      let processed1 := sid :: processed
      match getSt a sid with
      | none => .crash
      | some s =>
        match procKids nodeFuel processed1 a s.transitions rest with
        | .ok r => dfsLoopP nodeFuel f r.1 processed1 r.2
        | .exn => .exn
        | .crash => .crash
        | .fuel => .fuel

/-- `KeywordTree.finalize`. -/
def KeywordTree.finalize (t : KeywordTree) : POut KeywordTree :=
  if t.finalized then .exn
  else
    let a := setLss t.states 0 0
    let n := a.size
    match dfsLoop (n + 1) (n * n + 2) a [] [0] with
    | .ok a2 => .ok { t with states := a2, finalized := true }
    | .exn => .exn
    | .crash => .crash
    | .fuel => .fuel

/-! ## Position-instrumented `search_all`

`search_all` returns only the matched keywords; the claims about ending
positions and per-position match multisets are stated through this
instrumented copy of the same loop, which additionally records the 0-based
index of the text symbol being processed when each keyword is emitted.
Erasing the positions recovers `search_all` (proved below). -/

def emitChainPos (a : Array PState) (idx : Nat) :
    Nat → Nat → List (Nat × Option Str) → POut (List (Nat × Option Str))
  | 0, _, _ => .fuel
  | _ + 1, 0, acc => .ok acc
  | f + 1, sid, acc =>
    match getSt a sid with
    | none => .crash
    | some s =>
      let acc1 := if s.success then acc ++ [(idx, s.matched_keyword)] else acc
      match s.longest_strict_suffix with
      | none => .crash
      | some nxt => emitChainPos a idx f nxt acc1

def searchLoopPos (a : Array PState) (fc : Nat) :
    Nat → Nat → Str → List (Nat × Option Str) → POut (List (Nat × Option Str))
  | _, _, [], acc => .ok acc
  | idx, cur, c :: rest, acc =>
    let nxt := stepState a cur c
    match emitChainPos a idx fc nxt acc with
    | .ok acc1 => searchLoopPos a fc (idx + 1) nxt rest acc1
    | .exn => .exn
    | .crash => .crash
    | .fuel => .fuel

def KeywordTree.searchAllPos (t : KeywordTree) (text : Str) :
    POut (List (Nat × Option Str)) :=
  if t.finalized = false then .exn
  else
    let text1 := if t.case_insensitive then lowerStr text else text
    searchLoopPos t.states (t.states.size + 1) 0 0 text1 []

/-! ## The CLI `main`

`main` reads `argv` and the lines of the file `argv[1]`; we model it as a
function of the argument vector and the list of file lines.  `none` models the
branch that prints the usage text (`readme()`) and the (unreachable for
API-built trees) propagation of a raised error from `finalize`/`search_all`. -/

/-- The per-line loop of `main`: `i` is the 0-based line index, the returned
list holds the 1-based indices of lines satisfying the connector predicate. -/
def mainLines (t : KeywordTree) (kw : List Str) (isAnd : Bool) :
    Nat → List String → Option (List Nat)
  | _, [] => some []
  | i, line :: rest =>
    match t.search_all line.toList with
    | .ok result =>
      let keep := if isAnd then kw.all (fun k => result.contains (some k))
                  else kw.any (fun k => result.contains (some k))
      match mainLines t kw isAnd (i + 1) rest with
      | some tail => some (if keep then (i + 1) :: tail else tail)
      | none => none
    | _ => none

/-- The keyword tree that `main` builds: note the loop
`for i in range(2, args): kwtree.add(argv[i])` seeds it from `argv[2:]`,
and the flag maps `'false'` to `case_insensitive=True`. -/
def mainTree (argv : List String) : KeywordTree :=
  let ci := (argv.get? 2 = some "false")
  buildTree ci ((argv.drop 2).map String.toList)

/-- `main()`, given `argv` and the lines read from the file. -/
def mainModel (argv : List String) (filelines : List String) : Option (List Nat) :=
  let args := argv.length
  if args < 6 then none
  else if argv.get? 2 ≠ some "true" ∧ argv.get? 2 ≠ some "false" then none
  else if argv.get? 3 ≠ some "and" ∧ argv.get? 3 ≠ some "or" then none
  else
    let kw := (argv.drop 4).map String.toList
    match (mainTree argv).finalize with
    | .ok t => mainLines t kw (argv.get? 3 = some "and") 0 filelines
    | _ => none

/-! ## Helper definitions for the claims -/

/-- Shorthand for string literals as `Str`. -/
def str (s : String) : Str := s.toList

/-- The finalized tree, when `finalize` succeeds (used to name concrete
finalized automata in closed statements). -/
def finTree (t : KeywordTree) : KeywordTree :=
  match t.finalize with
  | .ok t2 => t2
  | _ => t

/-- Build from `kws`, finalize, then `search_all`. -/
def searchResult (t0 : KeywordTree) (text : Str) : POut (List (Option Str)) :=
  match t0.finalize with
  | .ok t => t.search_all text
  | .exn => .exn
  | .crash => .crash
  | .fuel => .fuel

/-- Build, finalize, then the position-instrumented search. -/
def searchPosResult (t0 : KeywordTree) (text : Str) : POut (List (Nat × Option Str)) :=
  match t0.finalize with
  | .ok t => t.searchAllPos text
  | .exn => .exn
  | .crash => .crash
  | .fuel => .fuel

/-- Brute-force matching: the keywords of `kws` equal to some (nonempty)
substring of `text` ending at position `p` (i.e. nonempty suffixes of
`text[0..p]`). -/
def bruteAt (kws : List Str) (text : Str) (p : Nat) : List Str :=
  kws.filter (fun k => k ≠ [] ∧ k <:+ text.take (p + 1))

/-- The classic Aho-Corasick example keyword set of the spec. -/
def c1kws : List Str :=
  [str "a", str "ab", str "bab", str "bc", str "bca", str "c", str "caa"]

def c1tree : KeywordTree := buildTree false c1kws

def c1text : Str := str "abccab"

/-- The matches `search_all` finds on the C1 example, with ending positions. -/
def c1emitted : List (Nat × Option Str) :=
  [(0, some (str "a")), (1, some (str "ab")), (2, some (str "bc")),
   (2, some (str "c")), (3, some (str "c")), (4, some (str "a")),
   (5, some (str "ab"))]

/-- A `KeywordTree` record in the finalized phase (for phase-error witnesses). -/
def c3tree : KeywordTree :=
  { states := #[rootState], finalized := true, case_insensitive := false }

def c8tree : KeywordTree := finTree (buildTree false [str "ab", str "c"])

def c10once : KeywordTree := buildTree true [str "Cat"]

def c10twice : KeywordTree := addOr c10once (str "CAT")

/-- Pure transition walk (no node creation); `addAux` degenerates to this
walk when the keyword's path already exists. -/
def walk (a : Array PState) : Nat → Str → Option Nat
  | cur, [] => some cur
  | cur, c :: cs =>
    match lookupTrans a cur c with
    | some nxt => walk a nxt cs
    | none => none

/-- Well-formed bounds of a build-phase arena: every transition target is a
valid index. -/
def WFB (a : Array PState) : Prop :=
  ∀ i c j, lookupTrans a i c = some j → j < a.size

/-! ## Depth and path of a node (through the parent back-references) -/

/-- Depth of node `i` (length of the parent chain), with explicit fuel; in a
well-formed arena parents have strictly smaller indices, so fuel `i` always
suffices. -/
def depthF (a : Array PState) : Nat → Nat → Nat
  | 0, _ => 0
  | f + 1, i =>
    match getSt a i with
    | none => 0
    | some s =>
      match s.parent with
      | none => 0
      | some p => depthF a f p + 1

def depth (a : Array PState) (i : Nat) : Nat := depthF a i i

/-- The string spelled along the parent chain from the root to node `i`
(the node's represented prefix), with fuel as in `depthF`. -/
def pathF (a : Array PState) : Nat → Nat → Str
  | 0, _ => []
  | f + 1, i =>
    match getSt a i with
    | none => []
    | some s =>
      match s.parent, s.symbol with
      | some p, some c => pathF a f p ++ [c]
      | _, _ => []

def path (a : Array PState) (i : Nat) : Str := pathF a i i

/-- Parents have strictly smaller indices (holds for every arena the code
builds, since states are appended in creation order). -/
def ParentDec (a : Array PState) : Prop :=
  ∀ i s p, getSt a i = some s → s.parent = some p → p < i

/-- Two arenas with identical parent/symbol structure (everything `depth` and
`path` depend on). -/
def skelEq (a b : Array PState) : Prop :=
  ∀ i, (getSt a i).map (fun s => (s.parent, s.symbol))
     = (getSt b i).map (fun s => (s.parent, s.symbol))

/-- Two arenas with identical success/matched-keyword data. -/
def succEq (a b : Array PState) : Prop :=
  ∀ i, (getSt a i).map (fun s => (s.success, s.matched_keyword))
     = (getSt b i).map (fun s => (s.success, s.matched_keyword))

/-- The keyword normalization `add` and `search_all` apply. -/
def norm (ci : Bool) (s : Str) : Str := if ci then lowerStr s else s

/-- Length of a reported `matched_keyword` value. -/
def kwLen (o : Option Str) : Nat := (o.getD []).length

/-- The emission order `search_all` guarantees: earlier ending position, or
same ending position and strictly longer keyword. -/
def POrder (x y : Nat × Option Str) : Prop :=
  x.1 < y.1 ∨ (x.1 = y.1 ∧ kwLen y.2 < kwLen x.2)

/-- `POut.map`. -/
def pmap (f : α → β) : POut α → POut β
  | .ok a => .ok (f a)
  | .exn => .exn
  | .crash => .crash
  | .fuel => .fuel

/-- Build-phase invariant of the arena: the root has no parent and no symbol,
every other node has a parent with smaller index and a symbol, the parent's
transition on the node's symbol is the node itself, every transition edge is a
parent edge into a valid non-root target, and no suffix link is set yet. -/
structure BInv (a : Array PState) : Prop where
  hsize : 0 < a.size
  hroot : ∀ s, getSt a 0 = some s → s.parent = none ∧ s.symbol = none
  hdec : ParentDec a
  hsym : ∀ i s, getSt a i = some s → i ≠ 0 →
    (∃ p, s.parent = some p) ∧ (∃ c, s.symbol = some c)
  horig : ∀ i s p c, getSt a i = some s → s.parent = some p → s.symbol = some c →
    lookupTrans a p c = some i
  hbedge : ∀ i s, getSt a i = some s → ∀ c t, (c, t) ∈ s.transitions →
    t ≠ 0 ∧ t < a.size ∧ ∃ s2, getSt a t = some s2 ∧ s2.parent = some i ∧ s2.symbol = some c
  hlssnone : ∀ i s, getSt a i = some s → s.longest_strict_suffix = none

/-- Invariant maintained through `finalize`: the structural build facts, plus
bounds on every transition edge (original or merged) and on every suffix link
that has been set. -/
structure FInv (a : Array PState) : Prop where
  hsize : 0 < a.size
  hroot : ∀ s, getSt a 0 = some s → s.parent = none ∧ s.symbol = none
  hdec : ParentDec a
  hsym : ∀ i s, getSt a i = some s → i ≠ 0 →
    (∃ p, s.parent = some p) ∧ (∃ c, s.symbol = some c)
  horig : ∀ i s p c, getSt a i = some s → s.parent = some p → s.symbol = some c →
    lookupTrans a p c = some i
  hedge : ∀ i s, getSt a i = some s → ∀ c t, (c, t) ∈ s.transitions →
    t ≠ 0 ∧ t < a.size ∧ depth a t ≤ depth a i + 1 ∧ path a t <:+ path a i ++ [c]
  hlss0 : ∀ s j, getSt a 0 = some s → s.longest_strict_suffix = some j → j = 0
  hlss : ∀ i s j, getSt a i = some s → i ≠ 0 → s.longest_strict_suffix = some j →
    j < a.size ∧ depth a j < depth a i ∧ path a j <:+ path a i

/-- Matched-keyword invariant: every success node stores one of the inserted
keywords, whose normalization is the node's path. -/
def HM (ci : Bool) (kws : List Str) (a : Array PState) : Prop :=
  ∀ i s, getSt a i = some s → s.success = true →
    ∃ kw, kw ∈ kws ∧ s.matched_keyword = some kw ∧ path a i = norm ci kw

/-- What the finalize-phase arena operations never change: the size, the
parent/symbol skeleton, the success/matched data; and they only ever add
transitions, never remove or overwrite them. -/
def lssSetAt (a : Array PState) (i : Nat) : Prop :=
  ∃ s j, getSt a i = some s ∧ s.longest_strict_suffix = some j

def frameF (a b : Array PState) : Prop :=
  b.size = a.size ∧ skelEq b a ∧ succEq b a ∧
  (∀ i c j, lookupTrans a i c = some j → lookupTrans b i c = some j) ∧
  (∀ i, lssSetAt a i → lssSetAt b i) ∧
  ∀ i s s2, getSt a i = some s → getSt b i = some s2 →
    s.transitions <+: s2.transitions

/-- Matched-keyword-length invariant: every success node's stored keyword has
the node's depth as its length (consequence of `HM`). -/
def MLen (a : Array PState) : Prop :=
  ∀ i s, getSt a i = some s → s.success = true → kwLen s.matched_keyword = depth a i

/-- `b` extends `a` without touching any field of existing nodes except their
transition tables (what a build-phase `addAux` does to the arena). -/
def fieldsPres (a b : Array PState) : Prop :=
  ∀ i s, getSt a i = some s → ∃ s2, getSt b i = some s2 ∧
    s2.parent = s.parent ∧ s2.symbol = s.symbol ∧
    s2.success = s.success ∧ s2.matched_keyword = s.matched_keyword ∧
    s2.longest_strict_suffix = s.longest_strict_suffix

/-- No node's transition table has a duplicate key: both `add` and the merge
loop of `search_lss` write `transitions[c]` only when `c` is absent, so the
association lists faithfully model Python dicts. -/
def NK (a : Array PState) : Prop :=
  ∀ i s, getSt a i = some s → (s.transitions.map Prod.fst).Nodup

/-- Every transition target's parent is either the owning node itself (an
original trie edge) or a node whose suffix link is already set (a merged edge,
copied out of a resolved suffix state): this is what makes the
`state.parent.longest_strict_suffix` read at the top of `search_lss` safe. -/
def PT (a : Array PState) : Prop :=
  ∀ i s, getSt a i = some s → ∀ c t, (c, t) ∈ s.transitions →
    ∃ ts pt, getSt a t = some ts ∧ ts.parent = some pt ∧
      (pt = i ∨ lssSetAt a pt)

/-- Suffix-chain closure below depth `D`: every set suffix link out of a node
of depth `< D` points to a node whose own link is also set, so suffix-link
walks through shallow nodes never read an unset link. -/
def CCD (a : Array PState) (D : Nat) : Prop :=
  ∀ i s j, getSt a i = some s → s.longest_strict_suffix = some j →
    D ≤ depth a i ∨ lssSetAt a j

/-- Full suffix-chain closure: every set suffix link points to a node whose
own link is set. -/
def CCfull (a : Array PState) : Prop :=
  ∀ i s j, getSt a i = some s → s.longest_strict_suffix = some j → lssSetAt a j

/-- The good-state bundle maintained across the whole `finalize` run. -/
def GInv (a : Array PState) : Prop :=
  FInv a ∧ NK a ∧ PT a ∧ lssSetAt a 0

/-- Worklist-order invariant of `search_lss_for_children`: a processed node
that still has copies on the stack already had every one of its children
accounted for (processed, or sitting above that copy), so re-popping the copy
pushes nothing. -/
def SINV (a : Array PState) (processed stack : List Nat) : Prop :=
  ∀ k u, stack.get? k = some u → u ∈ processed →
    ∀ s, getSt a u = some s → ∀ c v, (c, v) ∈ s.transitions →
      v ∈ processed ∨ v ∈ stack.take k

/-- Lookup monotonicity from a base arena: every transition of `b` is still
present (same target) in `a`. -/
def LMono (b a : Array PState) : Prop :=
  ∀ q c j, lookupTrans b q c = some j → lookupTrans a q c = some j

/-- Merge coverage relative to the base (build-phase) arena `b`: every node
whose suffix link points to a non-root node `q` has an entry for every symbol
`q` maps in `b` (what the final transition-copy loop of `search_lss`
guarantees). -/
def MCov (b a : Array PState) : Prop :=
  ∀ i s q, getSt a i = some s → s.longest_strict_suffix = some q → q ≠ 0 →
    ∀ c j, lookupTrans b q c = some j → ∃ j2, lookupTrans a i c = some j2

/-- Unresolved nodes still carry their build-phase transition table: the
finalize phase only writes the table of a node after setting its link. -/
def Pristine (b a : Array PState) : Prop :=
  ∀ x s, getSt a x = some s → s.longest_strict_suffix = none →
    ∀ c, lookupTrans a x c = lookupTrans b x c

/-- The per-node resolution invariant of a set suffix link: re-running the
suffix walk in the current arena reproduces the stored link, and (for a
non-root link) the node's table agrees with its suffix target's table at every
symbol the build phase left unmapped — the transition-completion property. -/
def WOne (b a : Array PState) (x : Nat) (s : PState) (q : Nat) : Prop :=
  (∃ p ps pl, s.parent = some p ∧ getSt a p = some ps ∧
    ps.longest_strict_suffix = some pl ∧
    lssWalk a s.symbol x (a.size + 1) pl = .ok q) ∧
  (q ≠ 0 → ∀ c, lookupTrans b x c = none →
    lookupTrans a x c = lookupTrans a q c)

/-- Every resolved non-root node satisfies the resolution invariant. -/
def WAll (b a : Array PState) : Prop :=
  ∀ x s q, getSt a x = some s → s.longest_strict_suffix = some q → x ≠ 0 →
    WOne b a x s q

/-! ## Basic arena lemmas -/

theorem getSt_modify (a : Array PState) (i j : Nat) (f : PState → PState) :
    getSt (a.modify i f) j = if i = j then (getSt a j).map f else getSt a j := by
  simp only [getSt, Array.get?_eq_getElem?, Array.getElem?_modify]

theorem getSt_push (a : Array PState) (x : PState) (j : Nat) :
    getSt (a.push x) j = if j = a.size then some x else getSt a j := by
  simp only [getSt, Array.get?_eq_getElem?, Array.getElem?_push]

theorem getSt_lt {a : Array PState} {i : Nat} {s : PState}
    (h : getSt a i = some s) : i < a.size := by
  by_contra hlt
  rw [getSt, Array.get?_eq_getElem?, Array.getElem?_eq_none_iff.2 (Nat.le_of_not_lt hlt)] at h
  exact Option.noConfusion h

theorem size_addEdge (a : Array PState) (k : Nat) (c : Char) (t : Nat) :
    (addEdge a k c t).size = a.size := Array.size_modify ..

theorem size_markEnd (a : Array PState) (e : Nat) (o : Str) :
    (markEnd a e o).size = a.size := Array.size_modify ..

theorem size_setLss (a : Array PState) (i j : Nat) :
    (setLss a i j).size = a.size := Array.size_modify ..

theorem alookup_append_of_some {l l2 : List (Char × Nat)} {c : Char} {j : Nat}
    (h : alookup l c = some j) : alookup (l ++ l2) c = some j := by
  induction l with
  | nil => exact absurd h (by simp [alookup])
  | cons p r ih =>
    rw [List.cons_append]
    rw [alookup] at h ⊢
    split at h
    · rw [if_pos ‹_›]; exact h
    · rw [if_neg ‹_›]; exact ih h

theorem alookup_append_of_none {l l2 : List (Char × Nat)} {c : Char}
    (h : alookup l c = none) : alookup (l ++ l2) c = alookup l2 c := by
  induction l with
  | nil => simp
  | cons p r ih =>
    rw [List.cons_append]
    rw [alookup] at h ⊢
    split at h
    · exact absurd h (by simp)
    · rw [if_neg ‹_›]; exact ih h

/-- Looking up after appending another key: the appended entry is seen exactly
when the key was absent before. -/
theorem lookupTrans_addEdge_self {a : Array PState} {k : Nat} {s : PState}
    (hg : getSt a k = some s) (c0 : Char) (t0 : Nat) (c : Char) :
    lookupTrans (addEdge a k c0 t0) k c =
      match lookupTrans a k c with
      | some j => some j
      | none => if c0 = c then some t0 else none := by
  have hg2 : getSt (addEdge a k c0 t0) k =
      some { s with transitions := s.transitions ++ [(c0, t0)] } := by
    rw [addEdge, getSt_modify, if_pos rfl, hg]
    rfl
  simp only [lookupTrans, hg2, hg]
  cases hal : alookup s.transitions c with
  | some j =>
    exact alookup_append_of_some hal
  | none =>
    rw [alookup_append_of_none hal]
    rfl

theorem lookupTrans_markEnd (a : Array PState) (e : Nat) (o : Str) (i : Nat) (c : Char) :
    lookupTrans (markEnd a e o) i c = lookupTrans a i c := by
  unfold lookupTrans markEnd
  rw [getSt_modify]
  by_cases h : e = i
  · rw [if_pos h]; cases getSt a i <;> rfl
  · rw [if_neg h]

theorem lookupTrans_setLss (a : Array PState) (k j : Nat) (i : Nat) (c : Char) :
    lookupTrans (setLss a k j) i c = lookupTrans a i c := by
  unfold lookupTrans setLss
  rw [getSt_modify]
  by_cases h : k = i
  · rw [if_pos h]; cases getSt a i <;> rfl
  · rw [if_neg h]

theorem getSt_eq_of_lt {a : Array PState} {i : Nat} (h : i < a.size) :
    getSt a i = some a[i] := by
  rw [getSt, Array.get?_eq_getElem?, Array.getElem?_eq_getElem h]

theorem lookupTrans_push_old {a : Array PState} {i : Nat} {c : Char} {j : Nat}
    (x : PState) (h : lookupTrans a i c = some j) :
    lookupTrans (a.push x) i c = some j := by
  cases hg : getSt a i with
  | none => simp [lookupTrans, hg] at h
  | some s =>
    have hne : i ≠ a.size := fun he => absurd (he ▸ getSt_lt hg) (Nat.lt_irrefl _)
    simp only [lookupTrans, hg] at h
    simp only [lookupTrans, getSt_push, if_neg hne, hg]
    exact h

theorem lookupTrans_push_none {a : Array PState} {i : Nat} {c : Char}
    (x : PState) (h : lookupTrans a i c = none) (hi : i < a.size) :
    lookupTrans (a.push x) i c = none := by
  simp only [lookupTrans, getSt_push, if_neg (Nat.ne_of_lt hi)]
  simp only [lookupTrans] at h
  exact h

theorem lookupTrans_addEdge_preserve {a : Array PState} {i : Nat} {c : Char} {j : Nat}
    (k : Nat) (c' : Char) (t : Nat) (h : lookupTrans a i c = some j) :
    lookupTrans (addEdge a k c' t) i c = some j := by
  cases hg : getSt a i with
  | none => simp [lookupTrans, hg] at h
  | some s =>
    simp only [lookupTrans, hg] at h
    by_cases hk : k = i
    · simp only [lookupTrans, addEdge, getSt_modify, if_pos hk, hg, Option.map_some']
      exact alookup_append_of_some h
    · simp only [lookupTrans, addEdge, getSt_modify, if_neg hk, hg]
      exact h

theorem lookupTrans_addEdge_new {a : Array PState} {k : Nat} {c' : Char}
    {s : PState} (t : Nat) (hg : getSt a k = some s)
    (h : lookupTrans a k c' = none) :
    lookupTrans (addEdge a k c' t) k c' = some t := by
  simp only [lookupTrans, hg] at h
  simp only [lookupTrans, addEdge, getSt_modify, if_pos rfl, hg, Option.map_some']
  show alookup (s.transitions ++ [(c', t)]) c' = some t
  rw [alookup_append_of_none h, alookup, if_pos rfl]

theorem lookupTrans_addEdge_cases {a : Array PState} {i : Nat} {c : Char} {j : Nat}
    {k : Nat} {c' : Char} {t : Nat}
    (h : lookupTrans (addEdge a k c' t) i c = some j) :
    lookupTrans a i c = some j ∨ (i = k ∧ c = c' ∧ j = t) := by
  cases hg : getSt a i with
  | none =>
    have hnone : getSt (addEdge a k c' t) i = none := by
      simp only [addEdge, getSt_modify]
      by_cases hk : k = i
      · rw [if_pos hk, hg]; rfl
      · rw [if_neg hk]; exact hg
    simp [lookupTrans, hnone] at h
  | some s =>
    by_cases hk : k = i
    · simp only [lookupTrans, addEdge, getSt_modify, if_pos hk, hg, Option.map_some'] at h
      have h2 : alookup (s.transitions ++ [(c', t)]) c = some j := h
      cases hl : alookup s.transitions c with
      | some v =>
        rw [alookup_append_of_some hl] at h2
        left
        simp only [lookupTrans, hg]
        rw [hl]
        exact h2
      | none =>
        rw [alookup_append_of_none hl] at h2
        by_cases hc : c' = c
        · right
          rw [alookup, if_pos hc] at h2
          exact ⟨hk.symm, hc.symm, (Option.some.inj h2).symm⟩
        · rw [alookup, if_neg hc] at h2
          exact absurd h2 (by simp [alookup])
    · left
      simp only [lookupTrans, addEdge, getSt_modify, if_neg hk] at h
      exact h

theorem lookupTrans_push_cases {a : Array PState} {x : PState} {i : Nat} {c : Char} {j : Nat}
    (h : lookupTrans (a.push x) i c = some j) :
    lookupTrans a i c = some j ∨ (i = a.size ∧ alookup x.transitions c = some j) := by
  by_cases hi : i = a.size
  · right
    simp only [lookupTrans, getSt_push, if_pos hi] at h
    exact ⟨hi, h⟩
  · left
    simp only [lookupTrans, getSt_push, if_neg hi] at h
    exact h

theorem alookup_mem {l : List (Char × Nat)} {c : Char} {t : Nat}
    (h : alookup l c = some t) : (c, t) ∈ l := by
  induction l with
  | nil => exact absurd h (by simp [alookup])
  | cons p r ih =>
    obtain ⟨k, v⟩ := p
    rw [alookup] at h
    split at h
    · obtain rfl := Option.some.inj h
      have : k = c := ‹_›
      subst this
      exact List.mem_cons_self _ _
    · exact List.mem_cons_of_mem _ (ih h)

theorem lookupTrans_mem {a : Array PState} {i : Nat} {c : Char} {t : Nat} {s : PState}
    (hg : getSt a i = some s) (h : lookupTrans a i c = some t) : (c, t) ∈ s.transitions := by
  simp only [lookupTrans, hg] at h
  exact alookup_mem h

/-- Transfer a node's parent/symbol across a `skelEq`. -/
theorem skel_to {a b : Array PState} (h : skelEq a b) {i : Nat} {s : PState}
    (hg : getSt b i = some s) :
    ∃ s2, getSt a i = some s2 ∧ s2.parent = s.parent ∧ s2.symbol = s.symbol := by
  have hi := h i
  rw [hg] at hi
  cases hga : getSt a i with
  | none => rw [hga] at hi; exact absurd hi (by simp)
  | some s2 =>
    rw [hga] at hi
    simp only [Option.map_some', Option.some.injEq] at hi
    exact ⟨s2, rfl, congrArg Prod.fst hi, congrArg Prod.snd hi⟩

theorem getSt_step_other {a : Array PState} {cur : Nat} {c : Char} (i : Nat)
    (h1 : i ≠ cur) (h2 : i ≠ a.size) :
    getSt (addEdge (a.push (newNode c cur)) cur c a.size) i = getSt a i := by
  rw [addEdge, getSt_modify, if_neg (fun he => h1 he.symm), getSt_push, if_neg h2]

theorem getSt_step_cur {a : Array PState} {cur : Nat} (c : Char) (hcur : cur < a.size) :
    getSt (addEdge (a.push (newNode c cur)) cur c a.size) cur =
      some { a[cur] with transitions := a[cur].transitions ++ [(c, a.size)] } := by
  rw [addEdge, getSt_modify, if_pos rfl, getSt_push, if_neg (Nat.ne_of_lt hcur),
    getSt_eq_of_lt hcur]
  rfl

/-! ## Depth and path lemmas -/

theorem depthF_skel {a b : Array PState} (h : skelEq a b) :
    ∀ f i, depthF a f i = depthF b f i := by
  intro f
  induction f with
  | zero => intro i; rfl
  | succ f ih =>
    intro i
    have hi := h i
    cases hga : getSt a i with
    | none =>
      cases hgb : getSt b i with
      | none => simp only [depthF, hga, hgb]
      | some sb => rw [hga, hgb] at hi; exact absurd hi (by simp)
    | some sa =>
      cases hgb : getSt b i with
      | none => rw [hga, hgb] at hi; exact absurd hi (by simp)
      | some sb =>
        rw [hga, hgb] at hi
        simp only [Option.map_some', Option.some.injEq] at hi
        simp only [depthF, hga, hgb]
        rw [show sb.parent = sa.parent from (congrArg Prod.fst hi).symm]
        cases sa.parent with
        | none => rfl
        | some p => exact congrArg (fun d => d + 1) (ih p)

theorem pathF_skel {a b : Array PState} (h : skelEq a b) :
    ∀ f i, pathF a f i = pathF b f i := by
  intro f
  induction f with
  | zero => intro i; rfl
  | succ f ih =>
    intro i
    have hi := h i
    cases hga : getSt a i with
    | none =>
      cases hgb : getSt b i with
      | none => simp only [pathF, hga, hgb]
      | some sb => rw [hga, hgb] at hi; exact absurd hi (by simp)
    | some sa =>
      cases hgb : getSt b i with
      | none => rw [hga, hgb] at hi; exact absurd hi (by simp)
      | some sb =>
        rw [hga, hgb] at hi
        simp only [Option.map_some', Option.some.injEq] at hi
        simp only [pathF, hga, hgb]
        rw [show sb.parent = sa.parent from (congrArg Prod.fst hi).symm,
            show sb.symbol = sa.symbol from (congrArg Prod.snd hi).symm]
        cases sa.parent with
        | none => rfl
        | some p =>
          cases sa.symbol with
          | none => rfl
          | some c => exact congrArg (fun l => l ++ [c]) (ih p)

theorem depth_skel {a b : Array PState} (h : skelEq a b) (i : Nat) :
    depth a i = depth b i := depthF_skel h i i

theorem path_skel {a b : Array PState} (h : skelEq a b) (i : Nat) :
    path a i = path b i := pathF_skel h i i

theorem skelEq_trans {a b c : Array PState} (h1 : skelEq a b) (h2 : skelEq b c) :
    skelEq a c := fun i => (h1 i).trans (h2 i)

theorem succEq_trans {a b c : Array PState} (h1 : succEq a b) (h2 : succEq b c) :
    succEq a c := fun i => (h1 i).trans (h2 i)

theorem skelEq_of_modify {f : PState → PState}
    (hf : ∀ s, (f s).parent = s.parent ∧ (f s).symbol = s.symbol)
    (a : Array PState) (k : Nat) : skelEq (a.modify k f) a := by
  intro i
  rw [getSt_modify]
  by_cases h : k = i
  · rw [if_pos h]
    cases getSt a i with
    | none => rfl
    | some s => simp [Option.map_some', (hf s).1, (hf s).2]
  · rw [if_neg h]

theorem succEq_of_modify {f : PState → PState}
    (hf : ∀ s, (f s).success = s.success ∧ (f s).matched_keyword = s.matched_keyword)
    (a : Array PState) (k : Nat) : succEq (a.modify k f) a := by
  intro i
  rw [getSt_modify]
  by_cases h : k = i
  · rw [if_pos h]
    cases getSt a i with
    | none => rfl
    | some s => simp [Option.map_some', (hf s).1, (hf s).2]
  · rw [if_neg h]

theorem depthF_fuel {a : Array PState} (hdec : ParentDec a) :
    ∀ i f, i ≤ f → depthF a f i = depth a i := by
  intro i
  induction i using Nat.strong_induction_on with
  | _ i ih =>
    intro f hf
    match f, hf with
    | 0, hf =>
      have : i = 0 := Nat.le_zero.1 hf
      subst this
      rfl
    | f + 1, hf =>
      cases hga : getSt a i with
      | none =>
        cases i with
        | zero => simp only [depth, depthF, hga]
        | succ i' => simp only [depth, depthF, hga]
      | some s =>
        cases hp : s.parent with
        | none =>
          cases i with
          | zero => simp only [depth, depthF, hga, hp]
          | succ i' => simp only [depth, depthF, hga, hp]
        | some p =>
          have hpi : p < i := hdec i s p hga hp
          obtain ⟨i', rfl⟩ : ∃ i', i = i' + 1 := ⟨i - 1, by omega⟩
          simp only [depth, depthF, hga, hp]
          rw [ih p hpi f (by omega), ih p hpi i' (by omega)]

theorem pathF_fuel {a : Array PState} (hdec : ParentDec a) :
    ∀ i f, i ≤ f → pathF a f i = path a i := by
  intro i
  induction i using Nat.strong_induction_on with
  | _ i ih =>
    intro f hf
    match f, hf with
    | 0, hf =>
      have : i = 0 := Nat.le_zero.1 hf
      subst this
      rfl
    | f + 1, hf =>
      cases hga : getSt a i with
      | none =>
        cases i with
        | zero => simp only [path, pathF, hga]
        | succ i' => simp only [path, pathF, hga]
      | some s =>
        cases hp : s.parent with
        | none =>
          cases i with
          | zero => simp only [path, pathF, hga, hp]
          | succ i' => simp only [path, pathF, hga, hp]
        | some p =>
          have hpi : p < i := hdec i s p hga hp
          cases hc : s.symbol with
          | none =>
            obtain ⟨i', rfl⟩ : ∃ i', i = i' + 1 := ⟨i - 1, by omega⟩
            simp only [path, pathF, hga, hp, hc]
          | some c =>
            obtain ⟨i', rfl⟩ : ∃ i', i = i' + 1 := ⟨i - 1, by omega⟩
            simp only [path, pathF, hga, hp, hc]
            rw [ih p hpi f (by omega), ih p hpi i' (by omega)]

theorem depth_zero (a : Array PState) : depth a 0 = 0 := rfl

theorem path_zero (a : Array PState) : path a 0 = [] := rfl

theorem depth_parent {a : Array PState} (hdec : ParentDec a) {i : Nat} {s : PState}
    {p : Nat} (hg : getSt a i = some s) (hp : s.parent = some p) :
    depth a i = depth a p + 1 := by
  have hpi : p < i := hdec i s p hg hp
  obtain ⟨i', rfl⟩ : ∃ i', i = i' + 1 := ⟨i - 1, by omega⟩
  show depthF a (i' + 1) (i' + 1) = _
  simp only [depthF, hg, hp]
  rw [depthF_fuel hdec p i' (by omega)]

theorem path_parent {a : Array PState} (hdec : ParentDec a) {i : Nat} {s : PState}
    {p : Nat} {c : Char} (hg : getSt a i = some s) (hp : s.parent = some p)
    (hc : s.symbol = some c) : path a i = path a p ++ [c] := by
  have hpi : p < i := hdec i s p hg hp
  obtain ⟨i', rfl⟩ : ∃ i', i = i' + 1 := ⟨i - 1, by omega⟩
  show pathF a (i' + 1) (i' + 1) = _
  simp only [pathF, hg, hp, hc]
  rw [pathF_fuel hdec p i' (by omega)]

theorem pathF_length {a : Array PState}
    (hps : ∀ i s p, getSt a i = some s → s.parent = some p → ∃ c, s.symbol = some c) :
    ∀ f i, (pathF a f i).length = depthF a f i := by
  intro f
  induction f with
  | zero => intro i; rfl
  | succ f ih =>
    intro i
    cases hga : getSt a i with
    | none => simp only [pathF, depthF, hga, List.length_nil]
    | some s =>
      cases hp : s.parent with
      | none => simp only [pathF, depthF, hga, hp, List.length_nil]
      | some p =>
        obtain ⟨c, hc⟩ := hps i s p hga hp
        simp only [pathF, depthF, hga, hp, hc, List.length_append, List.length_singleton]
        rw [ih p]

theorem path_length {a : Array PState}
    (hps : ∀ i s p, getSt a i = some s → s.parent = some p → ∃ c, s.symbol = some c)
    (i : Nat) : (path a i).length = depth a i := pathF_length hps i i

theorem depthF_push {a : Array PState} {x : PState} (hdec : ParentDec a) :
    ∀ f i, i < a.size → depthF (a.push x) f i = depthF a f i := by
  intro f
  induction f with
  | zero => intro i _; rfl
  | succ f ih =>
    intro i hi
    have hg : getSt (a.push x) i = getSt a i := by
      rw [getSt_push, if_neg (Nat.ne_of_lt hi)]
    cases hga : getSt a i with
    | none => simp only [depthF, hg, hga]
    | some s =>
      simp only [depthF, hg, hga]
      cases hp : s.parent with
      | none => rfl
      | some p => exact congrArg (fun d => d + 1) (ih p (Nat.lt_trans (hdec i s p hga hp) hi))

theorem pathF_push {a : Array PState} {x : PState} (hdec : ParentDec a) :
    ∀ f i, i < a.size → pathF (a.push x) f i = pathF a f i := by
  intro f
  induction f with
  | zero => intro i _; rfl
  | succ f ih =>
    intro i hi
    have hg : getSt (a.push x) i = getSt a i := by
      rw [getSt_push, if_neg (Nat.ne_of_lt hi)]
    cases hga : getSt a i with
    | none => simp only [pathF, hg, hga]
    | some s =>
      simp only [pathF, hg, hga]
      cases hp : s.parent with
      | none => rfl
      | some p =>
        cases hc : s.symbol with
        | none => rfl
        | some c =>
          exact congrArg (fun l => l ++ [c]) (ih p (Nat.lt_trans (hdec i s p hga hp) hi))

theorem depth_push {a : Array PState} {x : PState} (hdec : ParentDec a)
    {i : Nat} (hi : i < a.size) : depth (a.push x) i = depth a i :=
  depthF_push hdec i i hi

theorem path_push {a : Array PState} {x : PState} (hdec : ParentDec a)
    {i : Nat} (hi : i < a.size) : path (a.push x) i = path a i :=
  pathF_push hdec i i hi

/-- Right-extension of a (non-strict) suffix by a common tail. -/
theorem suffix_append_right {l1 l2 l3 : Str} (h : l1 <:+ l2) :
    l1 ++ l3 <:+ l2 ++ l3 := by
  obtain ⟨t, rfl⟩ := h
  exact ⟨t, (List.append_assoc ..).symm⟩

theorem depth_le_index {a : Array PState} (hdec : ParentDec a) :
    ∀ i, depth a i ≤ i := by
  intro i
  induction i using Nat.strong_induction_on with
  | _ i ih =>
    cases hga : getSt a i with
    | none =>
      cases i with
      | zero => simp [depth_zero]
      | succ i' => simp only [depth, depthF, hga]; omega
    | some s =>
      cases hp : s.parent with
      | none =>
        cases i with
        | zero => simp [depth_zero]
        | succ i' => simp only [depth, depthF, hga, hp]; omega
      | some p =>
        have hpi : p < i := hdec i s p hga hp
        rw [depth_parent hdec hga hp]
        have := ih p hpi
        omega


/-! ## `addAux` lemmas -/

theorem addAux_size_le (a : Array PState) (cur : Nat) (s : Str) :
    a.size ≤ (addAux a cur s).1.size := by
  induction s generalizing a cur with
  | nil => exact Nat.le_refl _
  | cons c cs ih =>
    rw [addAux]
    cases h : lookupTrans a cur c with
    | some nxt => exact ih a nxt
    | none =>
      refine Nat.le_trans ?_ (ih _ _)
      rw [size_addEdge, Array.size_push]
      exact Nat.le_succ _

theorem addAux_preserve {a : Array PState} {cur : Nat} {s : Str}
    {i : Nat} {c : Char} {j : Nat} (h : lookupTrans a i c = some j) :
    lookupTrans (addAux a cur s).1 i c = some j := by
  induction s generalizing a cur with
  | nil => exact h
  | cons c' cs ih =>
    rw [addAux]
    cases hl : lookupTrans a cur c' with
    | some nxt => exact ih h
    | none =>
      exact ih (lookupTrans_addEdge_preserve _ _ _ (lookupTrans_push_old _ h))

theorem WFB_step {a : Array PState} (hw : WFB a) (cur : Nat) (c : Char) :
    WFB (addEdge (a.push (newNode c cur)) cur c a.size) := by
  intro i c' j h
  rcases lookupTrans_addEdge_cases h with h2 | ⟨rfl, rfl, rfl⟩
  · rcases lookupTrans_push_cases h2 with h3 | ⟨rfl, h3⟩
    · calc j < a.size := hw _ _ _ h3
           _ ≤ _ := by rw [size_addEdge, Array.size_push]; exact Nat.le_succ _
    · exact absurd h3 (by simp [newNode, alookup])
  · rw [size_addEdge, Array.size_push]
    exact Nat.lt_succ_self _

theorem size_step (a : Array PState) (cur : Nat) (c : Char) :
    (addEdge (a.push (newNode c cur)) cur c a.size).size = a.size + 1 := by
  rw [size_addEdge, Array.size_push]

theorem addAux_wfb {a : Array PState} (hw : WFB a) (cur : Nat) (s : Str) :
    WFB (addAux a cur s).1 := by
  induction s generalizing a cur with
  | nil => exact hw
  | cons c cs ih =>
    rw [addAux]
    cases hl : lookupTrans a cur c with
    | some nxt => exact ih hw nxt
    | none => exact ih (WFB_step hw cur c) a.size

theorem addAux_end_lt {a : Array PState} (hw : WFB a) {cur : Nat}
    (hcur : cur < a.size) (s : Str) :
    (addAux a cur s).2 < (addAux a cur s).1.size := by
  induction s generalizing a cur with
  | nil => exact Nat.lt_of_lt_of_le hcur (addAux_size_le ..)
  | cons c cs ih =>
    rw [addAux]
    cases hl : lookupTrans a cur c with
    | some nxt => exact ih hw (hw _ _ _ hl)
    | none =>
      exact ih (WFB_step hw cur c) (by rw [size_step]; exact Nat.lt_succ_self _)

theorem addAux_walk {a : Array PState} (hw : WFB a) {cur : Nat}
    (hcur : cur < a.size) (s : Str) :
    walk (addAux a cur s).1 cur s = some (addAux a cur s).2 := by
  induction s generalizing a cur with
  | nil => rfl
  | cons c cs ih =>
    rw [addAux]
    cases hl : lookupTrans a cur c with
    | some nxt =>
      rw [walk]
      rw [addAux_preserve hl]
      exact ih hw (hw _ _ _ hl)
    | none =>
      rw [walk]
      have hg : getSt (a.push (newNode c cur)) cur = some a[cur] := by
        rw [getSt_push, if_neg (Nat.ne_of_lt hcur)]
        exact getSt_eq_of_lt hcur
      have hnew : lookupTrans (addEdge (a.push (newNode c cur)) cur c a.size) cur c
          = some a.size :=
        lookupTrans_addEdge_new _ hg (lookupTrans_push_none _ hl hcur)
      rw [addAux_preserve hnew]
      exact ih (WFB_step hw cur c) (by rw [size_step]; exact Nat.lt_succ_self _)

theorem addAux_of_walk {a : Array PState} {cur : Nat} {s : Str} {e : Nat}
    (h : walk a cur s = some e) : addAux a cur s = (a, e) := by
  induction s generalizing cur with
  | nil => exact congrArg _ (Option.some.inj h)
  | cons c cs ih =>
    rw [walk] at h
    rw [addAux]
    cases hl : lookupTrans a cur c with
    | some nxt => rw [hl] at h; exact ih h
    | none => rw [hl] at h; exact absurd h (by simp)

theorem walk_congr {a b : Array PState}
    (h : ∀ i c, lookupTrans a i c = lookupTrans b i c) (cur : Nat) (s : Str) :
    walk a cur s = walk b cur s := by
  induction s generalizing cur with
  | nil => rfl
  | cons c cs ih =>
    rw [walk, walk, h cur c]
    cases lookupTrans b cur c with
    | some nxt => exact ih nxt
    | none => rfl

theorem walk_lt {a : Array PState} (hw : WFB a) :
    ∀ (s : Str) {cur e : Nat}, cur < a.size → walk a cur s = some e → e < a.size := by
  intro s
  induction s with
  | nil =>
    intro cur e hcur h
    obtain rfl := Option.some.inj h
    exact hcur
  | cons c cs ih =>
    intro cur e hcur h
    rw [walk] at h
    cases hl : lookupTrans a cur c with
    | some nxt => rw [hl] at h; exact ih (hw _ _ _ hl) h
    | none => rw [hl] at h; exact absurd h (by simp)

theorem markEnd_markEnd (a : Array PState) (e : Nat) (o : Str) :
    markEnd (markEnd a e o) e o = markEnd a e o := by
  unfold markEnd
  apply Array.ext
  · rw [Array.size_modify, Array.size_modify]
  · intro i h1 h2
    rw [Array.getElem_modify h1, Array.getElem_modify (by simpa using h2)]
    by_cases he : e = i
    · simp only [if_pos he]
    · simp only [if_neg he]

theorem walk_append {a : Array PState} {v : Str} :
    ∀ (u : Str) (cur m : Nat), walk a cur u = some m →
    walk a cur (u ++ v) = walk a m v := by
  intro u
  induction u with
  | nil =>
    intro cur m h
    obtain rfl := Option.some.inj h
    rfl
  | cons c cs ih =>
    intro cur m h
    rw [walk] at h
    rw [List.cons_append, walk]
    cases hl : lookupTrans a cur c with
    | some nxt =>
      rw [hl] at h
      simp only []
      exact ih nxt m h
    | none =>
      rw [hl] at h
      exact absurd h (by simp)

/-- Lookup monotonicity transports a successful pure walk. -/
theorem walk_mono {a b : Array PState}
    (h : ∀ i c j, lookupTrans a i c = some j → lookupTrans b i c = some j) :
    ∀ (u : Str) (cur e : Nat), walk a cur u = some e → walk b cur u = some e := by
  intro u
  induction u with
  | nil =>
    intro cur e he
    exact he
  | cons c cs ih =>
    intro cur e he
    rw [walk] at he ⊢
    cases hl : lookupTrans a cur c with
    | some nxt =>
      rw [hl] at he
      rw [h cur c nxt hl]
      exact ih nxt e he
    | none =>
      rw [hl] at he
      exact absurd he (by simp)

/-- In an arena with the structural invariants, walking a node's path from the
root reaches exactly that node (paths identify nodes). -/
theorem walk_path {a : Array PState} (inv : FInv a) :
    ∀ i, i < a.size → walk a 0 (path a i) = some i := by
  intro i
  induction i using Nat.strong_induction_on with
  | _ i ih =>
    intro hlt
    by_cases hi0 : i = 0
    · subst hi0
      rw [path_zero]
      rfl
    · have hg := getSt_eq_of_lt hlt
      obtain ⟨⟨p, hp⟩, ⟨c, hc⟩⟩ := inv.hsym i _ hg hi0
      have hpi : p < i := inv.hdec i _ p hg hp
      have hpath : path a i = path a p ++ [c] := path_parent inv.hdec hg hp hc
      have hwp : walk a 0 (path a p) = some p := ih p hpi (lt_trans hpi hlt)
      rw [hpath, walk_append (path a p) 0 p hwp, walk,
        inv.horig i _ p c hg hp hc]
      rfl

/-! ## Build-phase invariant preservation -/

theorem fieldsPres_refl (a : Array PState) : fieldsPres a a :=
  fun _ s h => ⟨s, h, rfl, rfl, rfl, rfl, rfl⟩

theorem fieldsPres_trans {a b c : Array PState}
    (h1 : fieldsPres a b) (h2 : fieldsPres b c) : fieldsPres a c := by
  intro i s h
  obtain ⟨s1, hg1, e1, e2, e3, e4, e5⟩ := h1 i s h
  obtain ⟨s2, hg2, f1, f2, f3, f4, f5⟩ := h2 i s1 hg1
  exact ⟨s2, hg2, f1.trans e1, f2.trans e2, f3.trans e3, f4.trans e4, f5.trans e5⟩

theorem fieldsPres_push (a : Array PState) (x : PState) : fieldsPres a (a.push x) := by
  intro i s h
  refine ⟨s, ?_, rfl, rfl, rfl, rfl, rfl⟩
  rw [getSt_push, if_neg (fun he => absurd (he ▸ getSt_lt h) (Nat.lt_irrefl _))]
  exact h

theorem fieldsPres_addEdge (a : Array PState) (k : Nat) (c : Char) (t : Nat) :
    fieldsPres a (addEdge a k c t) := by
  intro i s h
  by_cases hk : k = i
  · refine ⟨{ s with transitions := s.transitions ++ [(c, t)] }, ?_, rfl, rfl, rfl, rfl, rfl⟩
    rw [addEdge, getSt_modify, if_pos hk, h]
    rfl
  · exact ⟨s, by rw [addEdge, getSt_modify, if_neg hk]; exact h, rfl, rfl, rfl, rfl, rfl⟩

theorem depthF_pres {a b : Array PState} (hp : fieldsPres a b) (hdec : ParentDec a) :
    ∀ f i, i < a.size → depthF b f i = depthF a f i := by
  intro f
  induction f with
  | zero => intro i _; rfl
  | succ f ih =>
    intro i hi
    have hga : getSt a i = some a[i] := getSt_eq_of_lt hi
    obtain ⟨s2, hgb, e1, _, _, _, _⟩ := hp i a[i] hga
    simp only [depthF, hga, hgb, e1]
    cases hpar : a[i].parent with
    | none => rfl
    | some p =>
      exact congrArg (fun d => d + 1) (ih p (Nat.lt_trans (hdec i a[i] p hga hpar) hi))

theorem pathF_pres {a b : Array PState} (hp : fieldsPres a b) (hdec : ParentDec a) :
    ∀ f i, i < a.size → pathF b f i = pathF a f i := by
  intro f
  induction f with
  | zero => intro i _; rfl
  | succ f ih =>
    intro i hi
    have hga : getSt a i = some a[i] := getSt_eq_of_lt hi
    obtain ⟨s2, hgb, e1, e2, _, _, _⟩ := hp i a[i] hga
    simp only [pathF, hga, hgb, e1, e2]
    cases hpar : a[i].parent with
    | none => rfl
    | some p =>
      cases hc : a[i].symbol with
      | none => rfl
      | some c =>
        exact congrArg (fun l => l ++ [c]) (ih p (Nat.lt_trans (hdec i a[i] p hga hpar) hi))

theorem depth_pres {a b : Array PState} (hp : fieldsPres a b) (hdec : ParentDec a)
    {i : Nat} (hi : i < a.size) : depth b i = depth a i := depthF_pres hp hdec i i hi

theorem path_pres {a b : Array PState} (hp : fieldsPres a b) (hdec : ParentDec a)
    {i : Nat} (hi : i < a.size) : path b i = path a i := pathF_pres hp hdec i i hi

theorem getSt_step_new {a : Array PState} {cur : Nat} (c : Char) (hcur : cur < a.size) :
    getSt (addEdge (a.push (newNode c cur)) cur c a.size) a.size = some (newNode c cur) := by
  rw [addEdge, getSt_modify, if_neg (Nat.ne_of_lt hcur), getSt_push, if_pos rfl]

/-- Recover the old node behind an index of the one-step-extended arena. -/
theorem step_back {a : Array PState} {cur : Nat} {c : Char} {i : Nat} {s2 : PState}
    (hg : getSt (addEdge (a.push (newNode c cur)) cur c a.size) i = some s2)
    (hne : i ≠ a.size) :
    ∃ s, getSt a i = some s ∧ s2.parent = s.parent ∧ s2.symbol = s.symbol ∧
      s2.success = s.success ∧ s2.matched_keyword = s.matched_keyword ∧
      s2.longest_strict_suffix = s.longest_strict_suffix := by
  have hlt : i < a.size := by
    have := getSt_lt hg
    rw [size_addEdge, Array.size_push] at this
    omega
  have hga : getSt a i = some a[i] := getSt_eq_of_lt hlt
  obtain ⟨s2', hg2, e1, e2, e3, e4, e5⟩ :=
    fieldsPres_trans (fieldsPres_push a (newNode c cur))
      (fieldsPres_addEdge (a.push (newNode c cur)) cur c a.size) i a[i] hga
  rw [hg] at hg2
  obtain rfl := Option.some.inj hg2
  exact ⟨a[i], hga, e1, e2, e3, e4, e5⟩

theorem binv_step {a : Array PState} (hB : BInv a) {cur : Nat} {c : Char}
    (hcur : cur < a.size) (hnone : lookupTrans a cur c = none) :
    BInv (addEdge (a.push (newNode c cur)) cur c a.size) := by
  have hpres : fieldsPres a (addEdge (a.push (newNode c cur)) cur c a.size) :=
    fieldsPres_trans (fieldsPres_push a (newNode c cur))
      (fieldsPres_addEdge (a.push (newNode c cur)) cur c a.size)
  have hsz : (addEdge (a.push (newNode c cur)) cur c a.size).size = a.size + 1 :=
    size_step ..
  have hpushcur : getSt (a.push (newNode c cur)) cur = some a[cur] := by
    rw [getSt_push, if_neg (Nat.ne_of_lt hcur)]
    exact getSt_eq_of_lt hcur
  refine ⟨?_, ?_, ?_, ?_, ?_, ?_, ?_⟩
  · rw [hsz]; omega
  · intro s hg
    obtain ⟨s0, hg0, e1, e2, _, _, _⟩ := step_back hg (Nat.ne_of_lt hB.hsize)
    obtain ⟨r1, r2⟩ := hB.hroot s0 hg0
    exact ⟨e1.trans r1, e2.trans r2⟩
  · intro i s p hg hp
    by_cases hi : i = a.size
    · subst hi
      rw [getSt_step_new c hcur] at hg
      obtain rfl := Option.some.inj hg
      have : p = cur := Option.some.inj ((show some cur = some p from hp).symm)
      omega
    · obtain ⟨s0, hg0, e1, _, _, _, _⟩ := step_back hg hi
      exact hB.hdec i s0 p hg0 (e1 ▸ hp)
  · intro i s hg hi0
    by_cases hi : i = a.size
    · subst hi
      rw [getSt_step_new c hcur] at hg
      obtain rfl := Option.some.inj hg
      exact ⟨⟨cur, rfl⟩, ⟨c, rfl⟩⟩
    · obtain ⟨s0, hg0, e1, e2, _, _, _⟩ := step_back hg hi
      obtain ⟨⟨p, hp⟩, ⟨c', hc⟩⟩ := hB.hsym i s0 hg0 hi0
      exact ⟨⟨p, e1.trans hp⟩, ⟨c', e2.trans hc⟩⟩
  · intro i s p c' hg hp hc
    by_cases hi : i = a.size
    · subst hi
      rw [getSt_step_new c hcur] at hg
      obtain rfl := Option.some.inj hg
      obtain rfl : cur = p := Option.some.inj hp
      obtain rfl : c = c' := Option.some.inj hc
      exact lookupTrans_addEdge_new _ hpushcur (lookupTrans_push_none _ hnone hcur)
    · obtain ⟨s0, hg0, e1, e2, _, _, _⟩ := step_back hg hi
      exact lookupTrans_addEdge_preserve _ _ _
        (lookupTrans_push_old _ (hB.horig i s0 p c' hg0 (e1 ▸ hp) (e2 ▸ hc)))
  · intro i s hg c' t hmem
    by_cases hi : i = a.size
    · subst hi
      rw [getSt_step_new c hcur] at hg
      obtain rfl := (Option.some.inj hg).symm
      exact absurd hmem (by simp [newNode])
    · by_cases hic : i = cur
      · subst hic
        rw [getSt_step_cur c hcur] at hg
        obtain rfl := (Option.some.inj hg).symm
        rcases List.mem_append.1 hmem with hold | hnew2
        · obtain ⟨ht0, htlt, s0, hg0, e1, e2⟩ :=
            hB.hbedge i a[i] (getSt_eq_of_lt hcur) c' t hold
          obtain ⟨s2, hg2, f1, f2, _, _, _⟩ := hpres t s0 hg0
          exact ⟨ht0, by omega, s2, hg2, f1.trans e1, f2.trans e2⟩
        · simp only [List.mem_singleton, Prod.mk.injEq] at hnew2
          obtain ⟨hc', ht'⟩ := hnew2
          subst hc'
          subst ht'
          exact ⟨by omega, by omega, newNode c' i, getSt_step_new c' hcur, rfl, rfl⟩
      · rw [getSt_step_other i hic hi] at hg
        obtain ⟨ht0, htlt, s0, hg0, e1, e2⟩ := hB.hbedge i s hg c' t hmem
        obtain ⟨s2, hg2, f1, f2, _, _, _⟩ := hpres t s0 hg0
        exact ⟨ht0, by omega, s2, hg2, f1.trans e1, f2.trans e2⟩
  · intro i s hg
    by_cases hi : i = a.size
    · subst hi
      rw [getSt_step_new c hcur] at hg
      obtain rfl := Option.some.inj hg
      rfl
    · obtain ⟨s0, hg0, _, _, _, _, e5⟩ := step_back hg hi
      exact e5.trans (hB.hlssnone i s0 hg0)

theorem addAux_master :
    ∀ (s : Str) {a : Array PState}, BInv a → ∀ {cur : Nat}, cur < a.size →
    BInv (addAux a cur s).1 ∧ fieldsPres a (addAux a cur s).1 ∧
    (∀ i s1, getSt (addAux a cur s).1 i = some s1 → a.size ≤ i → s1.success = false) ∧
    path (addAux a cur s).1 (addAux a cur s).2 = path a cur ++ s ∧
    (addAux a cur s).2 < (addAux a cur s).1.size := by
  intro s
  induction s with
  | nil =>
    intro a hB cur hcur
    refine ⟨hB, fieldsPres_refl a, ?_, (List.append_nil _).symm, hcur⟩
    intro i s1 hg hi
    exact absurd (getSt_lt hg) (Nat.not_lt.2 hi)
  | cons c cs ih =>
    intro a hB cur hcur
    simp only [addAux]
    cases hl : lookupTrans a cur c with
    | some nxt =>
      have hgc : ∃ sc, getSt a cur = some sc := by
        cases hgc0 : getSt a cur with
        | none => exact absurd hl (by simp [lookupTrans, hgc0])
        | some sc => exact ⟨sc, rfl⟩
      obtain ⟨sc, hgc⟩ := hgc
      obtain ⟨hn0, hnlt, sN, hgN, hpar, hsymb⟩ :=
        hB.hbedge cur sc hgc c nxt (lookupTrans_mem hgc hl)
      obtain ⟨h1, h2, h3, h4, h5⟩ := ih hB hnlt
      refine ⟨h1, h2, h3, ?_, h5⟩
      rw [h4, path_parent hB.hdec hgN hpar hsymb, List.append_assoc]
      rfl
    | none =>
      have hBb := binv_step hB hcur hl
      have hpres : fieldsPres a (addEdge (a.push (newNode c cur)) cur c a.size) :=
        fieldsPres_trans (fieldsPres_push a (newNode c cur))
          (fieldsPres_addEdge (a.push (newNode c cur)) cur c a.size)
      have hszb := size_step a cur c
      have hnid : a.size < (addEdge (a.push (newNode c cur)) cur c a.size).size := by
        rw [hszb]; omega
      obtain ⟨h1, h2, h3, h4, h5⟩ := ih hBb hnid
      refine ⟨h1, fieldsPres_trans hpres h2, ?_, ?_, h5⟩
      · intro i s1 hg hi
        by_cases hieq : i = a.size
        · subst hieq
          obtain ⟨s2, hg2, _, _, e3, _, _⟩ := h2 a.size _ (getSt_step_new c hcur)
          rw [hg] at hg2
          obtain rfl := Option.some.inj hg2
          exact e3
        · exact h3 i s1 hg (by rw [hszb]; omega)
      · rw [h4, path_parent hBb.hdec (getSt_step_new c hcur) rfl rfl,
          path_pres hpres hB.hdec hcur, List.append_assoc]
        rfl

theorem HM_mono {ci : Bool} {l l2 : List Str} {a : Array PState}
    (hsub : ∀ x ∈ l, x ∈ l2) (h : HM ci l a) : HM ci l2 a := by
  intro i s hg hs
  obtain ⟨kw, hkw, h1, h2⟩ := h i s hg hs
  exact ⟨kw, hsub kw hkw, h1, h2⟩

theorem add_master {t : KeywordTree} {k : Str} (hB : BInv t.states)
    (hf : t.finalized = false) :
    ∃ t2, t.add k = .ok t2 ∧ BInv t2.states ∧ t2.finalized = false ∧
      t2.case_insensitive = t.case_insensitive ∧
      ∀ kws, HM t.case_insensitive kws t.states →
        HM t.case_insensitive (k :: kws) t2.states := by
  rw [KeywordTree.add, if_neg (by rw [hf]; exact Bool.false_ne_true)]
  by_cases hlen : (if t.case_insensitive then lowerStr k else k).length = 0
  · rw [if_pos hlen]
    exact ⟨t, rfl, hB, hf, rfl, fun kws hm =>
      HM_mono (fun x hx => List.mem_cons_of_mem k hx) hm⟩
  · rw [if_neg hlen]
    obtain ⟨h1, h2, h3, h4, h5⟩ :=
      addAux_master (if t.case_insensitive then lowerStr k else k) hB hB.hsize
    set r := addAux t.states 0 (if t.case_insensitive then lowerStr k else k) with hr
    refine ⟨{ t with states := markEnd r.1 r.2 k }, rfl, ?_, hf, rfl, ?_⟩
    · -- BInv survives markEnd: only success/matched change
      have hskel : skelEq (markEnd r.1 r.2 k) r.1 := by
        rw [markEnd]
        apply skelEq_of_modify
        intro s0
        exact ⟨rfl, rfl⟩
      have hget : ∀ i s2, getSt (markEnd r.1 r.2 k) i = some s2 →
          ∃ s1, getSt r.1 i = some s1 ∧ s2.parent = s1.parent ∧ s2.symbol = s1.symbol ∧
            s2.transitions = s1.transitions ∧
            s2.longest_strict_suffix = s1.longest_strict_suffix := by
        intro i s2 hg
        rw [markEnd, getSt_modify] at hg
        by_cases he : r.2 = i
        · rw [if_pos he] at hg
          cases hg1 : getSt r.1 i with
          | none => rw [hg1] at hg; exact absurd hg (by simp)
          | some s1 =>
            rw [hg1] at hg
            obtain rfl := (Option.some.inj hg).symm
            exact ⟨s1, rfl, rfl, rfl, rfl, rfl⟩
        · rw [if_neg he] at hg
          exact ⟨s2, hg, rfl, rfl, rfl, rfl⟩
      have hlk : ∀ i c, lookupTrans (markEnd r.1 r.2 k) i c = lookupTrans r.1 i c :=
        fun i c => lookupTrans_markEnd r.1 r.2 k i c
      refine ⟨?_, ?_, ?_, ?_, ?_, ?_, ?_⟩
      · rw [size_markEnd]; exact h1.hsize
      · intro s hg
        obtain ⟨s1, hg1, e1, e2, _, _⟩ := hget 0 s hg
        obtain ⟨r1, r2⟩ := h1.hroot s1 hg1
        exact ⟨e1.trans r1, e2.trans r2⟩
      · intro i s p hg hp
        obtain ⟨s1, hg1, e1, _, _, _⟩ := hget i s hg
        exact h1.hdec i s1 p hg1 (e1 ▸ hp)
      · intro i s hg hi0
        obtain ⟨s1, hg1, e1, e2, _, _⟩ := hget i s hg
        obtain ⟨⟨p, hp⟩, ⟨c, hc⟩⟩ := h1.hsym i s1 hg1 hi0
        exact ⟨⟨p, e1.trans hp⟩, ⟨c, e2.trans hc⟩⟩
      · intro i s p c hg hp hc
        obtain ⟨s1, hg1, e1, e2, _, _⟩ := hget i s hg
        rw [hlk]
        exact h1.horig i s1 p c hg1 (e1 ▸ hp) (e2 ▸ hc)
      · intro i s hg c u hmem
        obtain ⟨s1, hg1, _, _, htr, _⟩ := hget i s hg
        obtain ⟨hu0, hult, s2, hg2, e1, e2⟩ := h1.hbedge i s1 hg1 c u (htr ▸ hmem)
        refine ⟨hu0, ?_, ?_⟩
        · show u < (markEnd r.1 r.2 k).size
          rw [size_markEnd]
          exact hult
        · show ∃ s3, getSt (markEnd r.1 r.2 k) u = some s3 ∧ s3.parent = some i ∧
            s3.symbol = some c
          obtain ⟨s3, hg3, f1, f2⟩ := skel_to hskel hg2
          exact ⟨s3, hg3, f1.trans e1, f2.trans e2⟩
      · intro i s hg
        obtain ⟨s1, hg1, _, _, _, e5⟩ := hget i s hg
        exact e5.trans (h1.hlssnone i s1 hg1)
    · -- the HM step
      intro kws hm i s hg0 hs
      have hskel : skelEq (markEnd r.1 r.2 k) r.1 := by
        rw [markEnd]
        apply skelEq_of_modify
        intro s0
        exact ⟨rfl, rfl⟩
      have hg : getSt (markEnd r.1 r.2 k) i = some s := hg0
      show ∃ kw, kw ∈ k :: kws ∧ s.matched_keyword = some kw ∧
        path (markEnd r.1 r.2 k) i = norm t.case_insensitive kw
      by_cases he : r.2 = i
      · subst he
        refine ⟨k, List.mem_cons_self k kws, ?_, ?_⟩
        · rw [markEnd, getSt_modify, if_pos rfl] at hg
          cases hg1 : getSt r.1 r.2 with
          | none => rw [hg1] at hg; exact absurd hg (by simp)
          | some s1 =>
            rw [hg1] at hg
            obtain rfl := (Option.some.inj hg).symm
            rfl
        · rw [path_skel hskel, h4, path_zero]
          show [] ++ (if t.case_insensitive then lowerStr k else k) = norm t.case_insensitive k
          rw [List.nil_append]
          rfl
      · rw [markEnd, getSt_modify, if_neg he] at hg
        by_cases hi : i < t.states.size
        · have hga : getSt t.states i = some t.states[i] := getSt_eq_of_lt hi
          obtain ⟨s2, hg2, _, _, e3, e4, _⟩ := h2 i t.states[i] hga
          rw [hg] at hg2
          obtain rfl := (Option.some.inj hg2).symm
          obtain ⟨kw, hkw, m1, m2⟩ := hm i t.states[i] hga (e3.symm.trans hs)
          refine ⟨kw, List.mem_cons_of_mem k hkw, e4.trans m1, ?_⟩
          rw [path_skel hskel, path_pres h2 hB.hdec hi]
          exact m2
        · exact absurd (h3 i s hg (Nat.le_of_not_lt hi)) (by rw [hs]; simp)

theorem buildTree_master (ci : Bool) (kws : List Str) :
    BInv (buildTree ci kws).states ∧ (buildTree ci kws).finalized = false ∧
      (buildTree ci kws).case_insensitive = ci ∧
      HM ci kws (buildTree ci kws).states := by
  have hnew : BInv (KeywordTree.new ci).states ∧ (KeywordTree.new ci).finalized = false ∧
      (KeywordTree.new ci).case_insensitive = ci ∧
      HM ci [] (KeywordTree.new ci).states := by
    have hget : ∀ i s, getSt (KeywordTree.new ci).states i = some s → i = 0 ∧ s = rootState := by
      intro i s hg
      match i with
      | 0 =>
        refine ⟨rfl, ?_⟩
        have : getSt (KeywordTree.new ci).states 0 = some rootState := rfl
        rw [this] at hg
        exact (Option.some.inj hg).symm
      | i + 1 =>
        exact absurd (getSt_lt hg) (by simp [KeywordTree.new])
    refine ⟨⟨by simp [KeywordTree.new], ?_, ?_, ?_, ?_, ?_, ?_⟩, rfl, rfl, ?_⟩
    · intro s hg
      obtain ⟨_, rfl⟩ := hget 0 s hg
      exact ⟨rfl, rfl⟩
    · intro i s p hg hp
      obtain ⟨rfl, rfl⟩ := hget i s hg
      exact absurd hp (by simp [rootState])
    · intro i s hg hi0
      obtain ⟨rfl, _⟩ := hget i s hg
      exact absurd rfl hi0
    · intro i s p c hg hp _
      obtain ⟨rfl, rfl⟩ := hget i s hg
      exact absurd hp (by simp [rootState])
    · intro i s hg c u hmem
      obtain ⟨rfl, rfl⟩ := hget i s hg
      exact absurd hmem (by simp [rootState])
    · intro i s hg
      obtain ⟨_, rfl⟩ := hget i s hg
      rfl
    · intro i s hg hs
      obtain ⟨_, rfl⟩ := hget i s hg
      exact absurd hs (by simp [rootState])
  suffices h : ∀ (ks : List Str) (t : KeywordTree) (acc : List Str),
      BInv t.states → t.finalized = false → HM t.case_insensitive acc t.states →
      BInv (ks.foldl addOr t).states ∧ (ks.foldl addOr t).finalized = false ∧
      (ks.foldl addOr t).case_insensitive = t.case_insensitive ∧
      HM t.case_insensitive (ks ++ acc) (ks.foldl addOr t).states by
    obtain ⟨hb, hf, hc, hm⟩ := h kws (KeywordTree.new ci) [] hnew.1 hnew.2.1
      (by rw [show (KeywordTree.new ci).case_insensitive = ci from rfl]; exact hnew.2.2.2)
    rw [show (KeywordTree.new ci).case_insensitive = ci from rfl] at hc hm
    exact ⟨hb, hf, hc, HM_mono (by intro x hx; simpa using hx) hm⟩
  intro ks
  induction ks with
  | nil =>
    intro t acc hB hf hm
    exact ⟨hB, hf, rfl, HM_mono (fun x hx => hx) hm⟩
  | cons k rest ih =>
    intro t acc hB hf hm
    obtain ⟨t2, hadd, hB2, hf2, hc2, hmstep⟩ := add_master hB hf
    rw [List.foldl_cons, addOr, hadd]
    obtain ⟨r1, r2, r3, r4⟩ := ih t2 (k :: acc) hB2 hf2 (hc2 ▸ hmstep acc hm)
    refine ⟨r1, r2, r3.trans hc2, ?_⟩
    rw [show t2.case_insensitive = t.case_insensitive from hc2] at r4
    refine HM_mono ?_ r4
    intro x hx
    simp only [List.mem_append, List.mem_cons] at hx ⊢
    tauto

/-! ## Finalize-phase invariant preservation -/

theorem modify_back {a : Array PState} {k : Nat} {f : PState → PState} {i : Nat}
    {s2 : PState} (hg : getSt (a.modify k f) i = some s2) :
    (k ≠ i ∧ getSt a i = some s2) ∨ (k = i ∧ ∃ s, getSt a i = some s ∧ s2 = f s) := by
  rw [getSt_modify] at hg
  by_cases hk : k = i
  · rw [if_pos hk] at hg
    cases hga : getSt a i with
    | none => rw [hga] at hg; exact absurd hg (by simp)
    | some s =>
      rw [hga] at hg
      exact Or.inr ⟨hk, s, rfl, (Option.some.inj hg).symm⟩
  · rw [if_neg hk] at hg
    exact Or.inl ⟨hk, hg⟩

theorem frameF_refl (a : Array PState) : frameF a a :=
  ⟨rfl, fun _ => rfl, fun _ => rfl, fun _ _ _ h => h, fun _ h => h,
   fun _ _ _ h1 h2 => by rw [h1] at h2; exact (Option.some.inj h2) ▸ List.prefix_rfl⟩

theorem frameF_trans {a b c : Array PState} (h1 : frameF a b) (h2 : frameF b c) :
    frameF a c := by
  refine ⟨h2.1.trans h1.1, skelEq_trans h2.2.1 h1.2.1, succEq_trans h2.2.2.1 h1.2.2.1,
   fun i ch j h => h2.2.2.2.1 i ch j (h1.2.2.2.1 i ch j h),
   fun i h => h2.2.2.2.2.1 i (h1.2.2.2.2.1 i h), ?_⟩
  intro i s s2 hga hgc
  have hib : i < b.size := h1.1 ▸ getSt_lt hga
  have hgb := getSt_eq_of_lt hib
  exact (h1.2.2.2.2.2 i s b[i] hga hgb).trans (h2.2.2.2.2.2 i b[i] s2 hgb hgc)

theorem skelEq_setLss (a : Array PState) (i j : Nat) : skelEq (setLss a i j) a := by
  rw [setLss]
  apply skelEq_of_modify
  intro s0
  exact ⟨rfl, rfl⟩

theorem succEq_setLss (a : Array PState) (i j : Nat) : succEq (setLss a i j) a := by
  rw [setLss]
  apply succEq_of_modify
  intro s0
  exact ⟨rfl, rfl⟩

theorem skelEq_addEdge (a : Array PState) (k : Nat) (c : Char) (t : Nat) :
    skelEq (addEdge a k c t) a := by
  rw [addEdge]
  apply skelEq_of_modify
  intro s0
  exact ⟨rfl, rfl⟩

theorem succEq_addEdge (a : Array PState) (k : Nat) (c : Char) (t : Nat) :
    succEq (addEdge a k c t) a := by
  rw [addEdge]
  apply succEq_of_modify
  intro s0
  exact ⟨rfl, rfl⟩

theorem frameF_setLss (a : Array PState) (i j : Nat) : frameF a (setLss a i j) := by
  refine ⟨size_setLss a i j, skelEq_setLss a i j, succEq_setLss a i j,
   fun i' c' j' h => (lookupTrans_setLss a i j i' c').trans h, ?_, ?_⟩
  · intro i' hset
    obtain ⟨s, j0, hg, hj⟩ := hset
    rw [setLss]
    by_cases hk : i = i'
    · refine ⟨{ s with longest_strict_suffix := some j }, j, ?_, rfl⟩
      rw [getSt_modify, if_pos hk, hg]
      rfl
    · exact ⟨s, j0, by rw [getSt_modify, if_neg hk]; exact hg, hj⟩
  · intro i' s s2 hga hgb
    rw [setLss] at hgb
    rcases modify_back hgb with ⟨_, hgb'⟩ | ⟨_, s0, hga', rfl⟩
    · rw [hga] at hgb'; exact (Option.some.inj hgb') ▸ List.prefix_rfl
    · rw [hga] at hga'
      exact (Option.some.inj hga') ▸ List.prefix_rfl

theorem frameF_addEdge (a : Array PState) (k : Nat) (c : Char) (t : Nat) :
    frameF a (addEdge a k c t) := by
  refine ⟨size_addEdge a k c t, skelEq_addEdge a k c t, succEq_addEdge a k c t,
   fun i' c' j' h => lookupTrans_addEdge_preserve k c t h, ?_, ?_⟩
  · intro i' hset
    obtain ⟨s, j0, hg, hj⟩ := hset
    rw [addEdge]
    by_cases hk : k = i'
    · refine ⟨{ s with transitions := s.transitions ++ [(c, t)] }, j0, ?_, hj⟩
      rw [getSt_modify, if_pos hk, hg]
      rfl
    · exact ⟨s, j0, by rw [getSt_modify, if_neg hk]; exact hg, hj⟩
  · intro i' s s2 hga hgb
    rw [addEdge] at hgb
    rcases modify_back hgb with ⟨_, hgb'⟩ | ⟨_, s0, hga', rfl⟩
    · rw [hga] at hgb'; exact (Option.some.inj hgb') ▸ List.prefix_rfl
    · rw [hga] at hga'
      obtain rfl := Option.some.inj hga'
      exact ⟨[(c, t)], rfl⟩

theorem finv_setLss {a : Array PState} (inv : FInv a) {i j : Nat}
    (h0 : i = 0 → j = 0)
    (hne : i ≠ 0 → j < a.size ∧ depth a j < depth a i ∧ path a j <:+ path a i) :
    FInv (setLss a i j) := by
  have hskel : skelEq (setLss a i j) a := skelEq_setLss a i j
  have hback : ∀ i' s2, getSt (setLss a i j) i' = some s2 →
      ∃ s, getSt a i' = some s ∧ s2.parent = s.parent ∧ s2.symbol = s.symbol ∧
        s2.success = s.success ∧ s2.matched_keyword = s.matched_keyword ∧
        s2.transitions = s.transitions ∧
        (s2.longest_strict_suffix = s.longest_strict_suffix ∨
          (i' = i ∧ s2.longest_strict_suffix = some j)) := by
    intro i' s2 hg
    rw [setLss] at hg
    rcases modify_back hg with ⟨hk, hga⟩ | ⟨hk, s, hga, rfl⟩
    · exact ⟨s2, hga, rfl, rfl, rfl, rfl, rfl, Or.inl rfl⟩
    · exact ⟨s, hga, rfl, rfl, rfl, rfl, rfl, Or.inr ⟨hk.symm, rfl⟩⟩
  have hlkeq : ∀ i' c, lookupTrans (setLss a i j) i' c = lookupTrans a i' c :=
    lookupTrans_setLss a i j
  refine ⟨?_, ?_, ?_, ?_, ?_, ?_, ?_, ?_⟩
  · rw [size_setLss]; exact inv.hsize
  · intro s hg
    obtain ⟨s0, hg0, e1, e2, _, _, _, _⟩ := hback 0 s hg
    obtain ⟨r1, r2⟩ := inv.hroot s0 hg0
    exact ⟨e1.trans r1, e2.trans r2⟩
  · intro i' s p hg hp
    obtain ⟨s0, hg0, e1, _, _, _, _, _⟩ := hback i' s hg
    exact inv.hdec i' s0 p hg0 (e1 ▸ hp)
  · intro i' s hg hi0
    obtain ⟨s0, hg0, e1, e2, _, _, _, _⟩ := hback i' s hg
    obtain ⟨⟨p, hp⟩, ⟨c, hc⟩⟩ := inv.hsym i' s0 hg0 hi0
    exact ⟨⟨p, e1.trans hp⟩, ⟨c, e2.trans hc⟩⟩
  · intro i' s p c hg hp hc
    obtain ⟨s0, hg0, e1, e2, _, _, _, _⟩ := hback i' s hg
    rw [hlkeq]
    exact inv.horig i' s0 p c hg0 (e1 ▸ hp) (e2 ▸ hc)
  · intro i' s hg c t hmem
    obtain ⟨s0, hg0, _, _, _, _, etr, _⟩ := hback i' s hg
    obtain ⟨f1, f2, f3, f4⟩ := inv.hedge i' s0 hg0 c t (etr ▸ hmem)
    rw [size_setLss, depth_skel hskel, depth_skel hskel, path_skel hskel, path_skel hskel]
    exact ⟨f1, f2, f3, f4⟩
  · intro s j' hg hj
    obtain ⟨s0, hg0, _, _, _, _, _, hl⟩ := hback 0 s hg
    rcases hl with hl | ⟨hi0, hl⟩
    · exact inv.hlss0 s0 j' hg0 (hl.symm.trans hj)
    · have hj' : j' = j := (Option.some.inj (hl.symm.trans hj)).symm
      rw [hj']
      exact h0 hi0.symm
  · intro i' s j' hg hi0 hj
    obtain ⟨s0, hg0, _, _, _, _, _, hl⟩ := hback i' s hg
    rw [size_setLss, depth_skel hskel, depth_skel hskel, path_skel hskel, path_skel hskel]
    rcases hl with hl | ⟨hieq, hl⟩
    · exact inv.hlss i' s0 j' hg0 hi0 (hl.symm.trans hj)
    · have hj' : j' = j := (Option.some.inj (hl.symm.trans hj)).symm
      rw [hj', hieq]
      exact hne (hieq ▸ hi0)

theorem finv_addEdge {a : Array PState} (inv : FInv a) {k : Nat} {c : Char} {t : Nat}
    (ht0 : t ≠ 0) (htlt : t < a.size)
    (hdep : depth a t ≤ depth a k + 1) (hpath : path a t <:+ path a k ++ [c]) :
    FInv (addEdge a k c t) := by
  have hskel : skelEq (addEdge a k c t) a := skelEq_addEdge a k c t
  have hback : ∀ i' s2, getSt (addEdge a k c t) i' = some s2 →
      ∃ s, getSt a i' = some s ∧ s2.parent = s.parent ∧ s2.symbol = s.symbol ∧
        s2.success = s.success ∧ s2.matched_keyword = s.matched_keyword ∧
        s2.longest_strict_suffix = s.longest_strict_suffix ∧
        (s2.transitions = s.transitions ∨
          (i' = k ∧ s2.transitions = s.transitions ++ [(c, t)])) := by
    intro i' s2 hg
    rw [addEdge] at hg
    rcases modify_back hg with ⟨hk, hga⟩ | ⟨hk, s, hga, rfl⟩
    · exact ⟨s2, hga, rfl, rfl, rfl, rfl, rfl, Or.inl rfl⟩
    · exact ⟨s, hga, rfl, rfl, rfl, rfl, rfl, Or.inr ⟨hk.symm, rfl⟩⟩
  refine ⟨?_, ?_, ?_, ?_, ?_, ?_, ?_, ?_⟩
  · rw [size_addEdge]; exact inv.hsize
  · intro s hg
    obtain ⟨s0, hg0, e1, e2, _, _, _, _⟩ := hback 0 s hg
    obtain ⟨r1, r2⟩ := inv.hroot s0 hg0
    exact ⟨e1.trans r1, e2.trans r2⟩
  · intro i' s p hg hp
    obtain ⟨s0, hg0, e1, _, _, _, _, _⟩ := hback i' s hg
    exact inv.hdec i' s0 p hg0 (e1 ▸ hp)
  · intro i' s hg hi0
    obtain ⟨s0, hg0, e1, e2, _, _, _, _⟩ := hback i' s hg
    obtain ⟨⟨p, hp⟩, ⟨ch, hc⟩⟩ := inv.hsym i' s0 hg0 hi0
    exact ⟨⟨p, e1.trans hp⟩, ⟨ch, e2.trans hc⟩⟩
  · intro i' s p ch hg hp hc
    obtain ⟨s0, hg0, e1, e2, _, _, _, _⟩ := hback i' s hg
    exact lookupTrans_addEdge_preserve k c t
      (inv.horig i' s0 p ch hg0 (e1 ▸ hp) (e2 ▸ hc))
  · intro i' s hg ch u hmem
    obtain ⟨s0, hg0, _, _, _, _, _, htr⟩ := hback i' s hg
    rw [size_addEdge, depth_skel hskel, depth_skel hskel, path_skel hskel, path_skel hskel]
    rcases htr with htr | ⟨hik, htr⟩
    · exact inv.hedge i' s0 hg0 ch u (htr ▸ hmem)
    · rw [htr] at hmem
      rcases List.mem_append.1 hmem with hold | hnew
      · exact inv.hedge i' s0 hg0 ch u hold
      · simp only [List.mem_singleton, Prod.mk.injEq] at hnew
        obtain ⟨rfl, rfl⟩ := hnew
        rw [hik]
        exact ⟨ht0, htlt, hdep, hpath⟩
  · intro s j' hg hj
    obtain ⟨s0, hg0, _, _, _, _, e5, _⟩ := hback 0 s hg
    exact inv.hlss0 s0 j' hg0 (e5.symm.trans hj)
  · intro i' s j' hg hi0 hj
    obtain ⟨s0, hg0, _, _, _, _, e5, _⟩ := hback i' s hg
    rw [size_addEdge, depth_skel hskel, depth_skel hskel, path_skel hskel, path_skel hskel]
    exact inv.hlss i' s0 j' hg0 hi0 (e5.symm.trans hj)

theorem mergeInto_ok :
    ∀ (entries : List (Char × Nat)) {a : Array PState}, FInv a → ∀ (sid : Nat),
    (∀ c t, (c, t) ∈ entries → t ≠ 0 ∧ t < a.size ∧ depth a t ≤ depth a sid ∧
      path a t <:+ path a sid ++ [c]) →
    FInv (mergeInto a sid entries) ∧ frameF a (mergeInto a sid entries) := by
  intro entries
  induction entries with
  | nil => intro a inv sid _; exact ⟨inv, frameF_refl a⟩
  | cons p rest ih =>
    intro a inv sid hents
    obtain ⟨c, t⟩ := p
    rw [mergeInto]
    cases hl : lookupTrans a sid c with
    | some u => exact ih inv sid (fun c' t' hm => hents c' t' (List.mem_cons_of_mem _ hm))
    | none =>
      obtain ⟨f1, f2, f3, f4⟩ := hents c t (List.mem_cons_self _ _)
      have inv2 := finv_addEdge inv f1 f2 (Nat.le_trans f3 (Nat.le_succ _)) f4
      have hfr : frameF a (addEdge a sid c t) := frameF_addEdge a sid c t
      have hskel : skelEq (addEdge a sid c t) a := skelEq_addEdge a sid c t
      have hents2 : ∀ c' t', (c', t') ∈ rest → t' ≠ 0 ∧ t' < (addEdge a sid c t).size ∧
          depth (addEdge a sid c t) t' ≤ depth (addEdge a sid c t) sid ∧
          path (addEdge a sid c t) t' <:+ path (addEdge a sid c t) sid ++ [c'] := by
        intro c' t' hm
        obtain ⟨g1, g2, g3, g4⟩ := hents c' t' (List.mem_cons_of_mem _ hm)
        rw [size_addEdge, depth_skel hskel, depth_skel hskel, path_skel hskel,
          path_skel hskel]
        exact ⟨g1, g2, g3, g4⟩
      obtain ⟨r1, r2⟩ := ih inv2 sid hents2
      exact ⟨r1, frameF_trans hfr r2⟩

/-! ## The walk of `search_lss` -/

theorem lssHit_some {ts : PState} {c : Char} {sid tgt : Nat}
    (h : lssHit ts (some c) sid = some tgt) :
    alookup ts.transitions c = some tgt ∧ tgt ≠ sid := by
  cases hl : alookup ts.transitions c with
  | none => simp [lssHit, hl] at h
  | some u =>
    simp only [lssHit, hl] at h
    by_cases hu : u = sid
    · rw [if_pos hu] at h; exact absurd h (by simp)
    · rw [if_neg hu] at h
      obtain rfl := Option.some.inj h
      exact ⟨rfl, hu⟩

theorem lssWalk_ok {a : Array PState} (inv : FInv a) {c : Char} {sid : Nat} :
    ∀ (f tr res : Nat), lssWalk a (some c) sid f tr = .ok res →
    res = 0 ∨ (res ≠ 0 ∧ res < a.size ∧ depth a res ≤ depth a tr + 1 ∧
      path a res <:+ path a tr ++ [c]) := by
  intro f
  induction f with
  | zero => intro tr res h; exact absurd h (by rw [lssWalk]; simp)
  | succ f ih =>
    intro tr res h
    rw [lssWalk] at h
    cases hg : getSt a tr with
    | none => simp only [hg] at h; exact absurd h (by simp)
    | some ts =>
      simp only [hg] at h
      cases hh : lssHit ts (some c) sid with
      | some tgt =>
        simp only [hh] at h
        obtain rfl := POut.ok.inj h
        obtain ⟨hl, _⟩ := lssHit_some hh
        obtain ⟨f1, f2, f3, f4⟩ := inv.hedge tr ts hg c tgt (alookup_mem hl)
        exact Or.inr ⟨f1, f2, f3, f4⟩
      | none =>
        simp only [hh] at h
        by_cases htr : tr = 0
        · rw [if_pos htr] at h
          exact Or.inl (POut.ok.inj h).symm
        · rw [if_neg htr] at h
          cases hlss : ts.longest_strict_suffix with
          | none => simp only [hlss] at h; exact absurd h (by simp)
          | some nxt =>
            simp only [hlss] at h
            obtain ⟨g1, g2, g3⟩ := inv.hlss tr ts nxt hg htr hlss
            rcases ih nxt res h with h0 | ⟨r1, r2, r3, r4⟩
            · exact Or.inl h0
            · refine Or.inr ⟨r1, r2, ?_, ?_⟩
              · omega
              · exact r4.trans (suffix_append_right g3)

theorem binv_finv {a : Array PState} (hB : BInv a) : FInv a := by
  refine ⟨hB.hsize, hB.hroot, hB.hdec, hB.hsym, hB.horig, ?_, ?_, ?_⟩
  · intro i s hg c t hmem
    obtain ⟨f1, f2, s2, hg2, e1, e2⟩ := hB.hbedge i s hg c t hmem
    refine ⟨f1, f2, ?_, ?_⟩
    · rw [depth_parent hB.hdec hg2 e1]
    · rw [path_parent hB.hdec hg2 e1 e2]
  · intro s j hg hj
    exact absurd ((hB.hlssnone 0 s hg).symm.trans hj) (by simp)
  · intro i s j hg _ hj
    exact absurd ((hB.hlssnone i s hg).symm.trans hj) (by simp)

theorem setLss_setsAt {a : Array PState} {i : Nat} {s : PState}
    (hg : getSt a i = some s) (j : Nat) : lssSetAt (setLss a i j) i :=
  ⟨{ s with longest_strict_suffix := some j }, j,
   by rw [setLss, getSt_modify, if_pos rfl, hg]; rfl, rfl⟩

theorem searchLss_ok :
    ∀ (fuel : Nat) {a : Array PState} {sid : Nat} {a2 : Array PState},
    FInv a → searchLss a sid fuel = .ok a2 →
    FInv a2 ∧ frameF a a2 ∧ lssSetAt a2 sid := by
  intro fuel
  induction fuel with
  | zero =>
    intro a sid a2 _ h
    exact absurd h (by rw [searchLss]; simp)
  | succ fuel ih =>
    intro a sid a2 inv h
    rw [searchLss] at h
    cases hg : getSt a sid with
    | none => simp only [hg] at h; exact absurd h (by simp)
    | some s =>
      simp only [hg] at h
      cases hpar : s.parent with
      | none => simp only [hpar] at h; exact absurd h (by simp)
      | some p =>
        simp only [hpar] at h
        cases hgp : getSt a p with
        | none => simp only [hgp] at h; exact absurd h (by simp)
        | some ps =>
          simp only [hgp] at h
          cases hpl : ps.longest_strict_suffix with
          | none => simp only [hpl] at h; exact absurd h (by simp)
          | some pl =>
            simp only [hpl] at h
            have hsid0 : sid ≠ 0 := by
              intro h0
              subst h0
              obtain ⟨r1, _⟩ := inv.hroot s hg
              rw [r1] at hpar
              exact Option.noConfusion hpar
            obtain ⟨_, ⟨c, hsymb⟩⟩ := inv.hsym sid s hg hsid0
            rw [hsymb] at h
            cases hwalk : lssWalk a (some c) sid (a.size + 1) pl with
            | ok suffix =>
              simp only [hwalk] at h
              have hdsid : depth a sid = depth a p + 1 := depth_parent inv.hdec hg hpar
              have hpsid : path a sid = path a p ++ [c] :=
                path_parent inv.hdec hg hpar hsymb
              have hsuffix : suffix = 0 ∨ (suffix < a.size ∧
                  depth a suffix < depth a sid ∧ path a suffix <:+ path a sid) := by
                rcases lssWalk_ok inv _ _ _ hwalk with h0 | ⟨w1, w2, w3, w4⟩
                · exact Or.inl h0
                · right
                  by_cases hp0 : p = 0
                  · exfalso
                    subst hp0
                    have hpl0 : pl = 0 := inv.hlss0 ps pl hgp hpl
                    subst hpl0
                    rw [lssWalk] at hwalk
                    simp only [hgp] at hwalk
                    have horig0 : alookup ps.transitions c = some sid := by
                      have h2 := inv.horig sid s 0 c hg hpar hsymb
                      simp only [lookupTrans, hgp] at h2
                      exact h2
                    have hhit : lssHit ps (some c) sid = none := by
                      simp [lssHit, horig0]
                    simp only [hhit, if_true] at hwalk
                    exact w1 (POut.ok.inj hwalk).symm
                  · obtain ⟨l1, l2, l3⟩ := inv.hlss p ps pl hgp hp0 hpl
                    refine ⟨w2, by omega, ?_⟩
                    rw [hpsid]
                    exact w4.trans (suffix_append_right l3)
              by_cases hs0 : suffix = 0
              · rw [if_pos hs0] at h
                obtain rfl := POut.ok.inj h
                subst hs0
                refine ⟨finv_setLss inv (fun _ => rfl) ?_, frameF_setLss a sid 0,
                  setLss_setsAt hg 0⟩
                intro _
                refine ⟨inv.hsize, ?_, ?_⟩
                · rw [depth_zero, hdsid]; omega
                · rw [path_zero]; exact ⟨path a sid, List.append_nil _⟩
              · rw [if_neg hs0] at h
                rcases hsuffix with h0 | ⟨w2, w3, w4⟩
                · exact absurd h0 hs0
                have inv1 : FInv (setLss a sid suffix) :=
                  finv_setLss inv (fun h0 => absurd h0 hsid0) (fun _ => ⟨w2, w3, w4⟩)
                have hfr1 : frameF a (setLss a sid suffix) := frameF_setLss a sid suffix
                cases hg1 : getSt (setLss a sid suffix) suffix with
                | none => simp only [hg1] at h; exact absurd h (by simp)
                | some sfx =>
                  simp only [hg1] at h
                  by_cases hrec : sfx.longest_strict_suffix = none
                  · rw [if_pos hrec] at h
                    cases hr : searchLss (setLss a sid suffix) suffix fuel with
                    | ok a2' =>
                      simp only [hr] at h
                      obtain ⟨inv2, hfr2, _⟩ := ih inv1 hr
                      cases hg2 : getSt a2' suffix with
                      | none => simp only [hg2] at h; exact absurd h (by simp)
                      | some sfx2 =>
                        simp only [hg2] at h
                        obtain rfl := POut.ok.inj h
                        have hsk : skelEq a2' a :=
                          skelEq_trans hfr2.2.1 hfr1.2.1
                        have hents : ∀ c' t', (c', t') ∈ sfx2.transitions →
                            t' ≠ 0 ∧ t' < a2'.size ∧
                            depth a2' t' ≤ depth a2' sid ∧
                            path a2' t' <:+ path a2' sid ++ [c'] := by
                          intro c' t' hm
                          obtain ⟨g1, g2, g3, g4⟩ := inv2.hedge suffix sfx2 hg2 c' t' hm
                          have hds : depth a2' suffix < depth a2' sid := by
                            rw [depth_skel hsk, depth_skel hsk]
                            exact w3
                          have hps : path a2' suffix <:+ path a2' sid := by
                            rw [path_skel hsk, path_skel hsk]
                            exact w4
                          exact ⟨g1, g2, by omega,
                            g4.trans (suffix_append_right hps)⟩
                        obtain ⟨r1, r2⟩ := mergeInto_ok sfx2.transitions inv2 sid hents
                        exact ⟨r1, frameF_trans hfr1 (frameF_trans hfr2 r2),
                          r2.2.2.2.2.1 sid (hfr2.2.2.2.2.1 sid (setLss_setsAt hg suffix))⟩
                    | exn => simp only [hr] at h; exact absurd h (by simp)
                    | crash => simp only [hr] at h; exact absurd h (by simp)
                    | fuel => simp only [hr] at h; exact absurd h (by simp)
                  · rw [if_neg hrec] at h
                    cases hg2 : getSt (setLss a sid suffix) suffix with
                    | none => rw [hg1] at hg2; exact absurd hg2 (by simp)
                    | some sfx2 =>
                      simp only [hg2] at h
                      obtain rfl := POut.ok.inj h
                      have hsk : skelEq (setLss a sid suffix) a := hfr1.2.1
                      have hents : ∀ c' t', (c', t') ∈ sfx2.transitions →
                          t' ≠ 0 ∧ t' < (setLss a sid suffix).size ∧
                          depth (setLss a sid suffix) t' ≤ depth (setLss a sid suffix) sid ∧
                          path (setLss a sid suffix) t' <:+
                            path (setLss a sid suffix) sid ++ [c'] := by
                        intro c' t' hm
                        obtain ⟨g1, g2, g3, g4⟩ := inv1.hedge suffix sfx2 hg2 c' t' hm
                        have hds : depth (setLss a sid suffix) suffix <
                            depth (setLss a sid suffix) sid := by
                          rw [depth_skel hsk, depth_skel hsk]
                          exact w3
                        have hps : path (setLss a sid suffix) suffix <:+
                            path (setLss a sid suffix) sid := by
                          rw [path_skel hsk, path_skel hsk]
                          exact w4
                        exact ⟨g1, g2, by omega, g4.trans (suffix_append_right hps)⟩
                      obtain ⟨r1, r2⟩ := mergeInto_ok sfx2.transitions inv1 sid hents
                      exact ⟨r1, frameF_trans hfr1 r2,
                        r2.2.2.2.2.1 sid (setLss_setsAt hg suffix)⟩
            | exn => simp only [hwalk] at h; exact absurd h (by simp)
            | crash => simp only [hwalk] at h; exact absurd h (by simp)
            | fuel => simp only [hwalk] at h; exact absurd h (by simp)

theorem getSt_setLss_other (a : Array PState) {k : Nat} (j : Nat) {i : Nat}
    (hne : k ≠ i) : getSt (setLss a k j) i = getSt a i := by
  rw [setLss, getSt_modify, if_neg hne]

theorem getSt_addEdge_other (a : Array PState) {k : Nat} (c : Char) (t : Nat)
    {i : Nat} (hne : k ≠ i) : getSt (addEdge a k c t) i = getSt a i := by
  rw [addEdge, getSt_modify, if_neg hne]

theorem mergeInto_getSt_other :
    ∀ (l : List (Char × Nat)) (a : Array PState) {sid i : Nat}, sid ≠ i →
    getSt (mergeInto a sid l) i = getSt a i := by
  intro l
  induction l with
  | nil => intro a sid i _; rfl
  | cons pr rest ih =>
    intro a sid i hne
    obtain ⟨c, t⟩ := pr
    rw [mergeInto]
    cases hlk : lookupTrans a sid c with
    | some j => simp only [hlk]; exact ih a hne
    | none =>
      simp only [hlk]
      exact (ih (addEdge a sid c t) hne).trans (getSt_addEdge_other a c t hne)

theorem searchLss_freeze :
    ∀ (fuel : Nat) {a : Array PState} {sid : Nat} {a2 : Array PState}
      {P : Nat → Prop},
    (∀ i, P i → lssSetAt a i) → ¬ P sid →
    searchLss a sid fuel = .ok a2 →
    ∀ i, P i → getSt a2 i = getSt a i := by
  intro fuel
  induction fuel with
  | zero =>
    intro a sid a2 P _ _ h
    exact absurd h (by rw [searchLss]; simp)
  | succ fuel ih =>
    intro a sid a2 P hP hns h
    rw [searchLss] at h
    cases hg : getSt a sid with
    | none => simp only [hg] at h; exact absurd h (by simp)
    | some s =>
      simp only [hg] at h
      cases hpar : s.parent with
      | none => simp only [hpar] at h; exact absurd h (by simp)
      | some p =>
        simp only [hpar] at h
        cases hgp : getSt a p with
        | none => simp only [hgp] at h; exact absurd h (by simp)
        | some ps =>
          simp only [hgp] at h
          cases hpl : ps.longest_strict_suffix with
          | none => simp only [hpl] at h; exact absurd h (by simp)
          | some pl =>
            simp only [hpl] at h
            cases hwalk : lssWalk a s.symbol sid (a.size + 1) pl with
            | ok suffix =>
              simp only [hwalk] at h
              have hP1 : ∀ i, P i → getSt (setLss a sid suffix) i = getSt a i := by
                intro i hi
                exact getSt_setLss_other a suffix
                  (fun he => hns (by rw [he]; exact hi))
              by_cases hs0 : suffix = 0
              · rw [if_pos hs0] at h
                obtain rfl := POut.ok.inj h
                exact hP1
              · rw [if_neg hs0] at h
                cases hg1 : getSt (setLss a sid suffix) suffix with
                | none => simp only [hg1] at h; exact absurd h (by simp)
                | some sfx =>
                  simp only [hg1] at h
                  have hPs1 : ∀ i, P i → lssSetAt (setLss a sid suffix) i := by
                    intro i hi
                    obtain ⟨s', j', hg', hj'⟩ := hP i hi
                    exact ⟨s', j', (hP1 i hi).trans hg', hj'⟩
                  by_cases hrec : sfx.longest_strict_suffix = none
                  · rw [if_pos hrec] at h
                    have hnsfx : ¬ P suffix := by
                      intro hmem
                      obtain ⟨s', j', hg', hj'⟩ := hPs1 suffix hmem
                      rw [hg1] at hg'
                      obtain rfl := Option.some.inj hg'
                      rw [hrec] at hj'
                      exact Option.noConfusion hj'
                    cases hr : searchLss (setLss a sid suffix) suffix fuel with
                    | ok a2' =>
                      simp only [hr] at h
                      have hP2 := ih hPs1 hnsfx hr
                      cases hg2 : getSt a2' suffix with
                      | none => simp only [hg2] at h; exact absurd h (by simp)
                      | some sfx2 =>
                        simp only [hg2] at h
                        obtain rfl := POut.ok.inj h
                        intro i hi
                        rw [mergeInto_getSt_other sfx2.transitions a2'
                          (fun he => hns (by rw [he]; exact hi))]
                        rw [hP2 i hi, hP1 i hi]
                    | exn => simp only [hr] at h; exact absurd h (by simp)
                    | crash => simp only [hr] at h; exact absurd h (by simp)
                    | fuel => simp only [hr] at h; exact absurd h (by simp)
                  · rw [if_neg hrec] at h
                    cases hg2 : getSt (setLss a sid suffix) suffix with
                    | none => rw [hg1] at hg2; exact absurd hg2 (by simp)
                    | some sfx2 =>
                      simp only [hg2] at h
                      obtain rfl := POut.ok.inj h
                      intro i hi
                      rw [mergeInto_getSt_other sfx2.transitions _
                        (fun he => hns (by rw [he]; exact hi))]
                      exact hP1 i hi
            | exn => simp only [hwalk] at h; exact absurd h (by simp)
            | crash => simp only [hwalk] at h; exact absurd h (by simp)
            | fuel => simp only [hwalk] at h; exact absurd h (by simp)

theorem procKids_ok :
    ∀ (entries : List (Char × Nat)) {nf : Nat} {processed : List Nat}
      {a : Array PState} {stack : List Nat} {r : Array PState × List Nat},
    FInv a → procKids nf processed a entries stack = .ok r →
    FInv r.1 ∧ frameF a r.1 := by
  intro entries
  induction entries with
  | nil =>
    intro nf processed a stack r inv h
    rw [procKids] at h
    obtain rfl := POut.ok.inj h
    exact ⟨inv, frameF_refl a⟩
  | cons p rest ih =>
    intro nf processed a stack r inv h
    obtain ⟨c, child⟩ := p
    rw [procKids] at h
    by_cases hmem : child ∈ processed
    · rw [if_pos hmem] at h
      exact ih inv h
    · rw [if_neg hmem] at h
      cases hs : searchLss a child nf with
      | ok a2 =>
        simp only [hs] at h
        obtain ⟨inv2, hfr2, _⟩ := searchLss_ok nf inv hs
        obtain ⟨r1, r2⟩ := ih inv2 h
        exact ⟨r1, frameF_trans hfr2 r2⟩
      | exn => simp only [hs] at h; exact absurd h (by simp)
      | crash => simp only [hs] at h; exact absurd h (by simp)
      | fuel => simp only [hs] at h; exact absurd h (by simp)

theorem procKids_master :
    ∀ (entries : List (Char × Nat)) {nf : Nat} {processed : List Nat}
      {a : Array PState} {stack : List Nat} {r : Array PState × List Nat},
    FInv a →
    (∀ i, i ∈ processed → lssSetAt a i) →
    (∀ i, i ∈ stack → lssSetAt a i) →
    procKids nf processed a entries stack = .ok r →
    FInv r.1 ∧ frameF a r.1 ∧
    (∀ i, i ∈ processed → getSt r.1 i = getSt a i) ∧
    (∀ i, i ∈ stack → i ∈ r.2) ∧
    (∀ i, i ∈ r.2 → lssSetAt r.1 i) ∧
    (∀ c j, (c, j) ∈ entries → j ∈ processed ∨ j ∈ r.2) := by
  intro entries
  induction entries with
  | nil =>
    intro nf processed a stack r inv hpl hsl h
    rw [procKids] at h
    obtain rfl := POut.ok.inj h
    exact ⟨inv, frameF_refl a, fun _ _ => rfl, fun _ hi => hi, hsl, by simp⟩
  | cons pr rest ih =>
    intro nf processed a stack r inv hpl hsl h
    obtain ⟨c, child⟩ := pr
    rw [procKids] at h
    by_cases hmem : child ∈ processed
    · rw [if_pos hmem] at h
      obtain ⟨r1, r2, r3, r4, r5, r6⟩ := ih inv hpl hsl h
      refine ⟨r1, r2, r3, r4, r5, ?_⟩
      intro c' j hm
      rcases List.mem_cons.1 hm with he | hm'
      · have h2 : j = child := congrArg Prod.snd he
        subst h2
        exact Or.inl hmem
      · exact r6 c' j hm'
    · rw [if_neg hmem] at h
      cases hs : searchLss a child nf with
      | ok a2 =>
        simp only [hs] at h
        obtain ⟨inv2, hfr2, hset2⟩ := searchLss_ok nf inv hs
        have hfz : ∀ i, i ∈ processed → getSt a2 i = getSt a i :=
          searchLss_freeze nf hpl hmem hs
        have hpl2 : ∀ i, i ∈ processed → lssSetAt a2 i :=
          fun i hi => hfr2.2.2.2.2.1 i (hpl i hi)
        have hsl2 : ∀ i, i ∈ child :: stack → lssSetAt a2 i := by
          intro i hi
          rcases List.mem_cons.1 hi with rfl | hi'
          · exact hset2
          · exact hfr2.2.2.2.2.1 i (hsl i hi')
        obtain ⟨r1, r2, r3, r4, r5, r6⟩ := ih inv2 hpl2 hsl2 h
        refine ⟨r1, frameF_trans hfr2 r2, ?_, ?_, r5, ?_⟩
        · intro i hi
          rw [r3 i hi, hfz i hi]
        · intro i hi
          exact r4 i (List.mem_cons_of_mem child hi)
        · intro c' j hm
          rcases List.mem_cons.1 hm with he | hm'
          · have h2 : j = child := congrArg Prod.snd he
            subst h2
            exact Or.inr (r4 j (List.mem_cons_self j stack))
          · exact r6 c' j hm'
      | exn => simp only [hs] at h; exact absurd h (by simp)
      | crash => simp only [hs] at h; exact absurd h (by simp)
      | fuel => simp only [hs] at h; exact absurd h (by simp)

theorem dfsLoop_ok {nf : Nat} :
    ∀ (f : Nat) {a : Array PState} {processed stack : List Nat} {a2 : Array PState},
    FInv a → dfsLoop nf f a processed stack = .ok a2 →
    FInv a2 ∧ frameF a a2 := by
  intro f
  induction f with
  | zero =>
    intro a processed stack a2 _ h
    exact absurd h (by rw [dfsLoop.eq_def]; simp)
  | succ f ih =>
    intro a processed stack a2 inv h
    rw [dfsLoop.eq_def] at h
    cases stack with
    | nil =>
      obtain rfl := POut.ok.inj h
      exact ⟨inv, frameF_refl a⟩
    | cons sid rest =>
      cases hg : getSt a sid with
      | none => simp only [hg] at h; exact absurd h (by simp)
      | some s =>
        simp only [hg] at h
        cases hp : procKids nf (sid :: processed) a s.transitions rest with
        | ok r =>
          simp only [hp] at h
          obtain ⟨inv2, hfr2⟩ := procKids_ok s.transitions inv hp
          obtain ⟨r1, r2⟩ := ih inv2 h
          exact ⟨r1, frameF_trans hfr2 r2⟩
        | exn => simp only [hp] at h; exact absurd h (by simp)
        | crash => simp only [hp] at h; exact absurd h (by simp)
        | fuel => simp only [hp] at h; exact absurd h (by simp)

theorem dfsLoopP_erase :
    ∀ (f : Nat) {nf : Nat} {a : Array PState} {processed stack : List Nat}
      {a2 : Array PState},
    dfsLoop nf f a processed stack = .ok a2 →
    ∃ procF, dfsLoopP nf f a processed stack = .ok (a2, procF) := by
  intro f
  induction f with
  | zero =>
    intro nf a processed stack a2 h
    exact absurd h (by rw [dfsLoop.eq_def]; simp)
  | succ f ih =>
    intro nf a processed stack a2 h
    rw [dfsLoop.eq_def] at h
    rw [dfsLoopP.eq_def]
    cases stack with
    | nil =>
      obtain rfl := POut.ok.inj h
      exact ⟨processed, rfl⟩
    | cons sid rest =>
      cases hg : getSt a sid with
      | none => simp only [hg] at h; exact absurd h (by simp)
      | some s =>
        simp only [hg] at h ⊢
        cases hp : procKids nf (sid :: processed) a s.transitions rest with
        | ok r =>
          simp only [hp] at h ⊢
          exact ih h
        | exn => simp only [hp] at h; exact absurd h (by simp)
        | crash => simp only [hp] at h; exact absurd h (by simp)
        | fuel => simp only [hp] at h; exact absurd h (by simp)

theorem dfsLoopP_master :
    ∀ (f : Nat) {nf : Nat} {a : Array PState} {processed stack : List Nat}
      {a2 : Array PState} {procF : List Nat},
    FInv a →
    (∀ i, i ∈ processed → lssSetAt a i) →
    (∀ i, i ∈ stack → lssSetAt a i) →
    (∀ i, i ∈ processed → ∀ s, getSt a i = some s →
      ∀ c j, (c, j) ∈ s.transitions → j ∈ processed ∨ j ∈ stack) →
    dfsLoopP nf f a processed stack = .ok (a2, procF) →
    FInv a2 ∧ frameF a a2 ∧
    (∀ i, i ∈ processed → i ∈ procF) ∧
    (∀ i, i ∈ stack → i ∈ procF) ∧
    (∀ i, i ∈ procF → ∀ s, getSt a i = some s →
      ∀ c j, (c, j) ∈ s.transitions → j ∈ procF) ∧
    (∀ i, i ∈ procF → lssSetAt a2 i) := by
  intro f
  induction f with
  | zero =>
    intro nf a processed stack a2 procF _ _ _ _ h
    exact absurd h (by rw [dfsLoopP.eq_def]; simp)
  | succ f ih =>
    intro nf a processed stack a2 procF inv hpl hsl hps h
    rw [dfsLoopP.eq_def] at h
    cases stack with
    | nil =>
      have h' := POut.ok.inj h
      have h1 : a = a2 := congrArg Prod.fst h'
      have h2 : processed = procF := congrArg Prod.snd h'
      subst h1
      subst h2
      refine ⟨inv, frameF_refl a, fun _ hi => hi, ?_, ?_, hpl⟩
      · intro i hi
        exact absurd hi (by simp)
      · intro i hi s hg c j hm
        rcases hps i hi s hg c j hm with h1 | h1
        · exact h1
        · exact absurd h1 (by simp)
    | cons sid rest =>
      cases hg : getSt a sid with
      | none => simp only [hg] at h; exact absurd h (by simp)
      | some s =>
        simp only [hg] at h
        cases hpk : procKids nf (sid :: processed) a s.transitions rest with
        | ok r =>
          simp only [hpk] at h
          have hpl1 : ∀ i, i ∈ sid :: processed → lssSetAt a i := by
            intro i hi
            rcases List.mem_cons.1 hi with rfl | hi'
            · exact hsl i (List.mem_cons_self i rest)
            · exact hpl i hi'
          have hslrest : ∀ i, i ∈ rest → lssSetAt a i :=
            fun i hi => hsl i (List.mem_cons_of_mem sid hi)
          obtain ⟨inv2, hfr2, hfz, hsub, hlss2, hkids⟩ :=
            procKids_master s.transitions inv hpl1 hslrest hpk
          have hpl' : ∀ i, i ∈ sid :: processed → lssSetAt r.1 i :=
            fun i hi => hfr2.2.2.2.2.1 i (hpl1 i hi)
          have hps' : ∀ i, i ∈ sid :: processed → ∀ s', getSt r.1 i = some s' →
              ∀ c j, (c, j) ∈ s'.transitions →
              j ∈ sid :: processed ∨ j ∈ r.2 := by
            intro i hi s' hg' c j hm
            have hg'' : getSt a i = some s' := (hfz i hi).symm.trans hg'
            rcases List.mem_cons.1 hi with rfl | hi'
            · rw [hg] at hg''
              obtain rfl := Option.some.inj hg''
              exact hkids c j hm
            · rcases hps i hi' s' hg'' c j hm with h1 | h1
              · exact Or.inl (List.mem_cons_of_mem sid h1)
              · rcases List.mem_cons.1 h1 with rfl | h2
                · exact Or.inl (List.mem_cons_self j processed)
                · exact Or.inr (hsub j h2)
          obtain ⟨R1, R2, R3, R4, R5, R6⟩ := ih inv2 hpl' hlss2 hps' h
          refine ⟨R1, frameF_trans hfr2 R2, ?_, ?_, ?_, R6⟩
          · intro i hi
            exact R3 i (List.mem_cons_of_mem sid hi)
          · intro i hi
            rcases List.mem_cons.1 hi with rfl | hi'
            · exact R3 i (List.mem_cons_self i processed)
            · exact R4 i (hsub i hi')
          · intro i hi s0 hg0 c j hm
            have hir : i < r.1.size := by
              rw [hfr2.1]
              exact getSt_lt hg0
            have hg1 : getSt r.1 i = some r.1[i] := getSt_eq_of_lt hir
            have hpre : s0.transitions <+: (r.1[i]).transitions :=
              hfr2.2.2.2.2.2 i s0 _ hg0 hg1
            exact R5 i hi _ hg1 c j (hpre.subset hm)
        | exn => simp only [hpk] at h; exact absurd h (by simp)
        | crash => simp only [hpk] at h; exact absurd h (by simp)
        | fuel => simp only [hpk] at h; exact absurd h (by simp)

theorem HM_frame {ci : Bool} {kws : List Str} {a b : Array PState}
    (hfr : frameF a b) (hm : HM ci kws a) : HM ci kws b := by
  intro i s hg hs
  have hsg := hfr.2.2.1 i
  rw [hg] at hsg
  cases hga : getSt a i with
  | none => rw [hga] at hsg; exact absurd hsg (by simp)
  | some s0 =>
    rw [hga] at hsg
    simp only [Option.map_some', Option.some.injEq] at hsg
    have hsucc : s0.success = s.success := (congrArg Prod.fst hsg).symm
    have hmat : s0.matched_keyword = s.matched_keyword := (congrArg Prod.snd hsg).symm
    obtain ⟨kw, hkw, m1, m2⟩ := hm i s0 hga (hsucc.trans hs)
    refine ⟨kw, hkw, hmat.symm.trans m1, ?_⟩
    rw [path_skel hfr.2.1]
    exact m2

theorem finalize_ok {t t2 : KeywordTree} (hB : BInv t.states)
    (h : t.finalize = .ok t2) :
    FInv t2.states ∧ frameF t.states t2.states ∧ t2.finalized = true ∧
      t2.case_insensitive = t.case_insensitive := by
  rw [KeywordTree.finalize] at h
  by_cases hf : t.finalized
  · rw [if_pos hf] at h
    exact absurd h (by simp)
  · rw [if_neg hf] at h
    have inv0 : FInv (setLss t.states 0 0) :=
      finv_setLss (binv_finv hB) (fun _ => rfl) (fun h0 => absurd rfl h0)
    cases hd : dfsLoop ((setLss t.states 0 0).size + 1)
        ((setLss t.states 0 0).size * (setLss t.states 0 0).size + 2)
        (setLss t.states 0 0) [] [0] with
    | ok a2 =>
      simp only [hd] at h
      obtain rfl := POut.ok.inj h
      obtain ⟨r1, r2⟩ := dfsLoop_ok _ inv0 hd
      exact ⟨r1, frameF_trans (frameF_setLss t.states 0 0) r2, rfl, rfl⟩
    | exn => simp only [hd] at h; exact absurd h (by simp)
    | crash => simp only [hd] at h; exact absurd h (by simp)
    | fuel => simp only [hd] at h; exact absurd h (by simp)

/-- Coverage: after a successful `finalize`, every node of the arena has its
`longest_strict_suffix` set (the DFS worklist reaches every node, since each
node's original parent edge survives every later arena operation). -/
theorem finalize_covers {t t2 : KeywordTree} (hB : BInv t.states)
    (h : t.finalize = .ok t2) :
    ∀ i, i < t2.states.size → lssSetAt t2.states i := by
  rw [KeywordTree.finalize] at h
  by_cases hf : t.finalized
  · rw [if_pos hf] at h
    exact absurd h (by simp)
  · rw [if_neg hf] at h
    have inv0 : FInv (setLss t.states 0 0) :=
      finv_setLss (binv_finv hB) (fun _ => rfl) (fun h0 => absurd rfl h0)
    cases hd : dfsLoop ((setLss t.states 0 0).size + 1)
        ((setLss t.states 0 0).size * (setLss t.states 0 0).size + 2)
        (setLss t.states 0 0) [] [0] with
    | ok a2 =>
      simp only [hd] at h
      obtain rfl := POut.ok.inj h
      obtain ⟨procF, hdp⟩ := dfsLoopP_erase _ hd
      have hg0 := getSt_eq_of_lt hB.hsize
      have hsl : ∀ i, i ∈ [0] → lssSetAt (setLss t.states 0 0) i := by
        intro i hi
        rcases List.mem_cons.1 hi with rfl | hi'
        · exact setLss_setsAt hg0 0
        · exact absurd hi' (by simp)
      obtain ⟨R1, R2, R3, R4, R5, R6⟩ := dfsLoopP_master _ inv0
        (fun i hi => absurd hi (by simp)) hsl
        (fun i hi _ _ => absurd hi (by simp)) hdp
      have hcov : ∀ i, i < (setLss t.states 0 0).size → i ∈ procF := by
        intro i
        induction i using Nat.strong_induction_on with
        | _ i IH =>
          intro hlt
          by_cases hi0 : i = 0
          · subst hi0
            exact R4 0 (List.mem_cons_self 0 [])
          · obtain ⟨⟨p, hp⟩, ⟨c, hc⟩⟩ :=
              inv0.hsym i _ (getSt_eq_of_lt hlt) hi0
            have hpi : p < i := inv0.hdec i _ p (getSt_eq_of_lt hlt) hp
            have horig := inv0.horig i _ p c (getSt_eq_of_lt hlt) hp hc
            have hpp : p ∈ procF := IH p hpi (lt_trans hpi hlt)
            have hgp : getSt (setLss t.states 0 0) p =
                some (setLss t.states 0 0)[p] :=
              getSt_eq_of_lt (lt_trans hpi hlt)
            exact R5 p hpp _ hgp c i (lookupTrans_mem hgp horig)
      intro i hlt
      have hlt0 : i < (setLss t.states 0 0).size := by
        rw [← R2.1]
        exact hlt
      exact R6 i (hcov i hlt0)
    | exn => simp only [hd] at h; exact absurd h (by simp)
    | crash => simp only [hd] at h; exact absurd h (by simp)
    | fuel => simp only [hd] at h; exact absurd h (by simp)

/-! ## Termination of `finalize`: the `NK` (distinct dict keys) invariant -/

theorem alookup_none_not_mem :
    ∀ {l : List (Char × Nat)} {c : Char}, alookup l c = none →
    ∀ t, (c, t) ∉ l := by
  intro l
  induction l with
  | nil =>
    intro c _ t hm
    exact absurd hm (by simp)
  | cons p r ih =>
    intro c h t hm
    obtain ⟨k, v⟩ := p
    rw [alookup] at h
    by_cases hk : k = c
    · rw [if_pos hk] at h
      exact absurd h (by simp)
    · rw [if_neg hk] at h
      rcases List.mem_cons.1 hm with he | hm2
      · exact hk (congrArg Prod.fst he).symm
      · exact ih h t hm2

theorem NK_setLss {a : Array PState} (h : NK a) (k j : Nat) :
    NK (setLss a k j) := by
  intro i s hg
  rw [setLss] at hg
  rcases modify_back hg with ⟨_, hga⟩ | ⟨_, s0, hga, rfl⟩
  · exact h i s hga
  · exact h i s0 hga

theorem NK_markEnd {a : Array PState} (h : NK a) (e : Nat) (o : Str) :
    NK (markEnd a e o) := by
  intro i s hg
  rw [markEnd] at hg
  rcases modify_back hg with ⟨_, hga⟩ | ⟨_, s0, hga, rfl⟩
  · exact h i s hga
  · exact h i s0 hga

theorem NK_push {a : Array PState} (h : NK a) {x : PState}
    (hx : (x.transitions.map Prod.fst).Nodup) : NK (a.push x) := by
  intro i s hg
  rw [getSt_push] at hg
  by_cases hi : i = a.size
  · rw [if_pos hi] at hg
    obtain rfl := Option.some.inj hg
    exact hx
  · rw [if_neg hi] at hg
    exact h i s hg

theorem NK_addEdge {a : Array PState} (h : NK a) {k : Nat} {c : Char} (t : Nat)
    (hnone : lookupTrans a k c = none) : NK (addEdge a k c t) := by
  intro i s hg
  rw [addEdge] at hg
  rcases modify_back hg with ⟨_, hga⟩ | ⟨hk, s0, hga, rfl⟩
  · exact h i s hga
  · subst hk
    simp only [lookupTrans, hga] at hnone
    have hnd := h k s0 hga
    have hcnot : c ∉ s0.transitions.map Prod.fst := by
      intro hc
      obtain ⟨⟨c2, t2⟩, hmem, he⟩ := List.mem_map.1 hc
      exact alookup_none_not_mem hnone t2 (he ▸ hmem)
    show ((s0.transitions ++ [(c, t)]).map Prod.fst).Nodup
    rw [List.map_append]
    simp [List.nodup_append, hnd, hcnot]

theorem NK_mergeInto :
    ∀ (l : List (Char × Nat)) {a : Array PState}, NK a → ∀ (sid : Nat),
    NK (mergeInto a sid l) := by
  intro l
  induction l with
  | nil =>
    intro a h sid
    exact h
  | cons pr rest ih =>
    intro a h sid
    obtain ⟨c, t⟩ := pr
    rw [mergeInto]
    cases hlk : lookupTrans a sid c with
    | some j =>
      simp only [hlk]
      exact ih h sid
    | none =>
      simp only [hlk]
      exact ih (NK_addEdge h t hlk) sid

/-- Every transition edge's target carries the edge's key as its symbol
(the target's path ends with the key). -/
theorem entry_symbol {a : Array PState} (inv : FInv a) {u : Nat} {s : PState}
    (hg : getSt a u = some s) {c : Char} {t : Nat} (hm : (c, t) ∈ s.transitions) :
    ∃ ts, getSt a t = some ts ∧ ts.symbol = some c := by
  obtain ⟨f1, f2, f3, f4⟩ := inv.hedge u s hg c t hm
  have hgt := getSt_eq_of_lt f2
  obtain ⟨⟨p2, hp2⟩, ⟨c2, hc2⟩⟩ := inv.hsym t _ hgt f1
  refine ⟨_, hgt, ?_⟩
  rw [hc2]
  have hpt : path a t = path a p2 ++ [c2] := path_parent inv.hdec hgt hp2 hc2
  rw [hpt] at f4
  obtain ⟨w, hw⟩ := f4
  rw [← List.append_assoc] at hw
  have := List.append_inj' hw (by simp)
  rw [List.singleton_inj.1 this.2]

/-- With distinct keys, a node's transition table has at most
`a.size - 1` entries: entry targets inherit their keys as symbols, so they are
pairwise distinct non-root indices. -/
theorem entries_length_le {a : Array PState} (inv : FInv a) (hnk : NK a)
    {u : Nat} {s : PState} (hg : getSt a u = some s) :
    s.transitions.length ≤ a.size - 1 := by
  have hnd : s.transitions.Nodup := (hnk u s hg).of_map
  have hsnd : (s.transitions.map Prod.snd).Nodup := by
    refine hnd.map_on ?_
    intro x hx y hy he
    obtain ⟨cx, tx⟩ := x
    obtain ⟨cy, ty⟩ := y
    obtain ⟨tsx, hgx, hsx⟩ := entry_symbol inv hg hx
    obtain ⟨tsy, hgy, hsy⟩ := entry_symbol inv hg hy
    have het : tx = ty := he
    subst het
    rw [hgx] at hgy
    obtain rfl := Option.some.inj hgy
    rw [hsx] at hsy
    obtain rfl := Option.some.inj hsy
    rfl
  have hsub : ∀ x ∈ (s.transitions.map Prod.snd).toFinset,
      x ∈ (Finset.range a.size).erase 0 := by
    intro x hx
    obtain ⟨⟨cx, tx⟩, hmem, he⟩ := List.mem_map.1 (List.mem_toFinset.1 hx)
    obtain ⟨f1, f2, _, _⟩ := inv.hedge u s hg cx tx hmem
    subst he
    exact Finset.mem_erase.2 ⟨f1, Finset.mem_range.2 f2⟩
  have hlen : s.transitions.length = (s.transitions.map Prod.snd).length :=
    (List.length_map ..).symm
  rw [hlen, ← List.toFinset_card_of_nodup hsnd]
  calc (s.transitions.map Prod.snd).toFinset.card
      ≤ ((Finset.range a.size).erase 0).card := Finset.card_le_card hsub
    _ = a.size - 1 := by
        rw [Finset.card_erase_of_mem (Finset.mem_range.2 inv.hsize),
          Finset.card_range]

/-! ## Termination of `finalize`: `PT` and chain-closure stability -/

theorem lssSetAt_setLss {a : Array PState} {i : Nat} (k j : Nat)
    (h : lssSetAt a i) : lssSetAt (setLss a k j) i :=
  (frameF_setLss a k j).2.2.2.2.1 i h

theorem lssSetAt_addEdge {a : Array PState} {i : Nat} (k : Nat) (c : Char)
    (t : Nat) (h : lssSetAt a i) : lssSetAt (addEdge a k c t) i :=
  (frameF_addEdge a k c t).2.2.2.2.1 i h

theorem lssSetAt_mergeInto :
    ∀ (l : List (Char × Nat)) (a : Array PState) (sid : Nat) {i : Nat},
    lssSetAt a i → lssSetAt (mergeInto a sid l) i := by
  intro l
  induction l with
  | nil =>
    intro a sid i h
    exact h
  | cons pr rest ih =>
    intro a sid i h
    obtain ⟨c, t⟩ := pr
    rw [mergeInto]
    cases hlk : lookupTrans a sid c with
    | some j =>
      simp only [hlk]
      exact ih a sid h
    | none =>
      simp only [hlk]
      exact ih (addEdge a sid c t) sid (lssSetAt_addEdge sid c t h)

theorem PTtarget_setLss {a : Array PState} (k j : Nat)
    {t2 pt : Nat} {ts : PState} (hgt : getSt a t2 = some ts)
    (hpar : ts.parent = some pt) :
    ∃ ts2, getSt (setLss a k j) t2 = some ts2 ∧ ts2.parent = some pt := by
  by_cases hkt : k = t2
  · subst hkt
    refine ⟨{ ts with longest_strict_suffix := some j }, ?_, hpar⟩
    rw [setLss, getSt_modify, if_pos rfl, hgt]
    rfl
  · exact ⟨ts, by rw [setLss, getSt_modify, if_neg hkt]; exact hgt, hpar⟩

theorem PTtarget_addEdge {a : Array PState} (k : Nat) (c : Char) (t : Nat)
    {t2 pt : Nat} {ts : PState} (hgt : getSt a t2 = some ts)
    (hpar : ts.parent = some pt) :
    ∃ ts2, getSt (addEdge a k c t) t2 = some ts2 ∧ ts2.parent = some pt := by
  by_cases hkt : k = t2
  · subst hkt
    refine ⟨{ ts with transitions := ts.transitions ++ [(c, t)] }, ?_, hpar⟩
    rw [addEdge, getSt_modify, if_pos rfl, hgt]
    rfl
  · exact ⟨ts, by rw [addEdge, getSt_modify, if_neg hkt]; exact hgt, hpar⟩

theorem PT_setLss {a : Array PState} (h : PT a) (k j : Nat) :
    PT (setLss a k j) := by
  intro i s hg c t hm
  rw [setLss] at hg
  have hback : ∃ s0, getSt a i = some s0 ∧ s.transitions = s0.transitions := by
    rcases modify_back hg with ⟨_, hga⟩ | ⟨_, s0, hga, rfl⟩
    · exact ⟨s, hga, rfl⟩
    · exact ⟨s0, hga, rfl⟩
  obtain ⟨s0, hga, htr⟩ := hback
  obtain ⟨ts, pt, hgt, hpar, hor⟩ := h i s0 hga c t (htr ▸ hm)
  obtain ⟨ts2, hgt2, hpar2⟩ := PTtarget_setLss k j hgt hpar
  refine ⟨ts2, pt, hgt2, hpar2, ?_⟩
  rcases hor with h1 | h1
  · exact Or.inl h1
  · exact Or.inr (lssSetAt_setLss k j h1)

theorem PT_addEdge {a : Array PState} (h : PT a) {k : Nat} {c : Char} {t : Nat}
    (hnew : ∃ ts pt, getSt a t = some ts ∧ ts.parent = some pt ∧
      lssSetAt a pt) :
    PT (addEdge a k c t) := by
  intro i s hg c2 t2 hm
  rw [addEdge] at hg
  rcases modify_back hg with ⟨hki, hga⟩ | ⟨hki, s0, hga, rfl⟩
  · obtain ⟨ts, pt, hgt, hpar, hor⟩ := h i s hga c2 t2 hm
    obtain ⟨ts2, hgt2, hpar2⟩ := PTtarget_addEdge k c t hgt hpar
    refine ⟨ts2, pt, hgt2, hpar2, ?_⟩
    rcases hor with h1 | h1
    · exact Or.inl h1
    · exact Or.inr (lssSetAt_addEdge k c t h1)
  · subst hki
    have hm2 : (c2, t2) ∈ s0.transitions ++ [(c, t)] := hm
    rcases List.mem_append.1 hm2 with hm3 | hm3
    · obtain ⟨ts, pt, hgt, hpar, hor⟩ := h k s0 hga c2 t2 hm3
      obtain ⟨ts2, hgt2, hpar2⟩ := PTtarget_addEdge k c t hgt hpar
      refine ⟨ts2, pt, hgt2, hpar2, ?_⟩
      rcases hor with h1 | h1
      · exact Or.inl h1
      · exact Or.inr (lssSetAt_addEdge k c t h1)
    · have he : c2 = c ∧ t2 = t := by simpa using hm3
      obtain ⟨rfl, rfl⟩ := he
      obtain ⟨ts, pt, hgt, hpar, hset⟩ := hnew
      obtain ⟨ts2, hgt2, hpar2⟩ := PTtarget_addEdge k c2 t2 hgt hpar
      exact ⟨ts2, pt, hgt2, hpar2, Or.inr (lssSetAt_addEdge k c2 t2 hset)⟩

theorem PT_mergeInto :
    ∀ (l : List (Char × Nat)) {a : Array PState}, PT a → ∀ (sid : Nat),
    (∀ c t, (c, t) ∈ l → ∃ ts pt, getSt a t = some ts ∧ ts.parent = some pt ∧
      lssSetAt a pt) →
    PT (mergeInto a sid l) := by
  intro l
  induction l with
  | nil =>
    intro a h sid _
    exact h
  | cons pr rest ih =>
    intro a h sid hl
    obtain ⟨c, t⟩ := pr
    rw [mergeInto]
    cases hlk : lookupTrans a sid c with
    | some j =>
      simp only [hlk]
      exact ih h sid (fun c2 t2 hm => hl c2 t2 (List.mem_cons_of_mem _ hm))
    | none =>
      simp only [hlk]
      refine ih (PT_addEdge h (hl c t (List.mem_cons_self ..))) sid ?_
      intro c2 t2 hm
      obtain ⟨ts, pt, hgt, hpar, hset⟩ := hl c2 t2 (List.mem_cons_of_mem _ hm)
      obtain ⟨ts2, hgt2, hpar2⟩ := PTtarget_addEdge sid c t hgt hpar
      exact ⟨ts2, pt, hgt2, hpar2, lssSetAt_addEdge sid c t hset⟩

theorem CCD_setLss {a : Array PState} {D : Nat} (h : CCD a D) {k j : Nat}
    (hkj : D ≤ depth a k ∨ lssSetAt a j) : CCD (setLss a k j) D := by
  intro i s j2 hg hl
  rw [setLss] at hg
  rcases modify_back hg with ⟨_, hga⟩ | ⟨hki, s0, hga, rfl⟩
  · rcases h i s j2 hga hl with h1 | h1
    · left
      rw [depth_skel (skelEq_setLss a k j)]
      exact h1
    · right
      exact lssSetAt_setLss k j h1
  · have hj2 : j2 = j := (Option.some.inj hl).symm
    rcases hkj with h1 | h1
    · left
      rw [depth_skel (skelEq_setLss a k j), ← hki]
      exact h1
    · right
      rw [hj2]
      exact lssSetAt_setLss k j h1

theorem CCD_addEdge {a : Array PState} {D : Nat} (h : CCD a D)
    (k : Nat) (c : Char) (t : Nat) : CCD (addEdge a k c t) D := by
  intro i s j hg hl
  rw [addEdge] at hg
  have hback : ∃ s0, getSt a i = some s0 ∧
      s.longest_strict_suffix = s0.longest_strict_suffix := by
    rcases modify_back hg with ⟨_, hga⟩ | ⟨_, s0, hga, rfl⟩
    · exact ⟨s, hga, rfl⟩
    · exact ⟨s0, hga, rfl⟩
  obtain ⟨s0, hga, hls⟩ := hback
  rcases h i s0 j hga (hls ▸ hl) with h1 | h1
  · left
    rw [depth_skel (skelEq_addEdge a k c t)]
    exact h1
  · right
    exact lssSetAt_addEdge k c t h1

theorem CCD_mergeInto :
    ∀ (l : List (Char × Nat)) (a : Array PState) {D : Nat}, CCD a D →
    ∀ (sid : Nat), CCD (mergeInto a sid l) D := by
  intro l
  induction l with
  | nil =>
    intro a D h sid
    exact h
  | cons pr rest ih =>
    intro a D h sid
    obtain ⟨c, t⟩ := pr
    rw [mergeInto]
    cases hlk : lookupTrans a sid c with
    | some j =>
      simp only [hlk]
      exact ih a h sid
    | none =>
      simp only [hlk]
      exact ih (addEdge a sid c t) (CCD_addEdge h sid c t) sid

theorem CCfull_CCD {a : Array PState} (h : CCfull a) (D : Nat) : CCD a D :=
  fun i s j hg hl => Or.inr (h i s j hg hl)

/-- Totality of the `while True` suffix-link walk: starting from a node with
its link set whose whole chain lies below the closure threshold, the walk
reaches a hit or the root without reading an unset link, and any hit target's
parent already has its link set. -/
theorem lssWalk_total :
    ∀ (f : Nat) {a : Array PState} {D : Nat}, FInv a → PT a → CCD a D →
    ∀ (sym : Option Char) (sid : Nat) {t : Nat},
    lssSetAt a t → depth a t < D → depth a t < f →
    ∃ res, lssWalk a sym sid f t = .ok res ∧
      (res = 0 ∨ (res ≠ 0 ∧ res ≠ sid ∧ res < a.size ∧
        ∃ rs rp, getSt a res = some rs ∧ rs.parent = some rp ∧
          lssSetAt a rp)) := by
  intro f
  induction f with
  | zero =>
    intro a D _ _ _ sym sid t _ _ hf
    omega
  | succ f ih =>
    intro a D inv hpt hcc sym sid t hset hD hf
    obtain ⟨ts, nxt, hgt, hlt⟩ := hset
    cases hhit : lssHit ts sym sid with
    | some tgt =>
      refine ⟨tgt, ?_, ?_⟩
      · rw [lssWalk]
        simp only [hgt, hhit]
      · cases sym with
        | none => exact absurd hhit (by simp [lssHit])
        | some c =>
          obtain ⟨halk, hne⟩ := lssHit_some hhit
          have hmem : (c, tgt) ∈ ts.transitions := alookup_mem halk
          obtain ⟨f1, f2, _, _⟩ := inv.hedge t ts hgt c tgt hmem
          obtain ⟨ts2, pt, hgt2, hpar2, hor⟩ := hpt t ts hgt c tgt hmem
          refine Or.inr ⟨f1, hne, f2, ts2, pt, hgt2, hpar2, ?_⟩
          rcases hor with rfl | h1
          · exact ⟨ts, nxt, hgt, hlt⟩
          · exact h1
    | none =>
      by_cases ht0 : t = 0
      · subst ht0
        refine ⟨0, ?_, Or.inl rfl⟩
        rw [lssWalk]
        simp [hgt, hhit]
      · obtain ⟨l1, l2, l3⟩ := inv.hlss t ts nxt hgt ht0 hlt
        have hsetn : lssSetAt a nxt := by
          rcases hcc t ts nxt hgt hlt with h1 | h1
          · omega
          · exact h1
        obtain ⟨res, hrun, hres⟩ :=
          ih inv hpt hcc sym sid hsetn (by omega) (by omega)
        refine ⟨res, ?_, hres⟩
        rw [lssWalk]
        simp only [hgt, hhit, if_neg ht0, hlt]
        exact hrun

/-- Reading back through a merge: the merge only touches transition tables,
never parents, symbols or suffix links. -/
theorem mergeInto_back :
    ∀ (l : List (Char × Nat)) {a : Array PState} {sid i : Nat} {s2 : PState},
    getSt (mergeInto a sid l) i = some s2 →
    ∃ s, getSt a i = some s ∧
      s2.longest_strict_suffix = s.longest_strict_suffix := by
  intro l
  induction l with
  | nil =>
    intro a sid i s2 h
    exact ⟨s2, h, rfl⟩
  | cons pr rest ih =>
    intro a sid i s2 h
    obtain ⟨c, t⟩ := pr
    rw [mergeInto] at h
    cases hlk : lookupTrans a sid c with
    | some j =>
      simp only [hlk] at h
      exact ih h
    | none =>
      simp only [hlk] at h
      obtain ⟨s3, hg3, hl3⟩ := ih h
      rw [addEdge] at hg3
      rcases modify_back hg3 with ⟨_, hga⟩ | ⟨_, s4, hga, rfl⟩
      · exact ⟨s3, hga, hl3⟩
      · exact ⟨s4, hga, hl3⟩

theorem mergeInto_lookup_mono :
    ∀ (l : List (Char × Nat)) {a : Array PState} {i : Nat} {c : Char} {j : Nat}
      (sid : Nat), lookupTrans a i c = some j →
    lookupTrans (mergeInto a sid l) i c = some j := by
  intro l
  induction l with
  | nil =>
    intro a i c j sid h
    exact h
  | cons pr rest ih =>
    intro a i c j sid h
    obtain ⟨c2, t2⟩ := pr
    rw [mergeInto]
    cases hlk : lookupTrans a sid c2 with
    | some u =>
      simp only [hlk]
      exact ih sid h
    | none =>
      simp only [hlk]
      exact ih sid (lookupTrans_addEdge_preserve sid c2 t2 h)

/-- The merge loop leaves the merged node with an entry for every key of the
entry list (either the pre-existing entry or the copied one). -/
theorem mergeInto_covers :
    ∀ (l : List (Char × Nat)) {a : Array PState} {sid : Nat},
    (∃ ss, getSt a sid = some ss) →
    ∀ {c : Char} {j : Nat}, (c, j) ∈ l →
    ∃ j2, lookupTrans (mergeInto a sid l) sid c = some j2 := by
  intro l
  induction l with
  | nil =>
    intro a sid _ c j hm
    exact absurd hm (by simp)
  | cons pr rest ih =>
    intro a sid hgs c j hm
    obtain ⟨c2, t2⟩ := pr
    rw [mergeInto]
    rcases List.mem_cons.1 hm with he | hm2
    · have hce : c = c2 := congrArg Prod.fst he
      subst hce
      cases hlk : lookupTrans a sid c with
      | some u =>
        simp only [hlk]
        exact ⟨u, mergeInto_lookup_mono rest sid hlk⟩
      | none =>
        simp only [hlk]
        obtain ⟨ss, hss⟩ := hgs
        exact ⟨t2, mergeInto_lookup_mono rest sid
          (lookupTrans_addEdge_new t2 hss hlk)⟩
    · cases hlk : lookupTrans a sid c2 with
      | some u =>
        simp only [hlk]
        exact ih hgs hm2
      | none =>
        simp only [hlk]
        refine ih ?_ hm2
        obtain ⟨ss, hss⟩ := hgs
        exact ⟨{ ss with transitions := ss.transitions ++ [(c2, t2)] },
          by rw [addEdge, getSt_modify, if_pos rfl, hss]; rfl⟩

theorem size_mergeInto :
    ∀ (l : List (Char × Nat)) (a : Array PState) (sid : Nat),
    (mergeInto a sid l).size = a.size := by
  intro l
  induction l with
  | nil => intro a sid; rfl
  | cons pr rest ih =>
    intro a sid
    obtain ⟨c, t⟩ := pr
    rw [mergeInto]
    cases hlk : lookupTrans a sid c with
    | some u => exact ih a sid
    | none => rw [ih, size_addEdge]

/-- The merge loop is the identity when every key of the entry list is already
mapped by the merged node. -/
theorem mergeInto_id :
    ∀ (l : List (Char × Nat)) {a : Array PState} {sid : Nat},
    (∀ c t, (c, t) ∈ l → ∃ j, lookupTrans a sid c = some j) →
    mergeInto a sid l = a := by
  intro l
  induction l with
  | nil => intro a sid _; rfl
  | cons pr rest ih =>
    intro a sid hcov
    obtain ⟨c, t⟩ := pr
    obtain ⟨j, hj⟩ := hcov c t (List.mem_cons_self ..)
    rw [mergeInto, hj]
    exact ih (fun c2 t2 hm => hcov c2 t2 (List.mem_cons_of_mem _ hm))

/-- The exact table of the merged node: a pre-existing entry wins, an absent
key receives the (first) entry of the merge list. -/
theorem lookupTrans_mergeInto_self :
    ∀ (l : List (Char × Nat)) {a : Array PState} {sid : Nat},
    (∃ s, getSt a sid = some s) → ∀ c,
    lookupTrans (mergeInto a sid l) sid c =
      match lookupTrans a sid c with
      | some j => some j
      | none => alookup l c := by
  intro l
  induction l with
  | nil =>
    intro a sid _ c
    show lookupTrans a sid c = _
    cases hl : lookupTrans a sid c <;> rfl
  | cons pr rest ih =>
    intro a sid hgs c
    obtain ⟨s, hg⟩ := hgs
    obtain ⟨c0, t0⟩ := pr
    rw [mergeInto]
    cases hl0 : lookupTrans a sid c0 with
    | some u =>
      rw [ih ⟨s, hg⟩ c]
      by_cases hc : c0 = c
      · subst hc
        rw [hl0]
      · cases hl : lookupTrans a sid c with
        | some v => rfl
        | none => show alookup rest c = alookup ((c0, t0) :: rest) c
                  rw [alookup, if_neg hc]
    | none =>
      have hg2 : getSt (addEdge a sid c0 t0) sid =
          some { s with transitions := s.transitions ++ [(c0, t0)] } := by
        rw [addEdge, getSt_modify, if_pos rfl, hg]
        rfl
      rw [ih ⟨_, hg2⟩ c, lookupTrans_addEdge_self hg c0 t0 c]
      by_cases hc : c0 = c
      · subst hc
        rw [hl0, if_pos rfl]
        show some t0 = alookup ((c0, t0) :: rest) c0
        rw [alookup, if_pos rfl]
      · rw [if_neg hc]
        cases hl : lookupTrans a sid c with
        | some v => rfl
        | none => show alookup rest c = alookup ((c0, t0) :: rest) c
                  rw [alookup, if_neg hc]

/-- Re-setting a suffix link to its stored value is the identity. -/
theorem setLss_id {a : Array PState} {i : Nat} {s : PState} {j : Nat}
    (hg : getSt a i = some s) (hl : s.longest_strict_suffix = some j) :
    setLss a i j = a := by
  apply Array.ext
  · exact size_setLss a i j
  · intro k h1 h2
    show (a.modify i fun s => { s with longest_strict_suffix := some j })[k] = a[k]
    rw [Array.getElem_modify h1]
    by_cases hik : i = k
    · subst hik
      have hs : a[i] = s := by
        rw [getSt_eq_of_lt h2] at hg
        exact Option.some.inj hg
      rw [if_pos rfl, hs, ← hl]
    · rw [if_neg hik]

/-- Transporting a successful suffix walk to a later arena of the same
finalize run: resolved nodes are frozen and tables only grow, so the walk
takes the same steps and stops at the same hit. -/
theorem lssWalk_pres {a a2 : Array PState}
    (hfz : ∀ y, lssSetAt a y → getSt a2 y = getSt a y)
    (hmono : ∀ y c j, lookupTrans a y c = some j → lookupTrans a2 y c = some j)
    (hR : lssSetAt a 0) (sym : Option Char) (x : Nat) :
    ∀ (f start : Nat) {q : Nat}, lssWalk a sym x f start = .ok q →
      lssWalk a2 sym x f start = .ok q := by
  intro f
  induction f with
  | zero =>
    intro start q h
    exact absurd h (by rw [lssWalk]; simp)
  | succ f ih =>
    intro start q h
    rw [lssWalk] at h
    cases hg : getSt a start with
    | none => simp only [hg] at h; exact absurd h (by simp)
    | some ts =>
      simp only [hg] at h
      cases hh : lssHit ts sym x with
      | some tgt =>
        simp only [hh] at h
        obtain rfl := POut.ok.inj h
        cases sym with
        | none => exact absurd hh (by rw [lssHit]; simp)
        | some c =>
          obtain ⟨hal, hne⟩ := lssHit_some hh
          have hlk : lookupTrans a start c = some tgt := by
            rw [lookupTrans, hg]
            exact hal
          have hlk2 := hmono start c tgt hlk
          rw [lookupTrans] at hlk2
          cases hg2 : getSt a2 start with
          | none => simp only [hg2] at hlk2; exact absurd hlk2 (by simp)
          | some ts2 =>
            simp only [hg2] at hlk2
            have hh2 : lssHit ts2 (some c) x = some tgt := by
              rw [lssHit, hlk2]
              show (if tgt = x then none else some tgt) = some tgt
              rw [if_neg hne]
            rw [lssWalk]
            simp only [hg2, hh2]
      | none =>
        simp only [hh] at h
        by_cases hs0 : start = 0
        · subst hs0
          rw [if_pos rfl] at h
          obtain rfl := POut.ok.inj h
          rw [lssWalk]
          simp [hfz 0 hR, hg, hh]
        · rw [if_neg hs0] at h
          cases hlss : ts.longest_strict_suffix with
          | none => simp only [hlss] at h; exact absurd h (by simp)
          | some nxt =>
            simp only [hlss] at h
            have hset : lssSetAt a start := ⟨ts, nxt, hg, hlss⟩
            rw [lssWalk]
            simp only [hfz start hset, hg, hh, if_neg hs0, hlss]
            exact ih nxt h

/-- The suffix walk only looks at nodes strictly below a depth threshold
(its chain descends in depth), so it is unchanged in an arena that agrees on
all such nodes. -/
theorem lssWalk_congr {a a2 : Array PState} (inv : FInv a) {D : Nat}
    (hfz : ∀ y, depth a y < D → getSt a2 y = getSt a y)
    (sym : Option Char) (x : Nat) :
    ∀ (f start : Nat), depth a start < D →
      lssWalk a2 sym x f start = lssWalk a sym x f start := by
  intro f
  induction f with
  | zero => intro start _; rfl
  | succ f ih =>
    intro start hd
    rw [lssWalk, lssWalk, hfz start hd]
    cases hg : getSt a start with
    | none => simp only [hg]
    | some ts =>
      simp only [hg]
      cases hh : lssHit ts sym x with
      | some tgt => simp only [hh]
      | none =>
        simp only [hh]
        by_cases hs0 : start = 0
        · rw [if_pos hs0, if_pos hs0]
        · rw [if_neg hs0, if_neg hs0]
          cases hlss : ts.longest_strict_suffix with
          | none => simp only [hlss]
          | some nxt =>
            simp only [hlss]
            have hdn : depth a nxt < depth a start :=
              (inv.hlss start ts nxt hg hs0 hlss).2.1
            exact ih nxt (by omega)

/-- Transporting the per-node resolution invariant to a later arena in which
resolved nodes are frozen and tables only grow. -/
theorem WOne_pres {b a a2 : Array PState}
    (hfz : ∀ y, lssSetAt a y → getSt a2 y = getSt a y)
    (hmono : ∀ y c j, lookupTrans a y c = some j → lookupTrans a2 y c = some j)
    (hsz : a2.size = a.size) (hR : lssSetAt a 0)
    {x : Nat} {s : PState} {q : Nat}
    (hg : getSt a x = some s) (hl : s.longest_strict_suffix = some q)
    (hqset : q ≠ 0 → lssSetAt a q)
    (hw : WOne b a x s q) : WOne b a2 x s q := by
  obtain ⟨⟨p, ps, pl, hp, hgp, hpl, hwalk⟩, hweq⟩ := hw
  constructor
  · refine ⟨p, ps, pl, hp, ?_, hpl, ?_⟩
    · rw [hfz p ⟨ps, pl, hgp, hpl⟩]
      exact hgp
    · rw [hsz]
      exact lssWalk_pres hfz hmono hR s.symbol x _ pl hwalk
  · intro hq0 c hbc
    have hx2 : getSt a2 x = getSt a x := hfz x ⟨s, q, hg, hl⟩
    have hq2 : getSt a2 q = getSt a q := hfz q (hqset hq0)
    have e1 : lookupTrans a2 x c = lookupTrans a x c := by
      unfold lookupTrans
      rw [hx2]
    have e2 : lookupTrans a2 q c = lookupTrans a q c := by
      unfold lookupTrans
      rw [hq2]
    rw [e1, e2]
    exact hweq hq0 c hbc

/-- A `search_lss` call on a node whose link is already set is the identity:
the walk reproduces the stored link, re-setting it changes nothing, and the
merge finds every key already present. -/
theorem searchLss_idem {b a : Array PState} {sid : Nat} (f : Nat)
    (hcc : CCfull a) (hLM : LMono b a) (hW : WAll b a)
    (hsid0 : sid ≠ 0) {s : PState} {q : Nat}
    (hg : getSt a sid = some s) (hl : s.longest_strict_suffix = some q) :
    searchLss a sid (f + 1) = .ok a := by
  obtain ⟨⟨p, ps, pl, hp, hgp, hpl, hwalk⟩, hweq⟩ := hW sid s q hg hl hsid0
  have hset : setLss a sid q = a := setLss_id hg hl
  rw [searchLss]
  simp only [hg, hp, hgp, hpl, hwalk, hset]
  by_cases hq0 : q = 0
  · rw [if_pos hq0]
  · rw [if_neg hq0]
    obtain ⟨qs, qj, hgq, hqj⟩ := hcc sid s q hg hl
    simp only [hgq, hqj]
    have hcov : ∀ c t, (c, t) ∈ qs.transitions →
        ∃ j, lookupTrans a sid c = some j := by
      intro c t hm
      cases hal : alookup qs.transitions c with
      | none => exact absurd hm (alookup_none_not_mem hal t)
      | some tj =>
        have hlq : lookupTrans a q c = some tj := by
          rw [lookupTrans, hgq]
          exact hal
        cases hbv : lookupTrans b sid c with
        | none =>
          refine ⟨tj, ?_⟩
          rw [hweq hq0 c hbv]
          exact hlq
        | some jb => exact ⟨jb, hLM sid c jb hbv⟩
    rw [if_neg (fun h2 => Option.noConfusion h2)]
    show (match getSt a q with
      | none => POut.crash
      | some sfx2 => POut.ok (mergeInto a sid sfx2.transitions)) = POut.ok a
    rw [hgq]
    show POut.ok (mergeInto a sid qs.transitions) = POut.ok a
    rw [mergeInto_id qs.transitions hcov]

/-- Totality of `search_lss`: on a node with enough fuel whose parent's link
is set, under the good-state bundle and chain closure below the node's depth,
`search_lss` returns normally; afterwards every set link either points to a
resolved node or was already set before the call on a node at least as deep as
this one (so full chain closure is restored for top-level calls). -/
theorem searchLss_total :
    ∀ (fuel : Nat) {a : Array PState} {sid : Nat} {b : Array PState},
    FInv a → NK a → PT a → lssSetAt a 0 → CCD a (depth a sid) →
    LMono b a →
    (∀ i s q, getSt a i = some s → s.longest_strict_suffix = some q →
      q ≠ 0 →
      (∀ c j, lookupTrans b q c = some j →
        ∃ j2, lookupTrans a i c = some j2) ∨
      depth a sid ≤ depth a i) →
    ¬ lssSetAt a sid → Pristine b a →
    (∀ i s q, getSt a i = some s → s.longest_strict_suffix = some q → i ≠ 0 →
      WOne b a i s q ∨ depth a sid ≤ depth a i) →
    sid ≠ 0 → depth a sid < fuel →
    (∃ s p ps pl, getSt a sid = some s ∧ s.parent = some p ∧
      getSt a p = some ps ∧ ps.longest_strict_suffix = some pl) →
    ∃ a2, searchLss a sid fuel = .ok a2 ∧ NK a2 ∧ PT a2 ∧
      (∀ i s j, getSt a2 i = some s → s.longest_strict_suffix = some j →
        lssSetAt a2 j ∨
        ∃ s0, getSt a i = some s0 ∧ s0.longest_strict_suffix = some j ∧
          depth a sid ≤ depth a i) ∧
      (∀ i s q, getSt a2 i = some s → s.longest_strict_suffix = some q →
        q ≠ 0 →
        (∀ c j, lookupTrans b q c = some j →
          ∃ j2, lookupTrans a2 i c = some j2) ∨
        ∃ s0, getSt a i = some s0 ∧ s0.longest_strict_suffix = some q ∧
          depth a sid ≤ depth a i) ∧
      Pristine b a2 ∧
      (∀ i s q, getSt a2 i = some s → s.longest_strict_suffix = some q → i ≠ 0 →
        WOne b a2 i s q ∨
        ∃ s0, getSt a i = some s0 ∧ s0.longest_strict_suffix = some q ∧
          depth a sid ≤ depth a i) ∧
      (∀ i, lssSetAt a2 i → lssSetAt a i ∨ depth a i ≤ depth a sid) := by
  intro fuel
  induction fuel with
  | zero =>
    intro a sid b _ _ _ _ _ _ _ _ _ _ _ hf _
    omega
  | succ fuel ih =>
    intro a sid b inv hnk hpt hR hcc hLM hMB hunset hPr hWB hsid0 hfuel hpp
    obtain ⟨s, p, ps, pl, hg, hp, hgp, hpl⟩ := hpp
    have hsnone : s.longest_strict_suffix = none := by
      cases hls : s.longest_strict_suffix with
      | none => rfl
      | some z => exact absurd ⟨s, z, hg, hls⟩ hunset
    obtain ⟨_, ⟨c, hsymb⟩⟩ := inv.hsym sid s hg hsid0
    have hdp : depth a sid = depth a p + 1 := depth_parent inv.hdec hg hp
    have hplset : lssSetAt a pl := by
      rcases hcc p ps pl hgp hpl with h1 | h1
      · omega
      · exact h1
    have hdpl : depth a pl < depth a sid := by
      by_cases hp0 : p = 0
      · subst hp0
        have hpl0 : pl = 0 := inv.hlss0 ps pl hgp hpl
        subst hpl0
        rw [depth_zero]
        omega
      · obtain ⟨m1, m2, m3⟩ := inv.hlss p ps pl hgp hp0 hpl
        omega
    have hdplf : depth a pl < a.size + 1 := by
      obtain ⟨x, y, hx, _⟩ := hplset
      have h1 := depth_le_index inv.hdec pl
      have h2 := getSt_lt hx
      omega
    obtain ⟨suffix, hwalk, hres⟩ := lssWalk_total (a.size + 1) inv hpt hcc
      s.symbol sid hplset hdpl hdplf
    rw [hsymb] at hwalk
    by_cases hs0 : suffix = 0
    · subst hs0
      have hfzX : ∀ y, lssSetAt a y → getSt (setLss a sid 0) y = getSt a y :=
        fun y hy => getSt_setLss_other a 0 (fun he => hunset (by rw [he]; exact hy))
      have hmonoX : ∀ y c2 j, lookupTrans a y c2 = some j →
          lookupTrans (setLss a sid 0) y c2 = some j :=
        fun y c2 j hj => (lookupTrans_setLss a sid 0 y c2).trans hj
      have hgXsid : getSt (setLss a sid 0) sid =
          some { s with longest_strict_suffix := some 0 } := by
        rw [setLss, getSt_modify, if_pos rfl, hg]
        rfl
      refine ⟨setLss a sid 0, ?_, NK_setLss hnk sid 0, PT_setLss hpt sid 0,
        ?_, ?_, ?_, ?_, ?_⟩
      · rw [searchLss]
        simp [hg, hp, hgp, hpl, hsymb, hwalk]
      · intro i s2 j hg2 hl2
        rw [setLss] at hg2
        rcases modify_back hg2 with ⟨_, hga⟩ | ⟨hki, s0, hga, rfl⟩
        · rcases hcc i s2 j hga hl2 with h1 | h1
          · exact Or.inr ⟨s2, hga, hl2, h1⟩
          · exact Or.inl (lssSetAt_setLss sid 0 h1)
        · have hj0 : j = 0 := (Option.some.inj hl2).symm
          subst hj0
          exact Or.inl (lssSetAt_setLss sid 0 hR)
      · intro i s2 q hg2 hl2 hq0
        rw [setLss] at hg2
        rcases modify_back hg2 with ⟨_, hga⟩ | ⟨hki, s0, hga, rfl⟩
        · rcases hMB i s2 q hga hl2 hq0 with h1 | h1
          · left
            intro c2 j hbj
            obtain ⟨j2, hj2⟩ := h1 c2 j hbj
            exact ⟨j2, (lookupTrans_setLss a sid 0 i c2).trans hj2⟩
          · exact Or.inr ⟨s2, hga, hl2, h1⟩
        · exact absurd (Option.some.inj hl2).symm hq0
      · intro x s2 hg2 hl2 c
        have hxsid : sid ≠ x := by
          intro he
          rw [← he, hgXsid] at hg2
          obtain rfl := Option.some.inj hg2
          exact absurd hl2 (by simp)
        rw [getSt_setLss_other a 0 hxsid] at hg2
        rw [lookupTrans_setLss]
        exact hPr x s2 hg2 hl2 c
      · intro i s2 q hg2 hl2 hi0
        by_cases hisid : i = sid
        · subst hisid
          rw [hgXsid] at hg2
          obtain rfl := Option.some.inj hg2
          have hq : q = 0 := by simpa using hl2.symm
          subst hq
          left
          constructor
          · refine ⟨p, ps, pl, hp, ?_, hpl, ?_⟩
            · rw [hfzX p ⟨ps, pl, hgp, hpl⟩]
              exact hgp
            · rw [size_setLss]
              exact lssWalk_pres hfzX hmonoX hR s.symbol _ _ pl
                (by rw [hsymb]; exact hwalk)
          · intro hq0
            exact absurd rfl hq0
        · rw [getSt_setLss_other a 0 (fun he => hisid he.symm)] at hg2
          rcases hWB i s2 q hg2 hl2 hi0 with hw | hdeep
          · rcases hcc i s2 q hg2 hl2 with hdeep2 | hqset2
            · exact Or.inr ⟨s2, hg2, hl2, hdeep2⟩
            · exact Or.inl (WOne_pres hfzX hmonoX (size_setLss a sid 0) hR
                hg2 hl2 (fun _ => hqset2) hw)
          · exact Or.inr ⟨s2, hg2, hl2, hdeep⟩
      · intro i hi
        obtain ⟨s2, j2, hg2, hl2⟩ := hi
        by_cases hisid : i = sid
        · subst hisid
          exact Or.inr (Nat.le_refl _)
        · rw [getSt_setLss_other a 0 (fun he => hisid he.symm)] at hg2
          exact Or.inl ⟨s2, j2, hg2, hl2⟩
    · rcases hres with h0 | ⟨hsne, hsnesid, hsufsz, rs, rp, hgrs, hrp, hrpset⟩
      · exact absurd h0 hs0
      have hsuffix : suffix < a.size ∧ depth a suffix < depth a sid ∧
          path a suffix <:+ path a sid := by
        rcases lssWalk_ok inv _ _ _ hwalk with h0 | ⟨w1, w2, w3, w4⟩
        · exact absurd h0 hs0
        · by_cases hp0 : p = 0
          · exfalso
            subst hp0
            have hpl0 : pl = 0 := inv.hlss0 ps pl hgp hpl
            subst hpl0
            rw [lssWalk] at hwalk
            simp only [hgp] at hwalk
            have horig0 : alookup ps.transitions c = some sid := by
              have h2 := inv.horig sid s 0 c hg hp hsymb
              simp only [lookupTrans, hgp] at h2
              exact h2
            have hhit : lssHit ps (some c) sid = none := by
              simp [lssHit, horig0]
            simp only [hhit, if_true] at hwalk
            exact hs0 (POut.ok.inj hwalk).symm
          · obtain ⟨l1, l2, l3⟩ := inv.hlss p ps pl hgp hp0 hpl
            have hpsid : path a sid = path a p ++ [c] :=
              path_parent inv.hdec hg hp hsymb
            refine ⟨w2, by omega, ?_⟩
            rw [hpsid]
            exact w4.trans (suffix_append_right l3)
      obtain ⟨w2, w3, w4⟩ := hsuffix
      have inv1 : FInv (setLss a sid suffix) :=
        finv_setLss inv (fun h0 => absurd h0 hsid0) (fun _ => ⟨w2, w3, w4⟩)
      have hnk1 : NK (setLss a sid suffix) := NK_setLss hnk sid suffix
      have hpt1 : PT (setLss a sid suffix) := PT_setLss hpt sid suffix
      have hR1 : lssSetAt (setLss a sid suffix) 0 := lssSetAt_setLss sid suffix hR
      have hgs1 : getSt (setLss a sid suffix) suffix = some rs := by
        rw [setLss, getSt_modify, if_neg (fun he => hsnesid he.symm)]
        exact hgrs
      have hde1 : ∀ i, depth (setLss a sid suffix) i = depth a i :=
        fun i => depth_skel (skelEq_setLss a sid suffix) i
      by_cases hrec : rs.longest_strict_suffix = none
      · have hcc1 : CCD (setLss a sid suffix)
            (depth (setLss a sid suffix) suffix) := by
          intro i s2 j hg2 hl2
          rw [setLss] at hg2
          rcases modify_back hg2 with ⟨_, hga⟩ | ⟨hki, s0, hga, rfl⟩
          · rcases hcc i s2 j hga hl2 with h1 | h1
            · left
              rw [hde1, hde1]
              omega
            · right
              exact lssSetAt_setLss sid suffix h1
          · left
            rw [hde1, hde1, ← hki]
            omega
        have hpp1 : ∃ s2 p2 ps2 pl2,
            getSt (setLss a sid suffix) suffix = some s2 ∧
            s2.parent = some p2 ∧
            getSt (setLss a sid suffix) p2 = some ps2 ∧
            ps2.longest_strict_suffix = some pl2 := by
          obtain ⟨ps2, pl2, hgps2, hlps2⟩ := lssSetAt_setLss sid suffix hrpset
          exact ⟨rs, rp, ps2, pl2, hgs1, hrp, hgps2, hlps2⟩
        have hfuel1 : depth (setLss a sid suffix) suffix < fuel := by
          rw [hde1]
          omega
        have hLM1 : LMono b (setLss a sid suffix) := fun q c2 j hbj =>
          (lookupTrans_setLss a sid suffix q c2).trans (hLM q c2 j hbj)
        have hMB1 : ∀ i s2 q, getSt (setLss a sid suffix) i = some s2 →
            s2.longest_strict_suffix = some q → q ≠ 0 →
            (∀ c2 j, lookupTrans b q c2 = some j →
              ∃ j2, lookupTrans (setLss a sid suffix) i c2 = some j2) ∨
            depth (setLss a sid suffix) suffix ≤
              depth (setLss a sid suffix) i := by
          intro i s2 q hg2 hl2 hq0
          rw [setLss] at hg2
          rcases modify_back hg2 with ⟨_, hga⟩ | ⟨hki, s0, hga, rfl⟩
          · rcases hMB i s2 q hga hl2 hq0 with h1 | h1
            · left
              intro c2 j hbj
              obtain ⟨j2, hj2⟩ := h1 c2 j hbj
              exact ⟨j2, (lookupTrans_setLss a sid suffix i c2).trans hj2⟩
            · right
              rw [hde1, hde1]
              omega
          · right
            rw [hde1, hde1, ← hki]
            omega
        have hga1sid : getSt (setLss a sid suffix) sid =
            some { s with longest_strict_suffix := some suffix } := by
          rw [setLss, getSt_modify, if_pos rfl, hg]
          rfl
        have hunset1 : ¬ lssSetAt (setLss a sid suffix) suffix := by
          rintro ⟨s9, j9, hg9, hj9⟩
          rw [hgs1] at hg9
          obtain rfl := Option.some.inj hg9.symm
          exact absurd hj9 (by rw [hrec]; exact (Option.noConfusion ·))
        have hPr1 : Pristine b (setLss a sid suffix) := by
          intro x s2 hg2x hl2x c2
          have hxsid : sid ≠ x := by
            intro he
            rw [← he, hga1sid] at hg2x
            obtain rfl := Option.some.inj hg2x
            exact absurd hl2x (by simp)
          rw [getSt_setLss_other a suffix hxsid] at hg2x
          rw [lookupTrans_setLss]
          exact hPr x s2 hg2x hl2x c2
        have hfz1 : ∀ y, lssSetAt a y → getSt (setLss a sid suffix) y = getSt a y :=
          fun y hy => getSt_setLss_other a suffix
            (fun he => hunset (by rw [he]; exact hy))
        have hmono1 : ∀ y c2 j, lookupTrans a y c2 = some j →
            lookupTrans (setLss a sid suffix) y c2 = some j :=
          fun y c2 j hj => (lookupTrans_setLss a sid suffix y c2).trans hj
        have hWB1 : ∀ i s2 q, getSt (setLss a sid suffix) i = some s2 →
            s2.longest_strict_suffix = some q → i ≠ 0 →
            WOne b (setLss a sid suffix) i s2 q ∨
              depth (setLss a sid suffix) suffix ≤
                depth (setLss a sid suffix) i := by
          intro i s2 q hg2x hl2x hi0
          by_cases hisid : i = sid
          · right
            rw [hde1, hde1, hisid]
            omega
          · rw [getSt_setLss_other a suffix (fun he => hisid he.symm)] at hg2x
            rcases hWB i s2 q hg2x hl2x hi0 with hw | hdeep
            · rcases hcc i s2 q hg2x hl2x with hdeep2 | hqset2
              · right
                rw [hde1, hde1]
                omega
              · exact Or.inl (WOne_pres hfz1 hmono1 (size_setLss a sid suffix)
                  hR hg2x hl2x (fun _ => hqset2) hw)
            · right
              rw [hde1, hde1]
              omega
        obtain ⟨a2, hrun2, hnk2, hpt2, hccpost2, hmb2, hPr2, hWpost2, hnew2⟩ :=
          ih inv1 hnk1 hpt1 hR1 hcc1 hLM1 hMB1 hunset1 hPr1 hWB1 hsne hfuel1 hpp1
        obtain ⟨inv2, hfr2, hset2⟩ := searchLss_ok fuel inv1 hrun2
        obtain ⟨sfx2, j2, hg2, hj2⟩ := hset2
        have hfrzsid : getSt a2 sid = getSt (setLss a sid suffix) sid :=
          @searchLss_freeze fuel (setLss a sid suffix) suffix a2
            (fun x => x = sid)
            (fun i hi => by rw [hi]; exact setLss_setsAt hg suffix)
            hsnesid hrun2 sid rfl
        have hrunW : searchLss a sid (fuel + 1)
            = .ok (mergeInto a2 sid sfx2.transitions) := by
          rw [searchLss]
          simp [hg, hp, hgp, hpl, hsymb, hwalk, hs0, hgs1, hrec, hrun2, hg2]
        obtain ⟨invW, hfrW, _⟩ := searchLss_ok (fuel + 1) inv hrunW
        have hfzW : ∀ y, lssSetAt a y →
            getSt (mergeInto a2 sid sfx2.transitions) y = getSt a y := by
          intro y hy
          have hysid : sid ≠ y := fun he => hunset (by rw [he]; exact hy)
          rw [mergeInto_getSt_other _ _ hysid]
          rw [@searchLss_freeze fuel (setLss a sid suffix) suffix a2
            (lssSetAt (setLss a sid suffix)) (fun i hi => hi) hunset1 hrun2
            y (lssSetAt_setLss sid suffix hy)]
          exact getSt_setLss_other a suffix hysid
        have hmonoW : ∀ y c2 j, lookupTrans a y c2 = some j →
            lookupTrans (mergeInto a2 sid sfx2.transitions) y c2 = some j :=
          fun y c2 j hj => mergeInto_lookup_mono sfx2.transitions sid
            (hfr2.2.2.2.1 y c2 j ((lookupTrans_setLss a sid suffix y c2).trans hj))
        have hszW : (mergeInto a2 sid sfx2.transitions).size = a.size := by
          rw [size_mergeInto, hfr2.1, size_setLss]
        have hde2 : ∀ y, depth a2 y = depth a y := fun y =>
          (depth_skel hfr2.2.1 y).trans (hde1 y)
        refine ⟨mergeInto a2 sid sfx2.transitions, hrunW, ?_, ?_, ?_, ?_,
          ?_, ?_, ?_⟩
        · exact NK_mergeInto sfx2.transitions hnk2 sid
        · refine PT_mergeInto sfx2.transitions hpt2 sid ?_
          intro c2 t2 hm
          obtain ⟨ts, pt, hgt, hpar, hor⟩ := hpt2 suffix sfx2 hg2 c2 t2 hm
          refine ⟨ts, pt, hgt, hpar, ?_⟩
          rcases hor with rfl | h1
          · exact ⟨sfx2, j2, hg2, hj2⟩
          · exact h1
        · intro i s2 j hg2' hl2'
          obtain ⟨s3, hga2, hls3⟩ := mergeInto_back sfx2.transitions hg2'
          rcases hccpost2 i s3 j hga2 (hls3 ▸ hl2') with h1 | ⟨s0, hga1, hl0, _⟩
          · exact Or.inl (lssSetAt_mergeInto sfx2.transitions a2 sid h1)
          · by_cases hisid : i = sid
            · have hlsfx : s0.longest_strict_suffix = some suffix := by
                rw [setLss] at hga1
                rcases modify_back hga1 with ⟨hne, _⟩ | ⟨_, s4, _, rfl⟩
                · exact absurd hisid.symm hne
                · rfl
              have hj : j = suffix := by
                rw [hlsfx] at hl0
                exact (Option.some.inj hl0).symm
              subst hj
              exact Or.inl (lssSetAt_mergeInto sfx2.transitions a2 sid
                ⟨sfx2, j2, hg2, hj2⟩)
            · have hga' : getSt a i = some s0 := by
                rw [setLss] at hga1
                rcases modify_back hga1 with ⟨_, h⟩ | ⟨hki, _, _, _⟩
                · exact h
                · exact absurd hki.symm hisid
              rcases hcc i s0 j hga' hl0 with h1 | h1
              · exact Or.inr ⟨s0, hga', hl0, h1⟩
              · exact Or.inl (lssSetAt_mergeInto sfx2.transitions a2 sid
                  (hfr2.2.2.2.2.1 j (lssSetAt_setLss sid suffix h1)))
        · intro i s2 q hg2m hl2m hq0
          obtain ⟨s3, hga2, hls3⟩ := mergeInto_back sfx2.transitions hg2m
          by_cases hisid : i = sid
          · left
            intro c2 j hbj
            have hqs : q = suffix := by
              rw [hisid, hfrzsid, hga1sid] at hga2
              have hs3 : s3 = { s with longest_strict_suffix := some suffix } :=
                (Option.some.inj hga2).symm
              have h5 : s3.longest_strict_suffix = some q := hls3 ▸ hl2m
              rw [hs3] at h5
              exact (Option.some.inj h5).symm
            have h3 : lookupTrans a2 q c2 = some j :=
              hfr2.2.2.2.1 q c2 j
                ((lookupTrans_setLss a sid suffix q c2).trans (hLM q c2 j hbj))
            have h4 : alookup sfx2.transitions c2 = some j := by
              rw [hqs] at h3
              simp only [lookupTrans, hg2] at h3
              exact h3
            obtain ⟨j2, hj2⟩ := mergeInto_covers sfx2.transitions
              ⟨{ s with longest_strict_suffix := some suffix },
                hfrzsid.trans hga1sid⟩ (alookup_mem h4)
            rw [hisid]
            exact ⟨j2, hj2⟩
          · rcases hmb2 i s3 q hga2 (hls3 ▸ hl2m) hq0 with h1 | ⟨s0, hga1, hl0, hdep⟩
            · left
              intro c2 j hbj
              obtain ⟨j2, hj2⟩ := h1 c2 j hbj
              exact ⟨j2, mergeInto_lookup_mono sfx2.transitions sid hj2⟩
            · have hga' : getSt a i = some s0 := by
                rw [setLss] at hga1
                rcases modify_back hga1 with ⟨_, h⟩ | ⟨hki, _, _, _⟩
                · exact h
                · exact absurd hki.symm hisid
              rcases hMB i s0 q hga' hl0 hq0 with h1 | h1
              · left
                intro c2 j hbj
                obtain ⟨j2, hj2⟩ := h1 c2 j hbj
                exact ⟨j2, mergeInto_lookup_mono sfx2.transitions sid
                  (hfr2.2.2.2.1 i c2 j2
                    ((lookupTrans_setLss a sid suffix i c2).trans hj2))⟩
              · exact Or.inr ⟨s0, hga', hl0, h1⟩
        · intro x s2 hgw hlw c2
          have hxsid : sid ≠ x := by
            intro he
            rw [← he] at hgw
            obtain ⟨s3, hga2x, hls3⟩ := mergeInto_back sfx2.transitions hgw
            rw [hfrzsid, hga1sid] at hga2x
            obtain rfl := Option.some.inj hga2x
            rw [hlw] at hls3
            exact absurd hls3 (by simp)
          rw [mergeInto_getSt_other _ _ hxsid] at hgw
          have e1 : lookupTrans (mergeInto a2 sid sfx2.transitions) x c2 =
              lookupTrans a2 x c2 := by
            unfold lookupTrans
            rw [mergeInto_getSt_other _ _ hxsid]
          rw [e1]
          exact hPr2 x s2 hgw hlw c2
        · intro i s2 q hgw hlw hi0
          by_cases hisid : i = sid
          · rw [hisid] at hgw ⊢
            obtain ⟨s3, hga2x, hls3⟩ := mergeInto_back sfx2.transitions hgw
            rw [hfrzsid, hga1sid] at hga2x
            obtain rfl := Option.some.inj hga2x
            have hqs : q = suffix := by
              rw [hlw] at hls3
              exact Option.some.inj hls3
            rw [hqs]
            left
            have hsk := hfrW.2.1 sid
            rw [hgw, hg] at hsk
            simp only [Option.map_some'] at hsk
            obtain ⟨hpar2, hsym2⟩ := Prod.mk.inj (Option.some.inj hsk)
            constructor
            · refine ⟨p, ps, pl, by rw [hpar2]; exact hp, ?_, hpl, ?_⟩
              · rw [hfzW p ⟨ps, pl, hgp, hpl⟩]
                exact hgp
              · rw [hsym2, hszW]
                exact lssWalk_pres hfzW hmonoW hR s.symbol _ _ pl
                  (by rw [hsymb]; exact hwalk)
            · intro hq0 c2 hbc
              have hL : lookupTrans (mergeInto a2 sid sfx2.transitions) sid c2 =
                  alookup sfx2.transitions c2 := by
                rw [lookupTrans_mergeInto_self sfx2.transitions
                  ⟨_, hfrzsid.trans hga1sid⟩ c2]
                have hpre : lookupTrans a2 sid c2 = none := by
                  have h1 : lookupTrans a2 sid c2 = lookupTrans a sid c2 := by
                    unfold lookupTrans
                    rw [hfrzsid, hga1sid, hg]
                  rw [h1, hPr sid s hg hsnone c2]
                  exact hbc
                rw [hpre]
              have hRr : lookupTrans (mergeInto a2 sid sfx2.transitions)
                  suffix c2 = alookup sfx2.transitions c2 := by
                unfold lookupTrans
                rw [mergeInto_getSt_other _ _ (fun he => hsnesid he.symm), hg2]
              rw [hL, hRr]
          · have hgi2 : getSt a2 i = some s2 := by
              rw [mergeInto_getSt_other _ _ (fun he => hisid he.symm)] at hgw
              exact hgw
            by_cases hseta : lssSetAt a i
            · have hgia : getSt a i = some s2 := by
                rw [← hfzW i hseta]
                rw [mergeInto_getSt_other _ _ (fun he => hisid he.symm)]
                exact hgi2
              rcases hWB i s2 q hgia hlw hi0 with hw | hdeep
              · rcases hcc i s2 q hgia hlw with hdeep2 | hqset2
                · exact Or.inr ⟨s2, hgia, hlw, hdeep2⟩
                · exact Or.inl (WOne_pres hfzW hmonoW hszW hR hgia hlw
                    (fun _ => hqset2) hw)
              · exact Or.inr ⟨s2, hgia, hlw, hdeep⟩
            · have hseta1 : ¬ lssSetAt (setLss a sid suffix) i := by
                rintro ⟨s9, j9, hg9, hj9⟩
                rw [getSt_setLss_other a suffix (fun he => hisid he.symm)] at hg9
                exact hseta ⟨s9, j9, hg9, hj9⟩
              rcases hWpost2 i s2 q hgi2 hlw hi0 with hw2 | ⟨s0, hga1i, hl0, _⟩
              · rcases hnew2 i ⟨s2, q, hgi2, hlw⟩ with hset1 | hdepth
                · exact absurd hset1 hseta1
                · left
                  obtain ⟨⟨p2, ps2, pl2, hp2, hgp2, hpl2, hwalk2⟩, hweq2⟩ := hw2
                  have hdisfx : depth a2 i ≤ depth a2 suffix := by
                    rw [hde2, hde2]
                    rw [hde1, hde1] at hdepth
                    exact hdepth
                  have hdsfxsid : depth a2 suffix < depth a2 sid := by
                    rw [hde2, hde2]
                    omega
                  have hdp2 : depth a2 i = depth a2 p2 + 1 :=
                    depth_parent inv2.hdec hgi2 hp2
                  have hDi : depth a2 i < depth a2 sid := by omega
                  have hdpl2 : depth a2 pl2 < depth a2 sid := by
                    by_cases hp20 : p2 = 0
                    · subst hp20
                      have hpl20 : pl2 = 0 := inv2.hlss0 ps2 pl2 hgp2 hpl2
                      subst hpl20
                      rw [depth_zero]
                      omega
                    · have := (inv2.hlss p2 ps2 pl2 hgp2 hp20 hpl2).2.1
                      omega
                  have hfzD : ∀ y, depth a2 y < depth a2 sid →
                      getSt (mergeInto a2 sid sfx2.transitions) y = getSt a2 y := by
                    intro y hy
                    exact mergeInto_getSt_other _ _
                      (fun he => by rw [← he] at hy; omega)
                  refine ⟨⟨p2, ps2, pl2, hp2, ?_, hpl2, ?_⟩, ?_⟩
                  · rw [hfzD p2 (by omega)]
                    exact hgp2
                  · rw [show (mergeInto a2 sid sfx2.transitions).size = a2.size
                      from size_mergeInto sfx2.transitions a2 sid]
                    rw [@lssWalk_congr a2 (mergeInto a2 sid sfx2.transitions)
                      inv2 (depth a2 sid) hfzD s2.symbol i (a2.size + 1) pl2 hdpl2]
                    exact hwalk2
                  · intro hq0 c2 hbc
                    have hqsid : q ≠ sid := by
                      have hdq := (inv2.hlss i s2 q hgi2 hi0 hlw).2.1
                      intro he
                      rw [he] at hdq
                      omega
                    have e1 : lookupTrans (mergeInto a2 sid sfx2.transitions)
                        i c2 = lookupTrans a2 i c2 := by
                      unfold lookupTrans
                      rw [mergeInto_getSt_other _ _ (fun he => hisid he.symm)]
                    have e2 : lookupTrans (mergeInto a2 sid sfx2.transitions)
                        q c2 = lookupTrans a2 q c2 := by
                      unfold lookupTrans
                      rw [mergeInto_getSt_other _ _ (fun he => hqsid he.symm)]
                    rw [e1, e2]
                    exact hweq2 hq0 c2 hbc
              · exact absurd ⟨s0, q, hga1i, hl0⟩ hseta1
        · intro i hi
          obtain ⟨s2, j9, hgw, hlw⟩ := hi
          by_cases hisid : i = sid
          · subst hisid
            exact Or.inr (Nat.le_refl _)
          · rw [mergeInto_getSt_other _ _ (fun he => hisid he.symm)] at hgw
            rcases hnew2 i ⟨s2, j9, hgw, hlw⟩ with hset1 | hdep1
            · obtain ⟨s9, j8, hg9, hj8⟩ := hset1
              rw [getSt_setLss_other a suffix (fun he => hisid he.symm)] at hg9
              exact Or.inl ⟨s9, j8, hg9, hj8⟩
            · right
              rw [hde1, hde1] at hdep1
              omega
      · cases hrecv : rs.longest_strict_suffix with
        | none => exact absurd hrecv hrec
        | some j3 =>
          have hsfxset : lssSetAt (setLss a sid suffix) suffix :=
            ⟨rs, j3, hgs1, hrecv⟩
          have hga1sidX : getSt (setLss a sid suffix) sid =
              some { s with longest_strict_suffix := some suffix } := by
            rw [setLss, getSt_modify, if_pos rfl, hg]
            rfl
          have hrunW : searchLss a sid (fuel + 1)
              = .ok (mergeInto (setLss a sid suffix) sid rs.transitions) := by
            rw [searchLss]
            simp [hg, hp, hgp, hpl, hsymb, hwalk, hs0, hgs1, hrecv]
          obtain ⟨invW, hfrW, _⟩ := searchLss_ok (fuel + 1) inv hrunW
          have hfzW : ∀ y, lssSetAt a y →
              getSt (mergeInto (setLss a sid suffix) sid rs.transitions) y
                = getSt a y := by
            intro y hy
            have hysid : sid ≠ y := fun he => hunset (by rw [he]; exact hy)
            rw [mergeInto_getSt_other _ _ hysid]
            exact getSt_setLss_other a suffix hysid
          have hmonoW : ∀ y c2 j, lookupTrans a y c2 = some j →
              lookupTrans (mergeInto (setLss a sid suffix) sid rs.transitions)
                y c2 = some j :=
            fun y c2 j hj => mergeInto_lookup_mono rs.transitions sid
              ((lookupTrans_setLss a sid suffix y c2).trans hj)
          have hszW : (mergeInto (setLss a sid suffix) sid
              rs.transitions).size = a.size := by
            rw [size_mergeInto, size_setLss]
          refine ⟨mergeInto (setLss a sid suffix) sid rs.transitions,
            hrunW, ?_, ?_, ?_, ?_, ?_, ?_, ?_⟩
          · exact NK_mergeInto rs.transitions hnk1 sid
          · refine PT_mergeInto rs.transitions hpt1 sid ?_
            intro c2 t2 hm
            obtain ⟨ts, pt, hgt, hpar, hor⟩ := hpt1 suffix rs hgs1 c2 t2 hm
            refine ⟨ts, pt, hgt, hpar, ?_⟩
            rcases hor with rfl | h1
            · exact hsfxset
            · exact h1
          · intro i s2 j hg2' hl2'
            obtain ⟨s3, hga1, hls3⟩ := mergeInto_back rs.transitions hg2'
            by_cases hisid : i = sid
            · have hlsfx : s3.longest_strict_suffix = some suffix := by
                rw [setLss] at hga1
                rcases modify_back hga1 with ⟨hne, _⟩ | ⟨_, s4, _, rfl⟩
                · exact absurd hisid.symm hne
                · rfl
              have hj : j = suffix := by
                rw [hls3, hlsfx] at hl2'
                exact (Option.some.inj hl2').symm
              subst hj
              exact Or.inl (lssSetAt_mergeInto rs.transitions _ sid hsfxset)
            · have hga' : getSt a i = some s3 := by
                rw [setLss] at hga1
                rcases modify_back hga1 with ⟨_, h⟩ | ⟨hki, _, _, _⟩
                · exact h
                · exact absurd hki.symm hisid
              rcases hcc i s3 j hga' (hls3 ▸ hl2') with h1 | h1
              · exact Or.inr ⟨s3, hga', hls3 ▸ hl2', h1⟩
              · exact Or.inl (lssSetAt_mergeInto rs.transitions _ sid
                  (lssSetAt_setLss sid suffix h1))
          · intro i s2 q hg2m hl2m hq0
            obtain ⟨s3, hga1, hls3⟩ := mergeInto_back rs.transitions hg2m
            by_cases hisid : i = sid
            · left
              intro c2 j hbj
              have hga1sid : getSt (setLss a sid suffix) sid =
                  some { s with longest_strict_suffix := some suffix } := by
                rw [setLss, getSt_modify, if_pos rfl, hg]
                rfl
              have hqs : q = suffix := by
                rw [hisid, hga1sid] at hga1
                have hs3 : s3 = { s with longest_strict_suffix := some suffix } :=
                  (Option.some.inj hga1).symm
                have h5 : s3.longest_strict_suffix = some q := hls3 ▸ hl2m
                rw [hs3] at h5
                exact (Option.some.inj h5).symm
              have h1 : lookupTrans (setLss a sid suffix) q c2 = some j :=
                (lookupTrans_setLss a sid suffix q c2).trans (hLM q c2 j hbj)
              have h4 : alookup rs.transitions c2 = some j := by
                rw [hqs] at h1
                simp only [lookupTrans, hgs1] at h1
                exact h1
              obtain ⟨j2, hj2⟩ := mergeInto_covers rs.transitions
                ⟨{ s with longest_strict_suffix := some suffix }, hga1sid⟩
                (alookup_mem h4)
              rw [hisid]
              exact ⟨j2, hj2⟩
            · have hga' : getSt a i = some s3 := by
                rw [setLss] at hga1
                rcases modify_back hga1 with ⟨_, h⟩ | ⟨hki, _, _, _⟩
                · exact h
                · exact absurd hki.symm hisid
              rcases hMB i s3 q hga' (hls3 ▸ hl2m) hq0 with h1 | h1
              · left
                intro c2 j hbj
                obtain ⟨j2, hj2⟩ := h1 c2 j hbj
                exact ⟨j2, mergeInto_lookup_mono rs.transitions sid
                  ((lookupTrans_setLss a sid suffix i c2).trans hj2)⟩
              · exact Or.inr ⟨s3, hga', hls3 ▸ hl2m, h1⟩
          · intro x s2 hgw hlw c2
            have hxsid : sid ≠ x := by
              intro he
              rw [← he] at hgw
              obtain ⟨s3, hga1x, hls3⟩ := mergeInto_back rs.transitions hgw
              rw [hga1sidX] at hga1x
              obtain rfl := Option.some.inj hga1x
              rw [hlw] at hls3
              exact absurd hls3 (by simp)
            rw [mergeInto_getSt_other _ _ hxsid,
              getSt_setLss_other a suffix hxsid] at hgw
            have e1 : lookupTrans (mergeInto (setLss a sid suffix) sid
                rs.transitions) x c2 = lookupTrans a x c2 := by
              unfold lookupTrans
              rw [mergeInto_getSt_other _ _ hxsid,
                getSt_setLss_other a suffix hxsid]
            rw [e1]
            exact hPr x s2 hgw hlw c2
          · intro i s2 q hgw hlw hi0
            by_cases hisid : i = sid
            · rw [hisid] at hgw ⊢
              obtain ⟨s3, hga1x, hls3⟩ := mergeInto_back rs.transitions hgw
              rw [hga1sidX] at hga1x
              obtain rfl := Option.some.inj hga1x
              have hqs : q = suffix := by
                rw [hlw] at hls3
                exact Option.some.inj hls3
              rw [hqs]
              left
              have hsk := hfrW.2.1 sid
              rw [hgw, hg] at hsk
              simp only [Option.map_some'] at hsk
              obtain ⟨hpar2, hsym2⟩ := Prod.mk.inj (Option.some.inj hsk)
              constructor
              · refine ⟨p, ps, pl, by rw [hpar2]; exact hp, ?_, hpl, ?_⟩
                · rw [hfzW p ⟨ps, pl, hgp, hpl⟩]
                  exact hgp
                · rw [hsym2, hszW]
                  exact lssWalk_pres hfzW hmonoW hR s.symbol _ _ pl
                    (by rw [hsymb]; exact hwalk)
              · intro hq0 c2 hbc
                have hL : lookupTrans (mergeInto (setLss a sid suffix) sid
                    rs.transitions) sid c2 = alookup rs.transitions c2 := by
                  rw [lookupTrans_mergeInto_self rs.transitions
                    ⟨_, hga1sidX⟩ c2]
                  have hpre : lookupTrans (setLss a sid suffix) sid c2
                      = none := by
                    rw [lookupTrans_setLss, hPr sid s hg hsnone c2]
                    exact hbc
                  rw [hpre]
                have hRr : lookupTrans (mergeInto (setLss a sid suffix) sid
                    rs.transitions) suffix c2 = alookup rs.transitions c2 := by
                  unfold lookupTrans
                  rw [mergeInto_getSt_other _ _ (fun he => hsnesid he.symm),
                    hgs1]
                rw [hL, hRr]
            · have hgia : getSt a i = some s2 := by
                rw [mergeInto_getSt_other _ _ (fun he => hisid he.symm),
                  getSt_setLss_other a suffix (fun he => hisid he.symm)] at hgw
                exact hgw
              rcases hWB i s2 q hgia hlw hi0 with hw | hdeep
              · rcases hcc i s2 q hgia hlw with hdeep2 | hqset2
                · exact Or.inr ⟨s2, hgia, hlw, hdeep2⟩
                · exact Or.inl (WOne_pres hfzW hmonoW hszW hR hgia hlw
                    (fun _ => hqset2) hw)
              · exact Or.inr ⟨s2, hgia, hlw, hdeep⟩
          · intro i hi
            obtain ⟨s2, j9, hgw, hlw⟩ := hi
            by_cases hisid : i = sid
            · rw [hisid]
              exact Or.inr (Nat.le_refl _)
            · rw [mergeInto_getSt_other _ _ (fun he => hisid he.symm),
                getSt_setLss_other a suffix (fun he => hisid he.symm)] at hgw
              exact Or.inl ⟨s2, j9, hgw, hlw⟩

/-- Totality of the child loop of `search_lss_for_children`: with full chain
closure, enough per-node fuel, and well-formed child entries, the loop
succeeds, pushes at most one new stack element per entry (each with its link
set), freezes processed nodes, and restores the full good state. -/
theorem procKids_total :
    ∀ (entries : List (Char × Nat)) {nf : Nat} {processed : List Nat}
      {a : Array PState} {stack : List Nat} {b : Array PState},
    FInv a → NK a → PT a → lssSetAt a 0 → CCfull a →
    LMono b a → MCov b a → Pristine b a → WAll b a →
    a.size < nf →
    (∀ i, i ∈ processed → lssSetAt a i) →
    (∀ i, i ∈ stack → lssSetAt a i) →
    (∀ c t, (c, t) ∈ entries → t ≠ 0 ∧ t < a.size ∧
      ∃ ts pt, getSt a t = some ts ∧ ts.parent = some pt ∧ lssSetAt a pt) →
    ∃ r, procKids nf processed a entries stack = .ok r ∧
      FInv r.1 ∧ NK r.1 ∧ PT r.1 ∧ lssSetAt r.1 0 ∧ CCfull r.1 ∧
      MCov b r.1 ∧ Pristine b r.1 ∧ WAll b r.1 ∧
      frameF a r.1 ∧
      (∀ i, i ∈ processed → getSt r.1 i = getSt a i) ∧
      (∃ pre, r.2 = pre ++ stack ∧ pre.length ≤ entries.length ∧
        (∀ i, i ∈ pre → i ∉ processed) ∧
        (∀ c t, (c, t) ∈ entries → t ∈ processed ∨ t ∈ pre)) ∧
      (∀ i, i ∈ r.2 → lssSetAt r.1 i) := by
  intro entries
  induction entries with
  | nil =>
    intro nf processed a stack b inv hnk hpt hR hcc hLM hMC hPr hW hnf hpl hsl _
    refine ⟨(a, stack), ?_, inv, hnk, hpt, hR, hcc, hMC, hPr, hW, frameF_refl a,
      fun _ _ => rfl, ⟨[], rfl, by simp, by simp, by simp⟩, hsl⟩
    rw [procKids]
  | cons pr rest ih =>
    intro nf processed a stack b inv hnk hpt hR hcc hLM hMC hPr hW hnf hpl hsl hkids
    obtain ⟨c, child⟩ := pr
    by_cases hmem : child ∈ processed
    · obtain ⟨r, hrun, r1, r2, r3, r4, r5, rM, rP, rW, r6, r7,
          ⟨pre, hpre, hlen, hnp, hh⟩, r9⟩ :=
        ih inv hnk hpt hR hcc hLM hMC hPr hW hnf hpl hsl
          (fun c2 t2 hm => hkids c2 t2 (List.mem_cons_of_mem _ hm))
      refine ⟨r, ?_, r1, r2, r3, r4, r5, rM, rP, rW, r6, r7,
        ⟨pre, hpre, by simp; omega, hnp, ?_⟩, r9⟩
      · rw [procKids, if_pos hmem]
        exact hrun
      · intro c2 t2 hm
        rcases List.mem_cons.1 hm with he | hm2
        · have h2 : t2 = child := congrArg Prod.snd he
          subst h2
          exact Or.inl hmem
        · exact hh c2 t2 hm2
    · obtain ⟨h1c, h2c, ts, pt, hgts, hpar, hptset⟩ :=
        hkids c child (List.mem_cons_self ..)
      have hdch : depth a child < nf := by
        have h1 := depth_le_index inv.hdec child
        omega
      obtain ⟨ps2, pl2, hgps2, hlps2⟩ := hptset
      by_cases hcset : lssSetAt a child
      · -- the child's link is already set: the re-run is the identity
        obtain ⟨f1, hnf1⟩ : ∃ f1, nf = f1 + 1 := ⟨nf - 1, by omega⟩
        obtain ⟨sc, qc, hgc, hqc⟩ := hcset
        have hidem : searchLss a child nf = .ok a := by
          rw [hnf1]
          exact searchLss_idem f1 hcc hLM hW h1c hgc hqc
        have hsl2 : ∀ i, i ∈ child :: stack → lssSetAt a i := by
          intro i hi
          rcases List.mem_cons.1 hi with rfl | hi2
          · exact ⟨sc, qc, hgc, hqc⟩
          · exact hsl i hi2
        obtain ⟨r, hrunr, r1, r2, r3, r4, r5, rM, rP, rW, r6, r7,
            ⟨pre, hpre, hlen, hnp, hh⟩, r9⟩ :=
          ih inv hnk hpt hR hcc hLM hMC hPr hW hnf hpl hsl2
            (fun c2 t2 hm => hkids c2 t2 (List.mem_cons_of_mem _ hm))
        refine ⟨r, ?_, r1, r2, r3, r4, r5, rM, rP, rW, r6, r7,
          ⟨pre ++ [child], ?_, ?_, ?_, ?_⟩, r9⟩
        · rw [procKids, if_neg hmem]
          simp only [hidem]
          exact hrunr
        · rw [hpre, List.append_assoc]
          rfl
        · simp
          omega
        · intro i hi
          rcases List.mem_append.1 hi with hi2 | hi2
          · exact hnp i hi2
          · have h2 : i = child := by simpa using hi2
            subst h2
            exact hmem
        · intro c2 t2 hm
          rcases List.mem_cons.1 hm with he | hm2
          · have h2 : t2 = child := congrArg Prod.snd he
            subst h2
            exact Or.inr (List.mem_append.2 (Or.inr (by simp)))
          · rcases hh c2 t2 hm2 with h1 | h1
            · exact Or.inl h1
            · exact Or.inr (List.mem_append.2 (Or.inl h1))
      · obtain ⟨a2, hrun, hnk2, hpt2, hccpost, hmbpost, hPr2, hWpost, hnew⟩ :=
          searchLss_total nf inv hnk hpt hR (CCfull_CCD hcc _) hLM
            (fun i s q hg hl hq0 => Or.inl (hMC i s q hg hl hq0))
            hcset hPr
            (fun i s q hg hl hi0 => Or.inl (hW i s q hg hl hi0)) h1c hdch
            ⟨ts, pt, ps2, pl2, hgts, hpar, hgps2, hlps2⟩
        obtain ⟨inv2, hfr2, hset2⟩ := searchLss_ok nf inv hrun
        have hcc2 : CCfull a2 := by
          intro i s j hg hl
          rcases hccpost i s j hg hl with h1 | ⟨s0, hga, hl0, _⟩
          · exact h1
          · exact hfr2.2.2.2.2.1 j (hcc i s0 j hga hl0)
        have hLM2 : LMono b a2 := fun q c2 j h =>
          hfr2.2.2.2.1 q c2 j (hLM q c2 j h)
        have hMC2 : MCov b a2 := by
          intro i s q hg hl hq0 c2 j hbj
          rcases hmbpost i s q hg hl hq0 with h1 | ⟨s0, hga, hl0, _⟩
          · exact h1 c2 j hbj
          · obtain ⟨j2, hj2⟩ := hMC i s0 q hga hl0 hq0 c2 j hbj
            exact ⟨j2, hfr2.2.2.2.1 i c2 j2 hj2⟩
        have hfzrun : ∀ y, lssSetAt a y → getSt a2 y = getSt a y :=
          @searchLss_freeze nf a child a2 (lssSetAt a)
            (fun i hi => hi) hcset hrun
        have hW2 : WAll b a2 := by
          intro x s q hgx hlx hx0
          rcases hWpost x s q hgx hlx hx0 with hw | ⟨s0, hga, hl0, _⟩
          · exact hw
          · have hgx2 : getSt a x = some s := by
              rw [← hfzrun x ⟨s0, q, hga, hl0⟩]
              exact hgx
            exact WOne_pres hfzrun hfr2.2.2.2.1 hfr2.1 hR hgx2 hlx
              (fun _ => hcc x s q hgx2 hlx) (hW x s q hgx2 hlx hx0)
        have hR2 : lssSetAt a2 0 := hfr2.2.2.2.2.1 0 hR
        have hpl2 : ∀ i, i ∈ processed → lssSetAt a2 i :=
          fun i hi => hfr2.2.2.2.2.1 i (hpl i hi)
        have hsl2 : ∀ i, i ∈ child :: stack → lssSetAt a2 i := by
          intro i hi
          rcases List.mem_cons.1 hi with rfl | hi2
          · exact hset2
          · exact hfr2.2.2.2.2.1 i (hsl i hi2)
        have hkids2 : ∀ c2 t2, (c2, t2) ∈ rest → t2 ≠ 0 ∧ t2 < a2.size ∧
            ∃ ts2 pt2, getSt a2 t2 = some ts2 ∧ ts2.parent = some pt2 ∧
              lssSetAt a2 pt2 := by
          intro c2 t2 hm
          obtain ⟨k1, k2, ts2, pt2, hgts2, hpar2, hptset2⟩ :=
            hkids c2 t2 (List.mem_cons_of_mem _ hm)
          obtain ⟨ts3, hgts3, hp3, _⟩ := skel_to hfr2.2.1 hgts2
          refine ⟨k1, by rw [hfr2.1]; exact k2, ts3, pt2, hgts3, ?_, ?_⟩
          · rw [hp3]
            exact hpar2
          · exact hfr2.2.2.2.2.1 pt2 hptset2
        have hfz : ∀ i, i ∈ processed → getSt a2 i = getSt a i :=
          searchLss_freeze nf hpl hmem hrun
        obtain ⟨r, hrunr, r1, r2, r3, r4, r5, rM, rP, rW, r6, r7,
            ⟨pre, hpre, hlen, hnp, hh⟩, r9⟩ :=
          ih inv2 hnk2 hpt2 hR2 hcc2 hLM2 hMC2 hPr2 hW2
            (by rw [hfr2.1]; exact hnf) hpl2 hsl2 hkids2
        refine ⟨r, ?_, r1, r2, r3, r4, r5, rM, rP, rW, frameF_trans hfr2 r6, ?_,
          ⟨pre ++ [child], ?_, ?_, ?_, ?_⟩, r9⟩
        · rw [procKids, if_neg hmem]
          simp only [hrun]
          exact hrunr
        · intro i hi
          rw [r7 i hi, hfz i hi]
        · rw [hpre, List.append_assoc]
          rfl
        · simp
          omega
        · intro i hi
          rcases List.mem_append.1 hi with hi2 | hi2
          · exact hnp i hi2
          · have h2 : i = child := by simpa using hi2
            subst h2
            exact hmem
        · intro c2 t2 hm
          rcases List.mem_cons.1 hm with he | hm2
          · have h2 : t2 = child := congrArg Prod.snd he
            subst h2
            exact Or.inr (List.mem_append.2 (Or.inr (by simp)))
          · rcases hh c2 t2 hm2 with h1 | h1
            · exact Or.inl h1
            · exact Or.inr (List.mem_append.2 (Or.inl h1))

/-- The child loop does nothing when every child is already processed. -/
theorem procKids_skip :
    ∀ (entries : List (Char × Nat)) (nf : Nat) (processed : List Nat)
      (a : Array PState) (stack : List Nat),
    (∀ c t, (c, t) ∈ entries → t ∈ processed) →
    procKids nf processed a entries stack = .ok (a, stack) := by
  intro entries
  induction entries with
  | nil =>
    intro nf processed a stack _
    rw [procKids]
  | cons pr rest ih =>
    intro nf processed a stack h
    obtain ⟨c, t⟩ := pr
    rw [procKids, if_pos (h c t (List.mem_cons_self ..))]
    exact ih nf processed a stack
      (fun c2 t2 hm => h c2 t2 (List.mem_cons_of_mem _ hm))

/-- Totality of the `while to_process` worklist loop, with the quadratic fuel
budget: each pop either processes a new node (at most `size` times, pushing at
most `size - 1` children) or re-pops an already processed copy (which, by the
order invariant `SINV`, pushes nothing). -/
theorem dfsLoop_total :
    ∀ (f : Nat) {nf : Nat} {a : Array PState} {processed stack : List Nat}
      {b : Array PState},
    FInv a → NK a → PT a → lssSetAt a 0 → CCfull a →
    LMono b a → MCov b a → Pristine b a → WAll b a →
    a.size < nf →
    (∀ i, i ∈ processed → lssSetAt a i) →
    (∀ i, i ∈ stack → lssSetAt a i) →
    SINV a processed stack →
    stack.length + a.size *
      ((Finset.range a.size).filter (fun v => v ∉ processed)).card < f →
    ∃ a2, dfsLoop nf f a processed stack = .ok a2 ∧ MCov b a2 ∧
      Pristine b a2 ∧ WAll b a2 := by
  intro f
  induction f with
  | zero =>
    intro nf a processed stack b _ _ _ _ _ _ _ _ _ _ _ _ _ hfuel
    omega
  | succ f ih =>
    intro nf a processed stack b inv hnk hpt hR hcc hLM hMC hPr hW hnf hpl hsl hS hfuel
    cases stack with
    | nil =>
      refine ⟨a, ?_, hMC, hPr, hW⟩
      rw [dfsLoop.eq_def]
    | cons sid rest =>
      obtain ⟨ssid, j0, hgsid, hj0⟩ := hsl sid (List.mem_cons_self ..)
      have hsidlt : sid < a.size := getSt_lt hgsid
      by_cases hproc : sid ∈ processed
      · -- re-pop of a processed copy: nothing is pushed
        have hskip : ∀ c t, (c, t) ∈ ssid.transitions → t ∈ sid :: processed := by
          intro c t hm
          rcases hS 0 sid rfl hproc ssid hgsid c t hm with h1 | h1
          · exact List.mem_cons_of_mem _ h1
          · exact absurd h1 (by simp)
        have hrun : procKids nf (sid :: processed) a ssid.transitions rest
            = .ok (a, rest) := procKids_skip _ _ _ _ _ hskip
        have hpl1 : ∀ i, i ∈ sid :: processed → lssSetAt a i := by
          intro i hi
          rcases List.mem_cons.1 hi with rfl | hi2
          · exact ⟨ssid, j0, hgsid, hj0⟩
          · exact hpl i hi2
        have hsl1 : ∀ i, i ∈ rest → lssSetAt a i :=
          fun i hi => hsl i (List.mem_cons_of_mem _ hi)
        have hS1 : SINV a (sid :: processed) rest := by
          intro k u hk hu s hg c v hm
          have hup : u ∈ processed := by
            rcases List.mem_cons.1 hu with rfl | h2
            · exact hproc
            · exact h2
          have hkold : (sid :: rest).get? (k + 1) = some u := by
            simpa using hk
          rcases hS (k + 1) u hkold hup s hg c v hm with h1 | h1
          · exact Or.inl (List.mem_cons_of_mem _ h1)
          · rcases List.mem_cons.1 h1 with rfl | h2
            · exact Or.inl (List.mem_cons_self ..)
            · exact Or.inr h2
        have hfeq : (Finset.range a.size).filter (fun v => v ∉ sid :: processed)
            = (Finset.range a.size).filter (fun v => v ∉ processed) := by
          apply Finset.filter_congr
          intro x _
          simp only [List.mem_cons, not_or]
          constructor
          · rintro ⟨_, h2⟩
            exact h2
          · intro h2
            exact ⟨fun he => h2 (he ▸ hproc), h2⟩
        obtain ⟨a2, hrun2, hMC2, hPr2, hW2⟩ := ih inv hnk hpt hR hcc hLM hMC
          hPr hW hnf hpl1 hsl1 hS1
          (by rw [hfeq]; simp only [List.length_cons] at hfuel; omega)
        refine ⟨a2, ?_, hMC2, hPr2, hW2⟩
        rw [dfsLoop.eq_def]
        simp only [hgsid, hrun]
        exact hrun2
      · -- first pop of sid
        have hpl1 : ∀ i, i ∈ sid :: processed → lssSetAt a i := by
          intro i hi
          rcases List.mem_cons.1 hi with rfl | hi2
          · exact ⟨ssid, j0, hgsid, hj0⟩
          · exact hpl i hi2
        have hsl1 : ∀ i, i ∈ rest → lssSetAt a i :=
          fun i hi => hsl i (List.mem_cons_of_mem _ hi)
        have hkids : ∀ c t, (c, t) ∈ ssid.transitions → t ≠ 0 ∧ t < a.size ∧
            ∃ ts pt, getSt a t = some ts ∧ ts.parent = some pt ∧
              lssSetAt a pt := by
          intro c t hm
          obtain ⟨f1, f2, _, _⟩ := inv.hedge sid ssid hgsid c t hm
          obtain ⟨ts, pt, hgt, hpar, hor⟩ := hpt sid ssid hgsid c t hm
          refine ⟨f1, f2, ts, pt, hgt, hpar, ?_⟩
          rcases hor with rfl | h1
          · exact ⟨ssid, j0, hgsid, hj0⟩
          · exact h1
        obtain ⟨r, hrun, R1, R2, R3, R4, R5, RM, RP, RW, hfrA, hfz,
            ⟨pre, hpres, hprelen, hprenp, hpreh⟩, r9⟩ :=
          procKids_total ssid.transitions inv hnk hpt hR hcc hLM hMC hPr hW hnf
            hpl1 hsl1 hkids
        have hplr : ∀ i, i ∈ sid :: processed → lssSetAt r.1 i :=
          fun i hi => hfrA.2.2.2.2.1 i (hpl1 i hi)
        have hSr : SINV r.1 (sid :: processed) r.2 := by
          intro k u hk hu s hg c v hm
          have hga : getSt a u = some s := (hfz u hu).symm.trans hg
          rw [hpres] at hk
          by_cases hus : u = sid
          · subst hus
            rw [hgsid] at hga
            obtain rfl := Option.some.inj hga.symm
            have hks : pre.length ≤ k := by
              by_contra hlt
              push_neg at hlt
              rw [List.get?_append hlt] at hk
              exact hprenp u (List.get?_mem hk) (List.mem_cons_self ..)
            rcases hpreh c v hm with h1 | h1
            · exact Or.inl h1
            · right
              rw [hpres, List.take_append_eq_append_take,
                List.take_of_length_le hks]
              exact List.mem_append.2 (Or.inl h1)
          · have hup : u ∈ processed := by
              rcases List.mem_cons.1 hu with h2 | h2
              · exact absurd h2 hus
              · exact h2
            have hks : pre.length ≤ k := by
              by_contra hlt
              push_neg at hlt
              rw [List.get?_append hlt] at hk
              exact hprenp u (List.get?_mem hk) (List.mem_cons_of_mem _ hup)
            have hkold : (sid :: rest).get? (k - pre.length + 1) = some u := by
              rw [List.get?_append_right hks] at hk
              simpa using hk
            rcases hS (k - pre.length + 1) u hkold hup s hga c v hm with h1 | h1
            · exact Or.inl (List.mem_cons_of_mem _ h1)
            · have h2 : v ∈ sid :: rest.take (k - pre.length) := h1
              rcases List.mem_cons.1 h2 with rfl | h3
              · exact Or.inl (List.mem_cons_self ..)
              · right
                rw [hpres, List.take_append_eq_append_take,
                  List.take_of_length_le hks]
                exact List.mem_append.2 (Or.inr h3)
        have hfeq : (Finset.range a.size).filter (fun v => v ∉ sid :: processed)
            = ((Finset.range a.size).filter (fun v => v ∉ processed)).erase
              sid := by
          ext v
          simp only [Finset.mem_erase, Finset.mem_filter, Finset.mem_range,
            List.mem_cons, not_or]
          constructor
          · rintro ⟨hv, h1, h2⟩
            exact ⟨h1, hv, h2⟩
          · rintro ⟨h1, hv, h2⟩
            exact ⟨hv, h1, h2⟩
        have hsmem : sid ∈ (Finset.range a.size).filter
            (fun v => v ∉ processed) :=
          Finset.mem_filter.2 ⟨Finset.mem_range.2 hsidlt, hproc⟩
        have hU1 : 1 ≤ ((Finset.range a.size).filter
            (fun v => v ∉ processed)).card :=
          Finset.card_pos.2 ⟨sid, hsmem⟩
        have hmu : a.size * ((Finset.range a.size).filter
              (fun v => v ∉ processed)).card
            = a.size * (((Finset.range a.size).filter
              (fun v => v ∉ processed)).card - 1) + a.size := by
          rw [← Nat.mul_succ]
          congr 1
          omega
        have hentb : ssid.transitions.length ≤ a.size - 1 :=
          entries_length_le inv hnk hgsid
        have hfuelr : r.2.length + r.1.size *
            ((Finset.range r.1.size).filter
              (fun v => v ∉ sid :: processed)).card < f := by
          rw [hfrA.1, hpres, hfeq, Finset.card_erase_of_mem hsmem,
            List.length_append]
          simp only [List.length_cons] at hfuel
          have hs1 : 1 ≤ a.size := inv.hsize
          omega
        have hLMr : LMono b r.1 := fun q c2 j h =>
          hfrA.2.2.2.1 q c2 j (hLM q c2 j h)
        obtain ⟨a2, hrun2, hMC2, hPr2, hW2⟩ := ih R1 R2 R3 R4 R5 hLMr RM RP RW
          (by rw [hfrA.1]; exact hnf) hplr r9 hSr hfuelr
        refine ⟨a2, ?_, hMC2, hPr2, hW2⟩
        rw [dfsLoop.eq_def]
        simp only [hgsid, hrun]
        exact hrun2

/-! ## `search_all` on texts without keyword occurrences -/

/-- A suffix of a prefix of `T` is an infix of `T`. -/
theorem suffix_prefix_occ {l P T : Str} (h1 : l <:+ P) (h2 : P <+: T) :
    l <:+: T :=
  h1.isInfix.trans h2.isInfix

/-- The `search_all` transition step stays inside the arena and its target's
path is a suffix of the extended input prefix. -/
theorem stepState_ok {a : Array PState} (inv : FInv a) {cur : Nat} (c : Char)
    (hcur : cur < a.size) :
    stepState a cur c < a.size ∧
    path a (stepState a cur c) <:+ path a cur ++ [c] := by
  cases hlk : lookupTrans a cur c with
  | some n =>
    have hstep : stepState a cur c = n := by rw [stepState, hlk]
    rw [hstep]
    cases hgc : getSt a cur with
    | none =>
      simp only [lookupTrans, hgc] at hlk
      exact absurd hlk (by simp)
    | some s =>
      have hmem : (c, n) ∈ s.transitions := lookupTrans_mem hgc hlk
      obtain ⟨f1, f2, f3, f4⟩ := inv.hedge cur s hgc c n hmem
      exact ⟨f2, f4⟩
  | none =>
    cases hlk0 : lookupTrans a 0 c with
    | some n =>
      have hstep : stepState a cur c = n := by rw [stepState, hlk, hlk0]
      rw [hstep]
      cases hg0 : getSt a 0 with
      | none =>
        simp only [lookupTrans, hg0] at hlk0
        exact absurd hlk0 (by simp)
      | some s0 =>
        have hmem : (c, n) ∈ s0.transitions := lookupTrans_mem hg0 hlk0
        obtain ⟨f1, f2, f3, f4⟩ := inv.hedge 0 s0 hg0 c n hmem
        refine ⟨f2, ?_⟩
        rw [path_zero, List.nil_append] at f4
        exact f4.trans ⟨path a cur, rfl⟩
    | none =>
      have hstep : stepState a cur c = 0 := by rw [stepState, hlk, hlk0]
      rw [hstep, path_zero]
      exact ⟨inv.hsize, List.nil_suffix⟩

/-- If no keyword occurs in `T`, the suffix-chain walk of `search_all` emits
nothing: every chain node's path is a suffix of a prefix of `T`, so a success
node on the chain would exhibit a keyword occurrence. -/
theorem emitChain_noemit {ci : Bool} {kws : List Str} {a : Array PState}
    (inv : FInv a) (hcov : ∀ i, i < a.size → lssSetAt a i)
    (hm : HM ci kws a) {T : Str}
    (hnom : ∀ kw, kw ∈ kws → ¬ norm ci kw <:+: T) :
    ∀ fc sid, sid < a.size → depth a sid < fc →
    ∀ P, P <+: T → path a sid <:+ P →
    ∀ acc, emitChain a fc sid acc = .ok acc := by
  intro fc
  induction fc with
  | zero =>
    intro sid _ hd
    omega
  | succ fc ih =>
    intro sid hsid hd P hPT hsP acc
    cases sid with
    | zero => rfl
    | succ m =>
      obtain ⟨s2, j, hg2, hj⟩ := hcov (m + 1) hsid
      by_cases hsc : s2.success = true
      · obtain ⟨kw, hkw, _, hpath⟩ := hm (m + 1) s2 hg2 hsc
        exact absurd (suffix_prefix_occ (hpath ▸ hsP) hPT) (hnom kw hkw)
      · have hsc2 : s2.success = false := by
          cases hb : s2.success with
          | true => exact absurd hb hsc
          | false => rfl
        have hstep : emitChain a (fc + 1) (m + 1) acc = emitChain a fc j acc := by
          simp only [emitChain, hg2, hj, hsc2, Bool.false_eq_true, if_false]
        obtain ⟨l1, l2, l3⟩ := inv.hlss (m + 1) s2 j hg2 (Nat.succ_ne_zero m) hj
        exact hstep.trans (ih j l1 (by omega) P hPT (l3.trans hsP) acc)

/-- If no keyword occurs in `T`, the whole `search_all` loop returns its
accumulator unchanged. -/
theorem searchLoop_noemit {ci : Bool} {kws : List Str} {a : Array PState}
    (inv : FInv a) (hcov : ∀ i, i < a.size → lssSetAt a i)
    (hm : HM ci kws a) {T : Str}
    (hnom : ∀ kw, kw ∈ kws → ¬ norm ci kw <:+: T) :
    ∀ (rest P : Str), P ++ rest = T →
    ∀ cur, cur < a.size → path a cur <:+ P →
    ∀ acc, searchLoop a (a.size + 1) cur rest acc = .ok acc := by
  intro rest
  induction rest with
  | nil =>
    intro P _ cur _ _ acc
    rfl
  | cons c rest' ih =>
    intro P hPT cur hcur hpc acc
    obtain ⟨hnl, hnp⟩ := stepState_ok inv c hcur
    have hPpre : P ++ [c] <+: T := ⟨rest', by rw [← hPT]; simp⟩
    have hdn : depth a (stepState a cur c) < a.size + 1 := by
      have h1 := depth_le_index inv.hdec (stepState a cur c)
      omega
    have hpath' : path a (stepState a cur c) <:+ P ++ [c] :=
      hnp.trans (suffix_append_right hpc)
    have hemit := emitChain_noemit inv hcov hm hnom (a.size + 1)
      (stepState a cur c) hnl hdn (P ++ [c]) hPpre hpath' acc
    rw [searchLoop]
    simp only [hemit]
    exact ih (P ++ [c]) (by rw [← hPT]; simp) (stepState a cur c) hnl hpath' acc

/-- Provenance of emitted elements: everything the suffix-chain walk appends
is the `matched_keyword` of some success state. -/
theorem emitChain_mem :
    ∀ (f : Nat) {a : Array PState} {m : Nat} {acc out : List (Option Str)},
    emitChain a f m acc = .ok out → ∀ o, o ∈ out → o ∈ acc ∨
      ∃ i s, getSt a i = some s ∧ s.success = true ∧
        s.matched_keyword = o := by
  intro f
  induction f with
  | zero =>
    intro a m acc out h
    exact absurd h (by rw [emitChain]; simp)
  | succ f ih =>
    intro a m acc out h o ho
    cases m with
    | zero =>
      obtain rfl := POut.ok.inj h
      exact Or.inl ho
    | succ m =>
      cases hg : getSt a (m + 1) with
      | none => simp only [emitChain, hg] at h; exact absurd h (by simp)
      | some s =>
        cases hl : s.longest_strict_suffix with
        | none => simp only [emitChain, hg, hl] at h; exact absurd h (by simp)
        | some nxt =>
          have hstep : emitChain a (f + 1) (m + 1) acc =
              emitChain a f nxt
                (if s.success then acc ++ [s.matched_keyword] else acc) := by
            simp only [emitChain, hg, hl]
          rw [hstep] at h
          rcases ih h o ho with h1 | h1
          · by_cases hsc : s.success = true
            · rw [if_pos hsc] at h1
              rcases List.mem_append.1 h1 with h2 | h2
              · exact Or.inl h2
              · have h3 : o = s.matched_keyword := by simpa using h2
                exact Or.inr ⟨m + 1, s, hg, hsc, h3.symm⟩
            · rw [if_neg hsc] at h1
              exact Or.inl h1
          · exact Or.inr h1

theorem searchLoop_mem {a : Array PState} {fc : Nat} :
    ∀ (rest : Str) {cur : Nat} {acc l : List (Option Str)},
    searchLoop a fc cur rest acc = .ok l → ∀ o, o ∈ l → o ∈ acc ∨
      ∃ i s, getSt a i = some s ∧ s.success = true ∧
        s.matched_keyword = o := by
  intro rest
  induction rest with
  | nil =>
    intro cur acc l h o ho
    obtain rfl := POut.ok.inj h
    exact Or.inl ho
  | cons c cs ih =>
    intro cur acc l h o ho
    rw [searchLoop] at h
    cases he : emitChain a fc (stepState a cur c) acc with
    | ok acc1 =>
      simp only [he] at h
      rcases ih h o ho with h1 | h1
      · exact emitChain_mem fc he o h1
      · exact Or.inr h1
    | exn => simp only [he] at h; exact absurd h (by simp)
    | crash => simp only [he] at h; exact absurd h (by simp)
    | fuel => simp only [he] at h; exact absurd h (by simp)

/-- Every element of a `search_all` result is the stored `matched_keyword` of
a success state of the automaton. -/
theorem searchAll_mem {t : KeywordTree} {text : Str} {l : List (Option Str)}
    (h : t.search_all text = .ok l) :
    ∀ o, o ∈ l → ∃ i s, getSt t.states i = some s ∧ s.success = true ∧
      s.matched_keyword = o := by
  rw [KeywordTree.search_all] at h
  by_cases hf : t.finalized = false
  · rw [if_pos hf] at h
    exact absurd h (by simp)
  · rw [if_neg hf] at h
    intro o ho
    rcases searchLoop_mem _ h o ho with h1 | h1
    · exact absurd h1 (by simp)
    · exact h1

/-! ## Erasing positions: `searchAllPos` refines `search_all` -/

theorem emitChain_erase (a : Array PState) (idx : Nat) :
    ∀ (f m : Nat) (accP : List (Nat × Option Str)),
    emitChain a f m (accP.map Prod.snd) =
      pmap (List.map Prod.snd) (emitChainPos a idx f m accP) := by
  intro f
  induction f with
  | zero => intro m accP; rfl
  | succ f ih =>
    intro m accP
    match m with
    | 0 => rfl
    | m + 1 =>
      show emitChain a (f + 1) (m + 1) (accP.map Prod.snd) = _
      cases hg : getSt a (m + 1) with
      | none => simp only [emitChain, emitChainPos, hg, pmap]
      | some s =>
        simp only [emitChain, emitChainPos, hg]
        cases hl : s.longest_strict_suffix with
        | none => simp [hl, pmap]
        | some nxt =>
          simp only [hl]
          cases hsucc : s.success with
          | false =>
            rw [if_neg Bool.false_ne_true, if_neg Bool.false_ne_true]
            exact ih nxt accP
          | true =>
            rw [if_pos rfl, if_pos rfl]
            have h2 := ih nxt (accP ++ [(idx, s.matched_keyword)])
            rw [List.map_append] at h2
            exact h2

theorem searchLoop_erase (a : Array PState) (fc : Nat) :
    ∀ (text : Str) (idx cur : Nat) (accP : List (Nat × Option Str)),
    searchLoop a fc cur text (accP.map Prod.snd) =
      pmap (List.map Prod.snd) (searchLoopPos a fc idx cur text accP) := by
  intro text
  induction text with
  | nil => intro idx cur accP; rfl
  | cons ch rest ih =>
    intro idx cur accP
    rw [searchLoop, searchLoopPos]
    rw [emitChain_erase a idx fc (stepState a cur ch) accP]
    cases hout : emitChainPos a idx fc (stepState a cur ch) accP with
    | ok accP1 =>
      simp only [pmap]
      exact ih (idx + 1) (stepState a cur ch) accP1
    | exn => rfl
    | crash => rfl
    | fuel => rfl

theorem searchAll_erase (t : KeywordTree) (text : Str) :
    t.search_all text = pmap (List.map Prod.snd) (t.searchAllPos text) := by
  rw [KeywordTree.search_all, KeywordTree.searchAllPos]
  by_cases hf : t.finalized = false
  · rw [if_pos hf, if_pos hf]
    rfl
  · rw [if_neg hf, if_neg hf]
    exact searchLoop_erase t.states (t.states.size + 1) _ 0 0 []

/-! ## Emission order -/

theorem finv_hps {a : Array PState} (inv : FInv a) :
    ∀ i s p, getSt a i = some s → s.parent = some p → ∃ c, s.symbol = some c := by
  intro i s p hg hp
  by_cases hi : i = 0
  · subst hi
    obtain ⟨r1, _⟩ := inv.hroot s hg
    rw [r1] at hp
    exact Option.noConfusion hp
  · exact (inv.hsym i s hg hi).2

theorem mlen_of_hm {ci : Bool} {kws : List Str} {a : Array PState}
    (inv : FInv a) (hm : HM ci kws a) : MLen a := by
  intro i s hg hs
  obtain ⟨kw, _, m1, m2⟩ := hm i s hg hs
  rw [m1]
  show ((some kw).getD []).length = depth a i
  rw [Option.getD_some, ← path_length (finv_hps inv) i, m2]
  cases ci with
  | false => rfl
  | true => exact (List.length_map kw Char.toLower).symm

/-- Non-root nodes have positive depth. -/
theorem depth_pos {a : Array PState} (inv : FInv a) {m : Nat} {s : PState}
    (hg : getSt a m = some s) (hm : m ≠ 0) : 0 < depth a m := by
  obtain ⟨⟨p, hp⟩, _⟩ := inv.hsym m s hg hm
  rw [depth_parent inv.hdec hg hp]
  omega

theorem emitChainPos_block {a : Array PState} (inv : FInv a) (hml : MLen a) (idx : Nat) :
    ∀ (f m : Nat) (acc res : List (Nat × Option Str)),
    emitChainPos a idx f m acc = .ok res →
    ∃ em, res = acc ++ em ∧ (∀ e ∈ em, e.1 = idx ∧ kwLen e.2 ≤ depth a m) ∧
      List.Pairwise (fun x y => kwLen y.2 < kwLen x.2) em := by
  intro f
  induction f with
  | zero =>
    intro m acc res h
    exact absurd h (by rw [emitChainPos.eq_def]; simp)
  | succ f ih =>
    intro m acc res h
    match m with
    | 0 =>
      rw [emitChainPos] at h
      obtain rfl := POut.ok.inj h
      exact ⟨[], (List.append_nil acc).symm, by simp, List.Pairwise.nil⟩
    | m + 1 =>
      cases hg : getSt a (m + 1) with
      | none =>
        simp only [emitChainPos, hg] at h
        exact absurd h (by simp)
      | some s =>
        simp only [emitChainPos, hg] at h
        cases hl : s.longest_strict_suffix with
        | none => simp only [hl] at h; cases s.success <;> simp at h
        | some nxt =>
          simp only [hl] at h
          obtain ⟨hn1, hn2, hn3⟩ := inv.hlss (m + 1) s nxt hg (Nat.succ_ne_zero m) hl
          cases hsucc : s.success with
          | false =>
            simp only [hsucc, if_neg (Bool.false_ne_true)] at h
            obtain ⟨em, he1, he2, he3⟩ := ih nxt acc res h
            refine ⟨em, he1, ?_, he3⟩
            intro e he
            obtain ⟨q1, q2⟩ := he2 e he
            exact ⟨q1, by omega⟩
          | true =>
            simp only [hsucc, if_pos rfl] at h
            obtain ⟨em, he1, he2, he3⟩ := ih nxt (acc ++ [(idx, s.matched_keyword)]) res h
            rw [List.append_assoc] at he1
            refine ⟨(idx, s.matched_keyword) :: em, by simpa using he1, ?_, ?_⟩
            · intro e he
              rcases List.mem_cons.1 he with rfl | he
              · exact ⟨rfl, by rw [hml (m + 1) s hg hsucc]⟩
              · obtain ⟨q1, q2⟩ := he2 e he
                exact ⟨q1, by omega⟩
            · refine List.Pairwise.cons ?_ he3
              intro e he
              obtain ⟨_, q2⟩ := he2 e he
              have : kwLen (s.matched_keyword) = depth a (m + 1) := hml (m + 1) s hg hsucc
              show kwLen e.2 < kwLen s.matched_keyword
              omega

theorem searchLoopPos_sorted {a : Array PState} (inv : FInv a) (hml : MLen a) :
    ∀ (text : Str) (f idx cur : Nat) (acc res : List (Nat × Option Str)),
    searchLoopPos a f idx cur text acc = .ok res →
    ∃ em, res = acc ++ em ∧ (∀ e ∈ em, idx ≤ e.1) ∧ List.Pairwise POrder em := by
  intro text
  induction text with
  | nil =>
    intro f idx cur acc res h
    rw [searchLoopPos] at h
    obtain rfl := POut.ok.inj h
    exact ⟨[], (List.append_nil acc).symm, by simp, List.Pairwise.nil⟩
  | cons ch rest ih =>
    intro f idx cur acc res h
    rw [searchLoopPos] at h
    cases hout : emitChainPos a idx f (stepState a cur ch) acc with
    | ok acc1 =>
      simp only [hout] at h
      obtain ⟨em0, hb1, hb2, hb3⟩ := emitChainPos_block inv hml idx f _ acc acc1 hout
      obtain ⟨em1, hc1, hc2, hc3⟩ := ih f (idx + 1) (stepState a cur ch) acc1 res h
      refine ⟨em0 ++ em1, by rw [hc1, hb1, List.append_assoc], ?_, ?_⟩
      · intro e he
        rcases List.mem_append.1 he with he | he
        · exact Nat.le_of_eq (hb2 e he).1.symm
        · exact Nat.le_of_succ_le (hc2 e he)
      · rw [List.pairwise_append]
        refine ⟨?_, hc3, ?_⟩
        · refine hb3.imp_of_mem ?_
          intro x y hx hy hxy
          exact Or.inr ⟨(hb2 x hx).1.trans (hb2 y hy).1.symm, hxy⟩
        · intro x hx y hy
          left
          calc x.1 = idx := (hb2 x hx).1
            _ < idx + 1 := Nat.lt_succ_self idx
            _ ≤ y.1 := hc2 y hy
    | exn => simp only [hout] at h; exact absurd h (by simp)
    | crash => simp only [hout] at h; exact absurd h (by simp)
    | fuel => simp only [hout] at h; exact absurd h (by simp)

/-! ## `add` idempotence -/

theorem add_add {t : KeywordTree} (hf : t.finalized = false)
    (hw : WFB t.states) (h0 : 0 < t.states.size) (k : Str) :
    ∃ t1, t.add k = .ok t1 ∧ t1.add k = .ok t1 ∧ t1.finalized = false ∧
      WFB t1.states ∧ 0 < t1.states.size := by
  rw [KeywordTree.add, if_neg (by rw [hf]; exact Bool.false_ne_true)]
  by_cases hlen : (if t.case_insensitive then lowerStr k else k).length = 0
  · rw [if_pos hlen]
    refine ⟨t, rfl, ?_, hf, hw, h0⟩
    rw [KeywordTree.add, if_neg (by rw [hf]; exact Bool.false_ne_true), if_pos hlen]
  · rw [if_neg hlen]
    set kw := if t.case_insensitive then lowerStr k else k with hkw
    set r := addAux t.states 0 kw with hr
    set t1 : KeywordTree := { t with states := markEnd r.1 r.2 k } with ht1
    refine ⟨t1, rfl, ?_, hf, ?_, ?_⟩
    · rw [KeywordTree.add]
      have hfin1 : t1.finalized = false := hf
      rw [if_neg (by rw [hfin1]; exact Bool.false_ne_true)]
      have hci : t1.case_insensitive = t.case_insensitive := rfl
      rw [hci, ← hkw, if_neg hlen]
      have hwalk : walk t1.states 0 kw = some r.2 := by
        have h1 : walk t1.states 0 kw = walk r.1 0 kw :=
          walk_congr (fun i c => lookupTrans_markEnd ..) 0 kw
        rw [h1, hr]
        exact addAux_walk hw h0 kw
      rw [addAux_of_walk hwalk]
      show POut.ok ({ t with states := markEnd t1.states r.2 k } : KeywordTree) = .ok t1
      have : markEnd t1.states r.2 k = t1.states := by
        show markEnd (markEnd r.1 r.2 k) r.2 k = markEnd r.1 r.2 k
        exact markEnd_markEnd ..
      rw [this]
    · intro i c j h
      rw [lookupTrans_markEnd] at h
      rw [show t1.states.size = r.1.size from Array.size_modify ..]
      exact addAux_wfb hw 0 kw _ _ _ h
    · rw [show t1.states.size = r.1.size from Array.size_modify ..]
      exact Nat.lt_of_lt_of_le h0 (addAux_size_le ..)

theorem foldl_addOr_wf {t : KeywordTree}
    (h : t.finalized = false ∧ WFB t.states ∧ 0 < t.states.size) (kws : List Str) :
    (kws.foldl addOr t).finalized = false ∧ WFB (kws.foldl addOr t).states ∧
      0 < (kws.foldl addOr t).states.size := by
  induction kws generalizing t with
  | nil => exact h
  | cons k rest ih =>
    rw [List.foldl_cons]
    apply ih
    obtain ⟨hf, hw, h0⟩ := h
    obtain ⟨t1, h1, _, hf1, hw1, h01⟩ := add_add hf hw h0 k
    rw [addOr, h1]
    exact ⟨hf1, hw1, h01⟩

theorem buildTree_wf (ci : Bool) (kws : List Str) :
    (buildTree ci kws).finalized = false ∧ WFB (buildTree ci kws).states ∧
      0 < (buildTree ci kws).states.size := by
  apply foldl_addOr_wf
  refine ⟨rfl, ?_, by simp [KeywordTree.new]⟩
  intro i c j h
  rcases i with _ | i
  · exact absurd h (by simp [lookupTrans, getSt, KeywordTree.new, rootState, alookup,
      Array.get?_eq_getElem?])
  · exact absurd h (by simp [lookupTrans, getSt, KeywordTree.new,
      Array.get?_eq_getElem?, Array.getElem?_eq_none_iff])

theorem addAux_NK {a : Array PState} (hnk : NK a) (hw : WFB a) {cur : Nat}
    (hcur : cur < a.size) (s : Str) : NK (addAux a cur s).1 := by
  induction s generalizing a cur with
  | nil => exact hnk
  | cons c cs ih =>
    rw [addAux]
    cases hl : lookupTrans a cur c with
    | some nxt =>
      simp only [hl]
      exact ih hnk hw (hw cur c nxt hl)
    | none =>
      simp only [hl]
      refine ih ?_ (WFB_step hw cur c) ?_
      · refine NK_addEdge (NK_push hnk (by simp [newNode])) a.size ?_
        exact lookupTrans_push_none _ hl hcur
      · rw [size_addEdge, Array.size_push]
        omega

theorem addOr_NK {t : KeywordTree} {k : Str} (hf : t.finalized = false)
    (hw : WFB t.states) (h0 : 0 < t.states.size) (hnk : NK t.states) :
    NK (addOr t k).states := by
  rw [addOr, KeywordTree.add, if_neg (by rw [hf]; simp)]
  by_cases hlen : (if t.case_insensitive then lowerStr k else k).length = 0
  · rw [if_pos hlen]
    exact hnk
  · rw [if_neg hlen]
    exact NK_markEnd (addAux_NK hnk hw h0 _) _ _

theorem foldl_addOr_NK {t : KeywordTree}
    (h : t.finalized = false ∧ WFB t.states ∧ 0 < t.states.size ∧ NK t.states)
    (kws : List Str) :
    NK ((kws.foldl addOr t).states) := by
  induction kws generalizing t with
  | nil => exact h.2.2.2
  | cons k rest ih =>
    rw [List.foldl_cons]
    apply ih
    obtain ⟨hf, hw, h0, hnk⟩ := h
    have hwf1 := foldl_addOr_wf ⟨hf, hw, h0⟩ [k]
    exact ⟨hwf1.1, hwf1.2.1, hwf1.2.2, addOr_NK hf hw h0 hnk⟩

theorem buildTree_NK (ci : Bool) (kws : List Str) :
    NK (buildTree ci kws).states := by
  apply foldl_addOr_NK
  refine ⟨rfl, ?_, by simp [KeywordTree.new], ?_⟩
  · intro i c j h
    rcases i with _ | i
    · exact absurd h (by simp [lookupTrans, getSt, KeywordTree.new, rootState,
        alookup, Array.get?_eq_getElem?])
    · exact absurd h (by simp [lookupTrans, getSt, KeywordTree.new,
        Array.get?_eq_getElem?, Array.getElem?_eq_none_iff])
  · intro i s hg
    rcases i with _ | i
    · have hs : s = rootState := by
        have := hg
        simp only [getSt, KeywordTree.new, Array.get?_eq_getElem?] at this
        simpa using this.symm
      rw [hs]
      simp [rootState]
    · exact absurd hg (by simp [getSt, KeywordTree.new,
        Array.get?_eq_getElem?, Array.getElem?_eq_none_iff])

/-- Build-phase insertion only ever adds transitions: every lookup that
succeeds before an `addOr` still succeeds, with the same target, after it. -/
theorem lookupTrans_addOr {t : KeywordTree} {k : Str} {i : Nat} {c : Char} {j : Nat}
    (h : lookupTrans t.states i c = some j) :
    lookupTrans (addOr t k).states i c = some j := by
  rw [addOr]
  cases hadd : t.add k with
  | ok t1 =>
    rw [KeywordTree.add] at hadd
    by_cases hf : t.finalized
    · rw [if_pos hf] at hadd
      exact absurd hadd (by simp)
    · rw [if_neg hf] at hadd
      by_cases hlen : (if t.case_insensitive then lowerStr k else k).length = 0
      · rw [if_pos hlen] at hadd
        obtain rfl := POut.ok.inj hadd
        exact h
      · rw [if_neg hlen] at hadd
        obtain rfl := POut.ok.inj hadd
        show lookupTrans (markEnd _ _ _) i c = some j
        rw [lookupTrans_markEnd]
        exact addAux_preserve h
  | exn => exact h
  | crash => exact h
  | fuel => exact h

theorem foldl_addOr_lookup {i : Nat} {c : Char} {j : Nat} :
    ∀ (kws : List Str) {t : KeywordTree}, lookupTrans t.states i c = some j →
    lookupTrans ((kws.foldl addOr t).states) i c = some j := by
  intro kws
  induction kws with
  | nil => intro t h; exact h
  | cons k rest ih =>
    intro t h
    rw [List.foldl_cons]
    exact ih (lookupTrans_addOr h)

/-- Adding a keyword with a nonempty normalization to an unfinalized
case-insensitive tree creates a terminal node: the walk along the lowered
keyword reaches a state marked successful that stores the original text. -/
theorem addOr_terminal {t : KeywordTree} (hf : t.finalized = false)
    (hci : t.case_insensitive = true) (hw : WFB t.states) (h0 : 0 < t.states.size)
    {k : Str} (hk : lowerStr k ≠ []) :
    ∃ e s, walk (addOr t k).states 0 (lowerStr k) = some e ∧
      getSt (addOr t k).states e = some s ∧
      s.success = true ∧ s.matched_keyword = some k := by
  have hlen : ¬ (if t.case_insensitive then lowerStr k else k).length = 0 := by
    rw [hci, if_pos rfl]
    intro h
    exact hk (List.length_eq_zero.1 h)
  have hadd : t.add k = .ok { t with
      states := markEnd (addAux t.states 0 (if t.case_insensitive then lowerStr k else k)).1
        (addAux t.states 0 (if t.case_insensitive then lowerStr k else k)).2 k } := by
    rw [KeywordTree.add, if_neg (by rw [hf]; exact Bool.false_ne_true), if_neg hlen]
  have hkw : (if t.case_insensitive then lowerStr k else k) = lowerStr k := by
    rw [hci]
    rfl
  rw [addOr, hadd, hkw]
  set r := addAux t.states 0 (lowerStr k) with hr
  have hwalk : walk r.1 0 (lowerStr k) = some r.2 := addAux_walk hw h0 _
  have helt : r.2 < r.1.size := addAux_end_lt hw h0 _
  have hg : getSt (markEnd r.1 r.2 k) r.2 =
      some { r.1[r.2] with success := true, matched_keyword := some k } := by
    rw [markEnd, getSt_modify, if_pos rfl, getSt_eq_of_lt helt]
    rfl
  refine ⟨r.2, _, ?_, hg, rfl, rfl⟩
  rw [walk_congr (fun i c => lookupTrans_markEnd r.1 r.2 k i c)]
  exact hwalk

/-- Case-insensitive folding of the case-insensitive flag through `buildTree`
is immediate, but the second add of a case-equal keyword is the interesting
step: when the lowered keyword's path already exists, `addAux` degenerates to
the pure walk and `add` merely re-marks the existing terminal node. -/
theorem addOr_of_walk {t : KeywordTree} (hf : t.finalized = false)
    (hci : t.case_insensitive = true) {k : Str} (hk : lowerStr k ≠ [])
    {e : Nat} (hwalk : walk t.states 0 (lowerStr k) = some e) :
    (addOr t k).states = markEnd t.states e k := by
  have hlen : ¬ (if t.case_insensitive then lowerStr k else k).length = 0 := by
    rw [hci, if_pos rfl]
    intro h
    exact hk (List.length_eq_zero.1 h)
  have hadd : t.add k = .ok { t with
      states := markEnd (addAux t.states 0 (if t.case_insensitive then lowerStr k else k)).1
        (addAux t.states 0 (if t.case_insensitive then lowerStr k else k)).2 k } := by
    rw [KeywordTree.add, if_neg (by rw [hf]; exact Bool.false_ne_true), if_neg hlen]
  have hkw : (if t.case_insensitive then lowerStr k else k) = lowerStr k := by
    rw [hci]
    rfl
  rw [addOr, hadd]
  show markEnd (addAux t.states 0 (if t.case_insensitive then lowerStr k else k)).1
      (addAux t.states 0 (if t.case_insensitive then lowerStr k else k)).2 k
    = markEnd t.states e k
  rw [hkw, addAux_of_walk hwalk]

/-- Totality of `finalize` on any unfinalized arena satisfying the build
invariants, together with the merge-coverage guarantee relative to the
pre-finalize transition tables. -/
theorem finalize_total {t : KeywordTree} (hB : BInv t.states)
    (hnkB : NK t.states) (hf : t.finalized = false) :
    ∃ t2, t.finalize = .ok t2 ∧ MCov t.states t2.states ∧
      WAll t.states t2.states := by
  have inv0 : FInv (setLss t.states 0 0) :=
    finv_setLss (binv_finv hB) (fun _ => rfl) (fun h0 => absurd rfl h0)
  have hg0 := getSt_eq_of_lt hB.hsize
  have hR0 : lssSetAt (setLss t.states 0 0) 0 :=
    setLss_setsAt hg0 0
  have hnk0 : NK (setLss t.states 0 0) := NK_setLss hnkB 0 0
  have hpt0 : PT (setLss t.states 0 0) := by
    intro i s hg c tt hm2
    rw [setLss] at hg
    rcases modify_back hg with ⟨_, hga⟩ | ⟨hki, s0, hga, rfl⟩
    · obtain ⟨f1, f2, s2, hg2, hp2, hs2⟩ := hB.hbedge i s hga c tt hm2
      obtain ⟨ts2, hgt2, hpar2⟩ := PTtarget_setLss 0 0 hg2 hp2
      exact ⟨ts2, i, hgt2, hpar2, Or.inl rfl⟩
    · obtain ⟨f1, f2, s2, hg2, hp2, hs2⟩ := hB.hbedge i s0 hga c tt hm2
      obtain ⟨ts2, hgt2, hpar2⟩ := PTtarget_setLss 0 0 hg2 hp2
      exact ⟨ts2, i, hgt2, hpar2, Or.inl rfl⟩
  have hcc0 : CCfull (setLss t.states 0 0) := by
    intro i s j hg hl
    rw [setLss] at hg
    rcases modify_back hg with ⟨_, hga⟩ | ⟨hki, s0, hga, rfl⟩
    · exact absurd ((hB.hlssnone i s hga).symm.trans hl) (by simp)
    · have hj : j = 0 := (Option.some.inj hl).symm
      subst hj
      exact hR0
  have hS0 : SINV (setLss t.states 0 0) [] [0] := by
    intro k u hk hu
    exact absurd hu (by simp)
  have hsl0 : ∀ i, i ∈ [0] →
      lssSetAt (setLss t.states 0 0) i := by
    intro i hi
    rcases List.mem_cons.1 hi with rfl | hi2
    · exact hR0
    · exact absurd hi2 (by simp)
  have hcard : ((Finset.range (setLss t.states 0 0).size).filter
      (fun v => v ∉ ([] : List Nat))).card
      = (setLss t.states 0 0).size := by
    rw [Finset.filter_true_of_mem (fun x _ => by simp), Finset.card_range]
  have hfuel : ([0] : List Nat).length +
      (setLss t.states 0 0).size *
      ((Finset.range (setLss t.states 0 0).size).filter
        (fun v => v ∉ ([] : List Nat))).card
      < (setLss t.states 0 0).size *
        (setLss t.states 0 0).size + 2 := by
    rw [hcard]
    simp only [List.length_cons, List.length_nil]
    omega
  have hLM0 : LMono t.states
      (setLss t.states 0 0) := fun q c j h =>
    (lookupTrans_setLss t.states 0 0 q c).trans h
  have hMC0 : MCov t.states
      (setLss t.states 0 0) := by
    intro i s q hg hl hq0 c j hbj
    rw [setLss] at hg
    rcases modify_back hg with ⟨_, hga⟩ | ⟨hki, s0, hga, rfl⟩
    · exact absurd ((hB.hlssnone i s hga).symm.trans hl) (by simp)
    · exact absurd (Option.some.inj hl).symm hq0
  have hPr0 : Pristine t.states (setLss t.states 0 0) := by
    intro x s hgx hlx c
    have hx0 : (0 : Nat) ≠ x := by
      intro he
      rw [← he, setLss, getSt_modify, if_pos rfl, hg0] at hgx
      obtain rfl := Option.some.inj hgx
      exact absurd hlx (by simp)
    rw [getSt_setLss_other t.states 0 hx0] at hgx
    rw [lookupTrans_setLss]
  have hW0 : WAll t.states (setLss t.states 0 0) := by
    intro x s q hgx hlx hx0
    rw [getSt_setLss_other t.states 0 (fun he => hx0 he.symm)] at hgx
    exact absurd ((hB.hlssnone x s hgx).symm.trans hlx) (by simp)
  obtain ⟨a2, hrun, hMCfin, hPrfin, hWfin⟩ := dfsLoop_total
    ((setLss t.states 0 0).size *
      (setLss t.states 0 0).size + 2)
    inv0 hnk0 hpt0 hR0 hcc0 hLM0 hMC0 hPr0 hW0 (Nat.lt_succ_self _)
    (fun i hi => absurd hi (by simp)) hsl0 hS0 hfuel
  refine ⟨{ t with states := a2, finalized := true }, ?_, hMCfin, hWfin⟩
  rw [KeywordTree.finalize, if_neg (by rw [hf]; simp)]
  simp only [hrun]


/-! ## Claims -/

/-- C1: for the automaton built case-sensitively from
{"a","ab","bab","bc","bca","c","caa"} and then finalized, searching "abccab"
emits exactly `c1emitted`; erasing positions gives the `search_all` result;
and at every ending position of the text the multiset of emitted keywords is
exactly the multiset the brute-force check (every keyword against every
substring ending there) reports. -/
theorem claim_C1 :
    searchPosResult c1tree c1text = .ok c1emitted ∧
    searchResult c1tree c1text = .ok (c1emitted.map Prod.snd) ∧
    ∀ p < c1text.length,
      ((c1emitted.filter (fun e => e.1 = p)).map Prod.snd).Perm
        ((bruteAt c1kws c1text p).map some) :=
  ⟨by decide, by decide, by decide⟩

/-- Witness for C1 at the ending position 2 (where both "bc" and "c" match). -/
theorem claim_C1_witness :
    ((c1emitted.filter (fun e => e.1 = 2)).map Prod.snd).Perm
      ((bruteAt c1kws c1text 2).map some) :=
  claim_C1.2.2 2 (by decide)

/-- C3: on any automaton value, `add` after finalization raises the
`StateError` (`ValueError` in the source), `finalize` a second time raises it,
and `search_all` before finalization raises it; in each case the result is the
bare error (the flag test is the first statement of each method, so no work
happens and the automaton is unchanged). -/
theorem claim_C3 (t : KeywordTree) (kw text : Str) :
    (t.finalized = true → t.add kw = .exn ∧ t.finalize = .exn) ∧
    (t.finalized = false → t.search_all text = .exn) := by
  constructor
  · intro h
    constructor
    · simp [KeywordTree.add, h]
    · simp [KeywordTree.finalize, h]
  · intro h
    simp [KeywordTree.search_all, h]

/-- Witness for C3: a finalized automaton rejects `add` and `finalize`, and a
fresh automaton rejects `search_all`. -/
theorem claim_C3_witness :
    (c3tree.add (str "a") = .exn ∧ c3tree.finalize = .exn) ∧
    (KeywordTree.new false).search_all (str "a") = .exn :=
  ⟨(claim_C3 c3tree (str "a") (str "a")).1 rfl,
   (claim_C3 (KeywordTree.new false) (str "a") (str "a")).2 rfl⟩

/-- C4: for every finalized automaton (built from any keyword list, with
either case mode) and every text in which no keyword occurs (no normalized
keyword is an infix of the normalized text), `search_all` returns the empty
list — an `.ok []` value, never an absent/null result.  The particular
instance (keywords {"abc"}, text "xyz") is the witness below. -/
theorem claim_C4 (ci : Bool) (kws : List Str) (text : Str) (t2 : KeywordTree)
    (hfin : (buildTree ci kws).finalize = .ok t2)
    (hnom : ∀ kw, kw ∈ kws → ¬ norm ci kw <:+: norm ci text) :
    t2.search_all text = .ok [] := by
  obtain ⟨hB, hf, hc, hm⟩ := buildTree_master ci kws
  obtain ⟨inv, hfr, hfin2, hci⟩ := finalize_ok hB hfin
  have hm2 : HM ci kws t2.states := HM_frame hfr hm
  have hcov := finalize_covers hB hfin
  rw [KeywordTree.search_all, if_neg (by rw [hfin2]; simp), hci.trans hc]
  show searchLoop t2.states (t2.states.size + 1) 0 (norm ci text) [] = .ok []
  refine searchLoop_noemit inv hcov hm2 hnom (norm ci text) [] (by simp)
    0 inv.hsize ?_ []
  rw [path_zero]

/-- Witness for C4: the no-match baseline of the spec, keywords {"abc"} and
text "xyz". -/
theorem claim_C4_witness :
    (buildTree false [str "abc"]).finalize
        = .ok (finTree (buildTree false [str "abc"])) ∧
    (∀ kw, kw ∈ [str "abc"] → ¬ norm false kw <:+: norm false (str "xyz")) ∧
    (finTree (buildTree false [str "abc"])).search_all (str "xyz") = .ok [] :=
  ⟨by decide, by decide,
   claim_C4 false [str "abc"] (str "xyz") _ (by decide) (by decide)⟩

/-- C5: with `case_insensitive=true` and keyword "Cat", searching
"the cat sat" reports the original form "Cat" at ending position 6 (where
"cat" occurs); with `case_insensitive=false` it reports no match. -/
theorem claim_C5 :
    searchPosResult (buildTree true [str "Cat"]) (str "the cat sat") =
      .ok [(6, some (str "Cat"))] ∧
    searchResult (buildTree false [str "Cat"]) (str "the cat sat") = .ok [] :=
  ⟨by decide, by decide⟩

/-- C8 counterexample: keywords {"ab","c"}, case-sensitive.  After finalize,
node 1 (the node for "a") has suffix link 0 (the root), the root maps 'c' to
node 3, node 1 has no direct child for 'c' — yet node 1's transition table
does not map 'c' (the source skips transition merging when the suffix target
is the root), refuting the claim as stated. -/
theorem claim_C8_counterexample :
    (buildTree false [str "ab", str "c"]).finalize = .ok c8tree ∧
    (c8tree.states.get? 1).map PState.symbol = some (some 'a') ∧
    (c8tree.states.get? 1).map PState.longest_strict_suffix = some (some 0) ∧
    lookupTrans c8tree.states 0 'c' = some 3 ∧
    lookupTrans c8tree.states 1 'c' = none := by
  decide

/-- C8 (amended): the transition-completion invariant holds for every node
whose suffix-link target is not the root (the source skips the merge when the
suffix target is the root — see the counterexample), and there it holds
exactly as claimed: after finalize, for every node `i` with suffix link to a
non-root node `q` and every symbol `c` mapped (to `j`) in `q`'s finalized
transition table such that `i` has no direct build-phase child for `c`, node
`i`'s finalized table maps `c` to the very same target `j`. -/
theorem claim_C8 (ci : Bool) (kws : List Str) (t2 : KeywordTree)
    (hfin : (buildTree ci kws).finalize = .ok t2) :
    ∀ i s q c j, getSt t2.states i = some s →
      s.longest_strict_suffix = some q → q ≠ 0 →
      lookupTrans t2.states q c = some j →
      lookupTrans (buildTree ci kws).states i c = none →
      lookupTrans t2.states i c = some j := by
  obtain ⟨hB, hf, _, _⟩ := buildTree_master ci kws
  obtain ⟨t3, he, _, hW⟩ := finalize_total hB (buildTree_NK ci kws) hf
  rw [hfin] at he
  obtain rfl := POut.ok.inj he
  obtain ⟨hFI, _, _, _⟩ := finalize_ok hB hfin
  intro i s q c j hg hl hq0 hlq hbn
  have hi0 : i ≠ 0 := by
    intro h0
    rw [h0] at hg
    exact hq0 (hFI.hlss0 s q hg hl)
  have hw := (hW i s q hg hl hi0).2 hq0 c hbn
  rw [hw]
  exact hlq

/-- Witness for the amended C8: keywords {"aab","ab","b"} — after finalize
the node for "aa" (index 2) has suffix link to the node for "a" (index 1,
non-root), node 1 maps 'a' to node 2 ("aa") in its finalized table, node 2
has no build-phase child for 'a', and node 2's finalized table indeed maps
'a' to that same node 2. -/
theorem claim_C8_witness :
    (buildTree false [str "aab", str "ab", str "b"]).finalize
        = .ok (finTree (buildTree false [str "aab", str "ab", str "b"])) ∧
    getSt (finTree (buildTree false [str "aab", str "ab", str "b"])).states 2
        = some ((getSt (finTree (buildTree false
            [str "aab", str "ab", str "b"])).states 2).getD rootState) ∧
    ((getSt (finTree (buildTree false
        [str "aab", str "ab", str "b"])).states 2).getD
        rootState).longest_strict_suffix = some 1 ∧
    lookupTrans (finTree (buildTree false
        [str "aab", str "ab", str "b"])).states 1 'a' = some 2 ∧
    lookupTrans (buildTree false [str "aab", str "ab", str "b"]).states 2 'a'
        = none ∧
    lookupTrans (finTree (buildTree false
        [str "aab", str "ab", str "b"])).states 2 'a' = some 2 :=
  ⟨by decide, by decide, by decide, by decide, by decide,
    claim_C8 false [str "aab", str "ab", str "b"] _ (by decide) 2
      ((getSt (finTree (buildTree false
        [str "aab", str "ab", str "b"])).states 2).getD rootState) 1 'a' 2
      (by decide) (by decide) (by decide) (by decide) (by decide)⟩

/-- C9: `finalize` terminates on every trie built by a sequence of `add`
calls: the suffix-link walk of every `search_lss` bottoms out (each step
strictly decreases depth, reaching a hit or the root), the recursive
resolution of unset suffix targets terminates (each recursion strictly
decreases depth), and the worklist loop finishes within its quadratic budget —
so the whole run returns normally instead of exhausting fuel or crashing. -/
theorem claim_C9 (ci : Bool) (kws : List Str) :
    ∃ t2, (buildTree ci kws).finalize = .ok t2 := by
  obtain ⟨hB, hf, _, _⟩ := buildTree_master ci kws
  obtain ⟨t2, he, _⟩ := finalize_total hB (buildTree_NK ci kws) hf
  exact ⟨t2, he⟩

/-- C10: with `case_insensitive=true`, for every pair of added keywords that
differ only in letter case (`k1` added earlier, `k2` added last, so `k2` is
the most recently added original form), the second add creates no new states
(the keywords share the same terminal node), the terminal node reached by the
lowered keyword stores `k2` as its original text and is marked successful, and
on every text every reported match whose lowering equals that keyword is the
most recently added original form `k2`. -/
theorem claim_C10 (kws1 kws2 : List Str) (k1 k2 : Str)
    (hlow : lowerStr k1 = lowerStr k2) (hne : lowerStr k1 ≠ [])
    (t2 : KeywordTree)
    (hfin : (buildTree true (kws1 ++ k1 :: kws2 ++ [k2])).finalize = .ok t2) :
    (buildTree true (kws1 ++ k1 :: kws2 ++ [k2])).states.size
      = (buildTree true (kws1 ++ k1 :: kws2)).states.size ∧
    (∃ e s, walk t2.states 0 (lowerStr k1) = some e ∧ getSt t2.states e = some s ∧
      s.success = true ∧ s.matched_keyword = some k2) ∧
    (∀ text l, t2.search_all text = .ok l →
      ∀ kw, some kw ∈ l → lowerStr kw = lowerStr k1 → kw = k2) := by
  have hne2 : lowerStr k2 ≠ [] := hlow ▸ hne
  -- the tree with everything but the final `add`, and its invariants
  have hsplit1 : buildTree true (kws1 ++ k1 :: kws2)
      = kws2.foldl addOr (addOr (buildTree true kws1) k1) := by
    show (kws1 ++ k1 :: kws2).foldl addOr _ = _
    rw [List.foldl_append, List.foldl_cons]
    rfl
  obtain ⟨hfA, hwA, h0A⟩ := buildTree_wf true kws1
  have hciA := (buildTree_master true kws1).2.2.1
  -- terminal node of `k1` right after its own insertion
  obtain ⟨e, s1, hwalkB, hgB, hsB, hmB⟩ := addOr_terminal hfA hciA hwA h0A hne
  -- the walk survives the insertions of `kws2` (lookups are only ever added)
  have hwalkC : walk (buildTree true (kws1 ++ k1 :: kws2)).states 0 (lowerStr k1)
      = some e := by
    rw [hsplit1]
    exact walk_mono (fun i c j h => foldl_addOr_lookup kws2 h) _ 0 e hwalkB
  obtain ⟨hfC, hwC, h0C⟩ := buildTree_wf true (kws1 ++ k1 :: kws2)
  have hciC := (buildTree_master true (kws1 ++ k1 :: kws2)).2.2.1
  have helt : e < (buildTree true (kws1 ++ k1 :: kws2)).states.size :=
    walk_lt hwC (lowerStr k1) h0C hwalkC
  -- the final add degenerates to re-marking node `e`
  have hsplit2 : buildTree true (kws1 ++ k1 :: kws2 ++ [k2])
      = addOr (buildTree true (kws1 ++ k1 :: kws2)) k2 := by
    show (kws1 ++ k1 :: kws2 ++ [k2]).foldl addOr _ = _
    rw [show kws1 ++ k1 :: kws2 ++ [k2] = (kws1 ++ k1 :: kws2) ++ [k2] by simp,
      List.foldl_append]
    rfl
  have hmk : (buildTree true (kws1 ++ k1 :: kws2 ++ [k2])).states
      = markEnd (buildTree true (kws1 ++ k1 :: kws2)).states e k2 := by
    rw [hsplit2]
    exact addOr_of_walk hfC hciC hne2 (hlow ▸ hwalkC)
  refine ⟨by rw [hmk, markEnd]; exact Array.size_modify .., ?_⟩
  -- data of the terminal node in the pre-finalize arena
  have hg0 : getSt (buildTree true (kws1 ++ k1 :: kws2 ++ [k2])).states e =
      some { (buildTree true (kws1 ++ k1 :: kws2)).states[e] with
        success := true, matched_keyword := some k2 } := by
    rw [hmk, markEnd, getSt_modify, if_pos rfl, getSt_eq_of_lt helt]
    rfl
  have hwalk0 : walk (buildTree true (kws1 ++ k1 :: kws2 ++ [k2])).states 0
      (lowerStr k1) = some e := by
    rw [hmk, walk_congr (fun i c => lookupTrans_markEnd _ e k2 i c)]
    exact hwalkC
  -- transport through `finalize`
  have hB := (buildTree_master true (kws1 ++ k1 :: kws2 ++ [k2])).1
  have hHM := (buildTree_master true (kws1 ++ k1 :: kws2 ++ [k2])).2.2.2
  obtain ⟨hFI, hfr, _, _⟩ := finalize_ok hB hfin
  have hwalk2 : walk t2.states 0 (lowerStr k1) = some e :=
    walk_mono hfr.2.2.2.1 (lowerStr k1) 0 e hwalk0
  have hse := hfr.2.2.1 e
  rw [hg0] at hse
  cases hg2 : getSt t2.states e with
  | none => rw [hg2] at hse; exact absurd hse (by simp)
  | some s2 =>
    rw [hg2] at hse
    simp only [Option.map_some'] at hse
    obtain ⟨hs2a, hs2b⟩ := Prod.mk.inj (Option.some.inj hse)
    refine ⟨⟨e, s2, hwalk2, hg2, hs2a, hs2b⟩, ?_⟩
    -- every later reported match of the lowered keyword is `k2`
    intro text l hsearch kw hmem hkwlow
    obtain ⟨i, si, hgi, hsi, hmi⟩ := searchAll_mem hsearch (some kw) hmem
    have hHM2 : HM true (kws1 ++ k1 :: kws2 ++ [k2]) t2.states := HM_frame hfr hHM
    obtain ⟨kw1, _, hmk1, hpath1⟩ := hHM2 i si hgi hsi
    have hkweq : kw1 = kw := Option.some.inj (hmk1.symm.trans hmi)
    have hpath2 : path t2.states i = lowerStr k1 := by
      rw [hpath1, hkweq]
      show (if true then lowerStr kw else kw) = lowerStr k1
      rw [if_pos rfl, hkwlow]
    have hwi : walk t2.states 0 (lowerStr k1) = some i := by
      rw [← hpath2]
      exact walk_path hFI i (getSt_lt hgi)
    have hie : i = e := Option.some.inj (hwi.symm.trans hwalk2)
    rw [hie, hg2] at hgi
    obtain rfl := Option.some.inj hgi
    exact Option.some.inj (hmi.symm.trans hs2b)

theorem claim_C10_witness :
    lowerStr (str "Cat") = lowerStr (str "CAT") ∧ lowerStr (str "Cat") ≠ [] ∧
    (buildTree true [str "Cat", str "CAT"]).finalize = .ok (finTree c10twice) ∧
    (buildTree true [str "Cat", str "CAT"]).states.size
      = (buildTree true [str "Cat"]).states.size ∧
    ∃ e s, walk (finTree c10twice).states 0 (lowerStr (str "Cat")) = some e ∧
      getSt (finTree c10twice).states e = some s ∧
      s.success = true ∧ s.matched_keyword = some (str "CAT") :=
  have h := claim_C10 [] [] (str "Cat") (str "CAT") (by decide) (by decide)
    (finTree c10twice) (by decide)
  ⟨by decide, by decide, by decide, h.1, h.2.1⟩

/-- C6: for every finalized automaton (built from any keyword list, with
either case mode) and every text, the result sequence of `search_all` is the
position-erasure of the instrumented run, whose entries are ordered by ending
position, and among entries with the same ending position the longer matched
keyword comes first (`POrder`). -/
theorem claim_C6 (ci : Bool) (kws : List Str) (text : Str) (t2 : KeywordTree)
    (l : List (Nat × Option Str))
    (hfin : (buildTree ci kws).finalize = .ok t2)
    (hrun : t2.searchAllPos text = .ok l) :
    t2.search_all text = .ok (l.map Prod.snd) ∧ List.Pairwise POrder l := by
  obtain ⟨hB, hf, hc, hm⟩ := buildTree_master ci kws
  obtain ⟨inv, hfr, hfin2, hci⟩ := finalize_ok hB hfin
  have hml : MLen t2.states := mlen_of_hm inv (HM_frame hfr hm)
  refine ⟨?_, ?_⟩
  · rw [searchAll_erase, hrun]
    rfl
  · rw [KeywordTree.searchAllPos, if_neg (by rw [hfin2]; simp)] at hrun
    obtain ⟨em, hres, _, hpw⟩ := searchLoopPos_sorted inv hml _ _ 0 0 [] l hrun
    rw [hres]
    simpa using hpw

/-- Witness for C6: the C1 example automaton and text. -/
theorem claim_C6_witness :
    (finTree c1tree).search_all c1text = .ok (c1emitted.map Prod.snd) ∧
      List.Pairwise POrder c1emitted :=
  claim_C6 false c1kws c1text (finTree c1tree) c1emitted (by decide) (by decide)

/-- C7: double insertion is behaviorally idempotent.  Every automaton in the
build phase is `buildTree ci kws` for the keywords inserted so far; adding `k`
twice to it and finalizing gives the same `search_all` result on every text as
adding `k` once (in fact the two automata are equal). -/
theorem claim_C7 (ci : Bool) (kws : List Str) (k text : Str) :
    searchResult (addOr (addOr (buildTree ci kws) k) k) text
      = searchResult (addOr (buildTree ci kws) k) text := by
  obtain ⟨hf, hw, h0⟩ := buildTree_wf ci kws
  obtain ⟨t1, h1, h2, _, _, _⟩ := add_add hf hw h0 k
  simp only [addOr, h1, h2]

/-- C2, evaluation at the failing inputs: (a) a well-formed invocation with a
valid flag, a valid connector and one keyword prints the usage text instead of
reporting lines (the guard requires `len(argv) >= 6`, i.e. two keywords);
(b) with two keywords, the automaton that `main` seeds also contains the case
flag and the connector as keywords (`for i in range(2, args)`), so it matches
"or" — the claim's automaton, seeded with exactly {"cat","dog"}, would not. -/
theorem claim_C2_eval :
    mainModel ["pygrep.py", "f.txt", "true", "or", "cat"] ["a cat"] = none ∧
    searchResult (mainTree ["pygrep.py", "f.txt", "true", "or", "cat", "dog"])
      (str "x or y") = .ok [some (str "or")] := by
  decide

end Pygrep
